import Mathlib

/-!
HashMap-Library: a separate-chaining hash table (`src/HashMap.hpp`).

Shallow embedding of the class template `HashMap<KeyT, ValueT>` and a
verification of its contract.

Modelling conventions.

* The heap array `_hashTable` of `_capacity` buckets is a `List` of buckets, a
  bucket (`std::list<std::pair<KeyT, ValueT>>`) is a `List (K × V)`.  Reading
  `_hashTable[i]` is `getD i []`, writing it is `List.set`.
* `std::hash<KeyT>` is a parameter `hash : K → Nat`; `KeyT`'s `operator==` is the
  decidable equality of `K`.
* `ValueT`'s `operator==` is the operation `ValueEq.veq` of the value type.  It
  decides what `std::list::remove` deletes in `erase`, and it need not hold of a
  value and itself (a `double` NaN).  Statements that need it to do so say so.
  In the table's own `operator==`, which is defined by the comparison of the
  values, `!=` on values is the negation of the equality of `V`.
* `size_t` and `int` indices are natural numbers: the embedding describes tables
  whose bucket array fits an `int` index (`_capacity ≤ 2^31`), where no
  conversion or product in the source wraps.
* `load_factor()` is the exact quotient `_size / _capacity` in `ℚ`.  The source
  computes it in `double`; for `_size < 2^53` and a power-of-two `_capacity` the
  `double` quotient is exact, and `0.25`, `0.75` are binary fractions.
* Operations that mutate the table return the new table next to their C++
  return value.  A thrown exception is the `Except.error` result.
* A `ValueT &` returned by `at`/`operator[]` is a `ValueRef`: the bucket index
  and the position in that bucket of the aliased pair.
* A `ConstIterator` is its `_curIndex`, `_cur` and `_counter`; `_cur` is a bucket
  index with a position, and the table it belongs to is an argument of the
  iterator functions.  Its two `while` loops carry a bound on their rounds and
  are proved to finish within it.
-/

set_option autoImplicit false
set_option linter.unusedSectionVars false

namespace HashMapLib

/-- The two exception classes of `HashMap`. -/
inductive HashMapError where
  | KeyNotFound
  | VectorsLength
deriving DecidableEq, Repr

deriving instance DecidableEq for Except

/-- A bucket: `template<...> using bucket = list<pair<KeyT, ValueT>>`. -/
abbrev bucket (K V : Type) := List (K × V)

/-- The data members of `class HashMap`. -/
structure HashMap (K V : Type) where
  _capacity : Nat
  _size : Nat
  _hashTable : List (bucket K V)
deriving DecidableEq, Repr

/-- `ValueT`'s `operator==`, the comparison `std::list::remove` applies to the
values of two pairs. -/
class ValueEq (V : Type) where
  veq : V → V → Bool

/-- An alias to a stored value (`ValueT &`): bucket index and position in it. -/
structure ValueRef where
  bucketIdx : Nat
  pos : Nat
deriving DecidableEq, Repr

def DEFAULT_CAPACITY : Nat := 16
def MINIMAL_CAPACITY : Nat := 1
def LOW_LOAD_FACTOR : ℚ := 1 / 4
def HIGH_LOAD_FACTOR : ℚ := 3 / 4

section Operations

variable {K V : Type} [DecidableEq K] [DecidableEq V]

/-- `size()`. -/
def size (m : HashMap K V) : Nat := m._size

/-- `capacity()`. -/
def capacity (m : HashMap K V) : Nat := m._capacity

/-- `empty()`: `_size == 0`. -/
def empty (m : HashMap K V) : Bool := m._size == 0

/-- `load_factor()`: `(double) size() / capacity()`. -/
def load_factor (m : HashMap K V) : ℚ := (size m : ℚ) / (capacity m : ℚ)

/-- `_upperLoadFactor()`: `load_factor() > HIGH_LOAD_FACTOR`. -/
def _upperLoadFactor (m : HashMap K V) : Bool := decide (load_factor m > HIGH_LOAD_FACTOR)

/-- `_lowerLoadFactor()`: `load_factor() < LOW_LOAD_FACTOR`. -/
def _lowerLoadFactor (m : HashMap K V) : Bool := decide (load_factor m < LOW_LOAD_FACTOR)

/-- `_hash(key)`: `std::hash<KeyT>{}(key) & (capacity() - 1)`. -/
def _hash (hash : K → Nat) (m : HashMap K V) (key : K) : Nat :=
  hash key &&& (capacity m - 1)

/-- `table[idx].push_back(p)` on a bucket array. -/
def pushBack (table : List (bucket K V)) (idx : Nat) (p : K × V) : List (bucket K V) :=
  table.set idx (table.getD idx [] ++ [p])

/-- The inner loop of `_rehash`: every pair of one old bucket is appended to the
bucket of `newMap` selected by the new capacity. -/
def rehashBucket (hash : K → Nat) (newCapacity : Nat) (newMap : List (bucket K V))
    (b : bucket K V) : List (bucket K V) :=
  b.foldl (fun nm tuple => pushBack nm (hash tuple.1 &&& (newCapacity - 1)) (tuple.1, tuple.2))
    newMap

/-- `_rehash(newCapacity)`: a fresh array of `newCapacity` empty buckets is filled
from the old buckets `0 .. capacity()-1` in order and replaces the old array. -/
def _rehash (hash : K → Nat) (m : HashMap K V) (newCapacity : Nat) : HashMap K V :=
  let newMap : List (bucket K V) := List.replicate newCapacity []
  let newMap := (List.range (capacity m)).foldl
    (fun nm i => rehashBucket hash newCapacity nm (m._hashTable.getD i [])) newMap
  { _capacity := newCapacity, _size := m._size, _hashTable := newMap }

/-- The default constructor: capacity `DEFAULT_CAPACITY`, size 0, empty buckets. -/
def mkDefault : HashMap K V :=
  { _capacity := DEFAULT_CAPACITY, _size := 0, _hashTable := List.replicate DEFAULT_CAPACITY [] }

/-- `contains_key(key)`. -/
def contains_key (hash : K → Nat) (m : HashMap K V) (key : K) : Bool :=
  let index := _hash hash m key
  if empty m || (m._hashTable.getD index []).isEmpty then false
  else (m._hashTable.getD index []).any (fun tuple => decide (tuple.1 = key))

/-- `insert(key, val)`. -/
def insert (hash : K → Nat) (m : HashMap K V) (key : K) (val : V) : HashMap K V × Bool :=
  if contains_key hash m key then (m, false)
  else
    let index := _hash hash m key
    let m1 : HashMap K V :=
      { m with _hashTable := pushBack m._hashTable index (key, val), _size := m._size + 1 }
    if _upperLoadFactor m1 then (_rehash hash m1 (capacity m1 * 2), true) else (m1, true)

/-- `at(key) const`: the value of the first pair of the key's bucket whose key
matches, `KeyNotFound` when there is none. -/
def atKey (hash : K → Nat) (m : HashMap K V) (key : K) : Except HashMapError V :=
  match (m._hashTable.getD (_hash hash m key) []).find? (fun tuple => decide (tuple.1 = key)) with
  | some tuple => .ok tuple.2
  | none => .error .KeyNotFound

/-- Position of the first pair of a bucket whose key is `key`. -/
def locate (key : K) : bucket K V → Option Nat
  | [] => none
  | tuple :: rest => if tuple.1 = key then some 0 else (locate key rest).map (· + 1)

/-- `at(key)` on a mutable table: an alias to the value of the first matching
pair of the key's bucket, `KeyNotFound` when there is none. -/
def atRef (hash : K → Nat) (m : HashMap K V) (key : K) : Except HashMapError ValueRef :=
  match locate key (m._hashTable.getD (_hash hash m key) []) with
  | some pos => .ok ⟨_hash hash m key, pos⟩
  | none => .error .KeyNotFound

/-- Reading through an alias. -/
def readRef (m : HashMap K V) (r : ValueRef) : Option V :=
  ((m._hashTable.getD r.bucketIdx [])[r.pos]?).map Prod.snd

/-- Overwrite the value of the pair at position `pos` of a bucket. -/
def storeAt (val : V) : bucket K V → Nat → bucket K V
  | [], _ => []
  | tuple :: rest, 0 => (tuple.1, val) :: rest
  | tuple :: rest, pos + 1 => tuple :: storeAt val rest pos

/-- Assigning through an alias: `ref = val`. -/
def writeRef (m : HashMap K V) (r : ValueRef) (val : V) : HashMap K V :=
  { m with _hashTable :=
      m._hashTable.set r.bucketIdx (storeAt val (m._hashTable.getD r.bucketIdx []) r.pos) }

/-- The loop of `erase`: the first pair with the key is copied and
`std::list::remove` deletes every pair that `operator==` of `std::pair` finds
equal to that copy: equal keys, and values that `ValueT`'s `operator==` accepts. -/
def removeFound [ValueEq V] (key : K) (b : bucket K V) : bucket K V :=
  match b.find? (fun tuple => decide (tuple.1 = key)) with
  | some tuple => b.filter (fun p => !(decide (p.1 = tuple.1) && ValueEq.veq p.2 tuple.2))
  | none => b

/-- `erase(key)`. -/
def erase [ValueEq V] (hash : K → Nat) (m : HashMap K V) (key : K) : HashMap K V × Bool :=
  if !contains_key hash m key then (m, false)
  else
    let index := _hash hash m key
    let m1 : HashMap K V :=
      { m with _hashTable := m._hashTable.set index (removeFound key (m._hashTable.getD index [])),
               _size := m._size - 1 }
    if _lowerLoadFactor m1 && decide (capacity m1 > MINIMAL_CAPACITY) then
      (_rehash hash m1 (capacity m1 / 2), true)
    else (m1, true)

/-- `clear()`: every bucket `0 .. _capacity-1` is emptied, then `_size = 0`. -/
def clear (m : HashMap K V) : HashMap K V :=
  { m with _hashTable := (List.range m._capacity).foldl (fun t i => t.set i []) m._hashTable,
           _size := 0 }

/-- `operator=(other)` for `this != &other`: the table is cleared and released,
capacity and size are taken from `other`, and a fresh array is filled with copies
of the buckets `0 .. other.capacity()-1` of `other`. -/
def copyFrom (self other : HashMap K V) : HashMap K V :=
  let cleared := clear self
  let fresh : List (bucket K V) := List.replicate (capacity other) []
  { cleared with
    _capacity := capacity other
    _size := size other
    _hashTable := (List.range (capacity other)).foldl
      (fun t i => t.set i (other._hashTable.getD i [])) fresh }

/-- `operator=`: `sameObject` is the outcome of the test `this != &other`
(self-assignment leaves the table as it is). -/
def assign (self other : HashMap K V) (sameObject : Bool) : HashMap K V :=
  if sameObject then self else copyFrom self other

/-- Mutable `operator[]`: inserts `ValueT()` for a missing key, then looks for the
key in the bucket whose index was computed BEFORE the insertion, and falls back
to `at(key)`. -/
def subscript [Inhabited V] (hash : K → Nat) (m : HashMap K V) (key : K) :
    HashMap K V × Except HashMapError ValueRef :=
  let index := _hash hash m key
  let m1 :=
    if empty m || (m._hashTable.getD index []).isEmpty || !contains_key hash m key then
      (insert hash m key default).1
    else m
  match locate key (m1._hashTable.getD index []) with
  | some pos => (m1, .ok ⟨index, pos⟩)
  | none => (m1, atRef hash m1 key)

/-- The statement `m[key] = val`. -/
def subscriptAssign [Inhabited V] (hash : K → Nat) (m : HashMap K V) (key : K) (val : V) :
    Except HashMapError (HashMap K V) :=
  match subscript hash m key with
  | (m1, .ok r) => .ok (writeRef m1 r val)
  | (_, .error e) => .error e

/-- The statement `m.at(key) = val`. -/
def atAssign (hash : K → Nat) (m : HashMap K V) (key : K) (val : V) :
    Except HashMapError (HashMap K V) :=
  match atRef hash m key with
  | .ok r => .ok (writeRef m r val)
  | .error e => .error e

/-- The `while` loop of the range constructor; it runs over the keys, and the
constructor enters it only with as many values as keys. -/
def insertAll (hash : K → Nat) : HashMap K V → List K → List V →
    Except HashMapError (HashMap K V)
  | m, curKey :: keys, curVal :: values =>
    match insert hash m curKey curVal with
    | (m1, true) => insertAll hash m1 keys values
    | (m1, false) =>
      match atAssign hash m1 curKey curVal with
      | .ok m2 => insertAll hash m2 keys values
      | .error e => .error e
  | m, _, _ => .ok m

/-- The range constructor `HashMap(keysBegin, keysEnd, valuesBegin, valuesEnd)`. -/
def mkFromRange (hash : K → Nat) (keys : List K) (values : List V) :
    Except HashMapError (HashMap K V) :=
  if (keys.length : Int) - (values.length : Int) ≠ 0 then .error .VectorsLength
  else insertAll hash mkDefault keys values

/-- Read-only `operator[]`: `ValueT()` for a missing key, otherwise the value of
the first pair of the key's bucket whose key matches, with `at(key)` as the
fall-through.  It returns a value and has no access to change the table. -/
def subscriptConst [Inhabited V] (hash : K → Nat) (m : HashMap K V) (key : K) :
    Except HashMapError V :=
  let index := _hash hash m key
  if empty m || (m._hashTable.getD index []).isEmpty || !contains_key hash m key then
    .ok default
  else
    match (m._hashTable.getD index []).find? (fun tuple => decide (tuple.1 = key)) with
    | some tuple => .ok tuple.2
    | none => atKey hash m key

/-- The inner loop of `operator==` over one bucket of `this`: `false` at the
first pair whose key `other` lacks or maps to a different value. -/
def equalsBucket [Inhabited V] (hash : K → Nat) (other : HashMap K V) :
    bucket K V → Except HashMapError Bool
  | [] => .ok true
  | tuple :: rest =>
    if !contains_key hash other tuple.1 then .ok false
    else
      match subscriptConst hash other tuple.1 with
      | .error e => .error e
      | .ok val => if val ≠ tuple.2 then .ok false else equalsBucket hash other rest

/-- The outer loop of `operator==` over the bucket indices of `this`. -/
def equalsLoop [Inhabited V] (hash : K → Nat) (self other : HashMap K V) :
    List Nat → Except HashMapError Bool
  | [] => .ok true
  | i :: is =>
    match equalsBucket hash other (self._hashTable.getD i []) with
    | .ok true => equalsLoop hash self other is
    | res => res

/-- `operator==`. -/
def equals [Inhabited V] (hash : K → Nat) (self other : HashMap K V) :
    Except HashMapError Bool :=
  if capacity self ≠ capacity other || size self ≠ size other then .ok false
  else equalsLoop hash self other (List.range (capacity self))

/-- `operator!=`: `!(*this == other)`. -/
def notEquals [Inhabited V] (hash : K → Nat) (self other : HashMap K V) :
    Except HashMapError Bool :=
  match equals hash self other with
  | .ok b => .ok (!b)
  | .error e => .error e

/-- The copy constructor: `HashMap(const HashMap &other) : HashMap() { *this = other; }`. -/
def copyConstruct (other : HashMap K V) : HashMap K V :=
  assign mkDefault other false

/-- `bucket_size(key)`. -/
def bucket_size (hash : K → Nat) (m : HashMap K V) (key : K) : Except HashMapError Nat :=
  if !contains_key hash m key then .error .KeyNotFound
  else .ok (m._hashTable.getD (_hash hash m key) []).length

/-- `bucket_index(key)`. -/
def bucket_index (hash : K → Nat) (m : HashMap K V) (key : K) : Except HashMapError Nat :=
  if !contains_key hash m key then .error .KeyNotFound
  else .ok (_hash hash m key)

end Operations

/-! ## The iterator `HashMap::ConstIterator` -/

section Iterator

variable {K V : Type} [DecidableEq K] [DecidableEq V]

/-- A `std::list<...>::const_iterator` into a bucket of the table: the bucket and
the position in it; the position equal to the bucket's length is `end()`. -/
structure ListIter where
  bucketIdx : Nat
  pos : Nat
deriving DecidableEq, Repr

/-- The data members of `ConstIterator` other than `_map`: the functions below
take the table the iterator belongs to as an argument.  `_cur = none` is the
list iterator built from `nullptr`. -/
structure ConstIterator where
  _curIndex : Nat
  _cur : Option ListIter
  _counter : Nat
deriving DecidableEq, Repr

/-- The `while` loop of `ConstIterator(hashMap, false)`:
`while (bucket[_curIndex].empty() && ++_curIndex < capacity()) _cur = bucket[_curIndex].begin()`.
The first argument bounds the number of rounds; `none` is the bound reached. -/
def beginLoop (m : HashMap K V) : Nat → ConstIterator → Option ConstIterator
  | 0, _ => none
  | fuel + 1, it =>
    if (m._hashTable.getD it._curIndex []).isEmpty then
      if it._curIndex + 1 < capacity m then
        beginLoop m fuel
          { it with _curIndex := it._curIndex + 1, _cur := some ⟨it._curIndex + 1, 0⟩ }
      else some { it with _curIndex := it._curIndex + 1 }
    else some it

/-- `begin()`: `ConstIterator(this, false)`. -/
def iterBegin (m : HashMap K V) : Option ConstIterator :=
  let it0 : ConstIterator := { _curIndex := 0, _cur := none, _counter := 0 }
  let it1 : ConstIterator :=
    if !(m._hashTable.getD 0 []).isEmpty then { it0 with _cur := some ⟨0, 0⟩ } else it0
  beginLoop m (capacity m + 1) it1

/-- `end()`: `ConstIterator(this, true)`. -/
def iterEnd (m : HashMap K V) : ConstIterator :=
  { _curIndex := capacity m, _cur := none, _counter := size m }

/-- The `while` loop of `operator++`:
`while (_cur == bucket[_curIndex].end() && ++_curIndex < capacity()) _cur = bucket[_curIndex].begin()`.
The first argument bounds the number of rounds; `none` is the bound reached. -/
def incrementLoop (m : HashMap K V) : Nat → ConstIterator → Option ConstIterator
  | 0, _ => none
  | fuel + 1, it =>
    if it._cur = some ⟨it._curIndex, (m._hashTable.getD it._curIndex []).length⟩ then
      if it._curIndex + 1 < capacity m then
        incrementLoop m fuel
          { it with _curIndex := it._curIndex + 1, _cur := some ⟨it._curIndex + 1, 0⟩ }
      else some { it with _curIndex := it._curIndex + 1 }
    else some it

/-- Prefix `operator++`: `_cur++; _counter++;` and the loop. -/
def increment (m : HashMap K V) (it : ConstIterator) : Option ConstIterator :=
  incrementLoop m (capacity m + 1)
    { it with _cur := it._cur.map (fun c => ⟨c.bucketIdx, c.pos + 1⟩),
              _counter := it._counter + 1 }

/-- `operator==` of two iterators of the same table: equal `_counter`. -/
def iterEq (a b : ConstIterator) : Bool := a._counter == b._counter

/-- `operator*`: the pair at `_cur`; `none` is a read outside every bucket. -/
def deref (m : HashMap K V) (it : ConstIterator) : Option (K × V) :=
  match it._cur with
  | some c => (m._hashTable.getD c.bucketIdx [])[c.pos]?
  | none => none

/-- The iterator obtained from `begin()` by `k` increments. -/
def iterAfter (m : HashMap K V) : Nat → Option ConstIterator
  | 0 => iterBegin m
  | k + 1 => (iterAfter m k).bind (increment m)

/-- The loop `for (; it != end(); ++it) visit(*it)` with the pairs visited so
far; the first argument bounds the number of rounds. -/
def traverseLoop (m : HashMap K V) : Nat → ConstIterator → List (K × V) →
    Option (List (K × V) × ConstIterator)
  | 0, _, _ => none
  | fuel + 1, it, visited =>
    if iterEq it (iterEnd m) then some (visited, it)
    else
      match deref m it with
      | none => none
      | some p =>
        match increment m it with
        | none => none
        | some it1 => traverseLoop m fuel it1 (visited ++ [p])

/-- A full traversal from `begin()`: the pairs dereferenced, in order, and the
final iterator. -/
def traverse (m : HashMap K V) : Option (List (K × V) × ConstIterator) :=
  match iterBegin m with
  | none => none
  | some it => traverseLoop m (size m + 1) it []

/-- The iterator denotes a pair of bucket `_curIndex`, or it has left the last
bucket. -/
def Positioned (m : HashMap K V) (it : ConstIterator) : Prop :=
  (it._curIndex < capacity m ∧
    ∃ p, it._cur = some ⟨it._curIndex, p⟩ ∧ p < (m._hashTable.getD it._curIndex []).length) ∨
  it._curIndex = capacity m

/-- The pairs from the iterator's position to the end of the table. -/
def rest (m : HashMap K V) (it : ConstIterator) : List (K × V) :=
  if it._curIndex < capacity m then
    (match it._cur with
      | some c => (m._hashTable.getD c.bucketIdx []).drop c.pos
      | none => []) ++ (m._hashTable.drop (it._curIndex + 1)).flatten
  else []

end Iterator

section Invariants

variable {K V : Type} [DecidableEq K] [DecidableEq V]

/-- All stored pairs: bucket 0, bucket 1, ..., each in its list order. -/
def entries (m : HashMap K V) : List (K × V) := m._hashTable.flatten

/-- A well-formed table: at least one bucket, the array has `_capacity` buckets,
every pair lies in the bucket selected by its key under the current capacity, no
key is stored twice, and `_size` counts the stored pairs. -/
def WellFormed (hash : K → Nat) (m : HashMap K V) : Prop :=
  1 ≤ m._capacity ∧
  m._hashTable.length = m._capacity ∧
  (∀ i < m._hashTable.length, ∀ p ∈ m._hashTable.getD i [],
    hash p.1 &&& (m._capacity - 1) = i) ∧
  ((entries m).map Prod.fst).Nodup ∧
  m._size = (entries m).length

instance (hash : K → Nat) (m : HashMap K V) : Decidable (WellFormed hash m) := by
  unfold WellFormed
  infer_instance

/-- The effect on one pair of assigning `val` to the value stored with `key`. -/
def setValue (key : K) (val : V) (t : K × V) : K × V :=
  if t.1 = key then (t.1, val) else t

/-- The tables a program can build: from the default or the range constructor by
`insert`, `erase`, `clear`, mutable `operator[]` (alone or as `m[key] = val`),
`m.at(key) = val` and copy-assignment from another such table. -/
inductive Reachable [Inhabited V] [ValueEq V] (hash : K → Nat) : HashMap K V → Prop
  | default : Reachable hash mkDefault
  | range (keys : List K) (values : List V) (m : HashMap K V) :
      mkFromRange hash keys values = .ok m → Reachable hash m
  | insert (m : HashMap K V) (key : K) (val : V) :
      Reachable hash m → Reachable hash (insert hash m key val).1
  | erase (m : HashMap K V) (key : K) :
      Reachable hash m → Reachable hash (erase hash m key).1
  | clear (m : HashMap K V) : Reachable hash m → Reachable hash (clear m)
  | subscript (m : HashMap K V) (key : K) :
      Reachable hash m → Reachable hash (subscript hash m key).1
  | subscriptAssign (m : HashMap K V) (key : K) (val : V) (m1 : HashMap K V) :
      Reachable hash m → subscriptAssign hash m key val = .ok m1 → Reachable hash m1
  | atAssign (m : HashMap K V) (key : K) (val : V) (m1 : HashMap K V) :
      Reachable hash m → atAssign hash m key val = .ok m1 → Reachable hash m1
  | assign (self other : HashMap K V) (sameObject : Bool) :
      Reachable hash self → Reachable hash other →
      Reachable hash (assign self other sameObject)

/-- What the operations maintain: well-formedness, the upper load-factor bound
in cross-multiplied form, and a power-of-two capacity. -/
def Invariant (hash : K → Nat) (m : HashMap K V) : Prop :=
  WellFormed hash m ∧ 4 * m._size ≤ 3 * m._capacity ∧ ∃ j, m._capacity = 2 ^ j

/-- What the operations maintain whatever `ValueT`'s `operator==` answers: at
least one bucket, an array of `_capacity` buckets, every pair in the bucket
selected by its key under the current capacity, the upper load-factor bound in
cross-multiplied form, and a power-of-two capacity. -/
def Layout (hash : K → Nat) (m : HashMap K V) : Prop :=
  1 ≤ m._capacity ∧
  m._hashTable.length = m._capacity ∧
  (∀ i < m._hashTable.length, ∀ p ∈ m._hashTable.getD i [],
    hash p.1 &&& (m._capacity - 1) = i) ∧
  4 * m._size ≤ 3 * m._capacity ∧ ∃ j, m._capacity = 2 ^ j

end Invariants

/-! ## Reference model for the refinement statement -/

section Reference

variable {K V : Type} [DecidableEq K] [DecidableEq V]

/-- The operations of the random insert-and-delete test of `main.cpp`. -/
inductive Op (K V : Type) where
  | subscriptAssign (key : K) (val : V)
  | insert (key : K) (val : V)
  | erase (key : K)
  | clear

/-- One operation on the table: the new table and, for `insert` and `erase`, the
returned flag. -/
def step [Inhabited V] [ValueEq V] (hash : K → Nat) (m : HashMap K V) :
    Op K V → Except HashMapError (HashMap K V × Option Bool)
  | .subscriptAssign key val =>
    match subscriptAssign hash m key val with
    | .ok m1 => .ok (m1, none)
    | .error e => .error e
  | .insert key val => .ok ((insert hash m key val).1, some (insert hash m key val).2)
  | .erase key => .ok ((erase hash m key).1, some (erase hash m key).2)
  | .clear => .ok (clear m, none)

/-- A sequence of operations on the table. -/
def run [Inhabited V] [ValueEq V] (hash : K → Nat) : HashMap K V → List (Op K V) →
    Except HashMapError (HashMap K V)
  | m, [] => .ok m
  | m, op :: ops =>
    match step hash m op with
    | .ok (m1, _) => run hash m1 ops
    | .error e => .error e

/-- The reference finite map: a list of key/value pairs. -/
abbrev RefMap (K V : Type) := List (K × V)

/-- The keys of the reference map, each once. -/
def RefMap.keys (r : RefMap K V) : List K := (r.map Prod.fst).dedup

/-- The value the reference map gives to a key. -/
def RefMap.get (r : RefMap K V) (key : K) : Option V :=
  (r.find? (fun p => decide (p.1 = key))).map Prod.snd

/-- One operation on the reference map: assignment replaces the key's pair,
`insert` does nothing when the key is present, `erase` drops the key. -/
def RefMap.step (r : RefMap K V) : Op K V → RefMap K V
  | .subscriptAssign key val => (key, val) :: r.filter (fun p => !decide (p.1 = key))
  | .insert key val => if key ∈ RefMap.keys r then r else (key, val) :: r
  | .erase key => r.filter (fun p => !decide (p.1 = key))
  | .clear => []

/-- A sequence of operations on the reference map. -/
def RefMap.run : RefMap K V → List (Op K V) → RefMap K V
  | r, [] => r
  | r, op :: ops => RefMap.run (RefMap.step r op) ops

/-- The key an operation names. -/
def Op.key? : Op K V → Option K
  | .subscriptAssign key _ => some key
  | .insert key _ => some key
  | .erase key => some key
  | .clear => none

/-- The operations that can add a key: `insert` and `m[key] = val`. -/
def Op.adds : Op K V → Bool
  | .subscriptAssign _ _ => true
  | .insert _ _ => true
  | .erase _ => false
  | .clear => false

/-- Position `i` holds the last occurrence of `key` in the key sequence. -/
def IsLastOccurrence (keys : List K) (i : Nat) (key : K) : Prop :=
  keys[i]? = some key ∧ ∀ j, i < j → keys[j]? ≠ some key

/-- The effect of one operation on the list of stored keys kept in the order of
their most recent insertion: a key that becomes stored goes to the end, an
erased key leaves, `clear` empties the list. -/
def orderStep (order : List K) : Op K V → List K
  | .subscriptAssign key _ => if key ∈ order then order else order ++ [key]
  | .insert key _ => if key ∈ order then order else order ++ [key]
  | .erase key => order.filter (fun k => !decide (k = key))
  | .clear => []

/-- The stored keys after a sequence of operations on an empty table, in the
order of their most recent insertion. -/
def insertionOrder (ops : List (Op K V)) : List K := ops.foldl orderStep []

/-- No operation of the sequence lowers the capacity: no `erase` rehashes to the
halved capacity. -/
def NoHalving [Inhabited V] [ValueEq V] (hash : K → Nat) :
    HashMap K V → List (Op K V) → Bool
  | _, [] => true
  | m, op :: ops =>
    match step hash m op with
    | .ok (m1, _) => decide (capacity m ≤ capacity m1) && NoHalving hash m1 ops
    | .error _ => true

/-- The keys of every bucket occur in the bucket in the order of the list
`order`, which lists the stored keys once each. -/
def OrderInv (hash : K → Nat) (m : HashMap K V) (order : List K) : Prop :=
  order.Nodup ∧ (∀ k, k ∈ order ↔ contains_key hash m k = true) ∧
  ∀ i, ((m._hashTable.getD i []).map Prod.fst).Sublist order

/-- The effect of one operation, applied to the table `m`, on the list of stored
keys kept in the order in which their pairs were last placed in the bucket
array.  An `erase` that rehashes to the halved capacity places every remaining
pair anew, in the order in which `_rehash` reads them: the traversal order of
the table before the erase, bucket 0 first.  Every other operation acts as in
`orderStep`: an inserted key goes to the end, an erased key leaves. -/
def placementStep [ValueEq V] (hash : K → Nat) (m : HashMap K V) (order : List K) :
    Op K V → List K
  | .erase key =>
    if capacity (erase hash m key).1 < capacity m then
      ((entries m).map Prod.fst).filter (fun k => !decide (k = key))
    else orderStep order (Op.erase key : Op K V)
  | op => orderStep order op

/-- The placement order after a sequence of operations on the table `m`, whose
stored keys are listed in `order`. -/
def placementOrder [Inhabited V] [ValueEq V] (hash : K → Nat) :
    HashMap K V → List K → List (Op K V) → List K
  | _, order, [] => order
  | m, order, op :: ops =>
    match step hash m op with
    | .ok (m1, _) => placementOrder hash m1 (placementStep hash m order op) ops
    | .error _ => order

/-- The effect of one operation on the list of the keys that have stayed stored
since a given moment: an erased key leaves, `clear` empties the list, and an
insertion adds nothing. -/
def keptStep (kept : List K) : Op K V → List K
  | .erase key => kept.filter (fun k => !decide (k = key))
  | .clear => []
  | _ => kept

/-- Two duplicate-free lists `p` and `i` of the same keys, among them the keys of
`kept`, that list any two keys in the same order unless both are in `kept`. -/
def AgreeOutside (kept p i : List K) : Prop :=
  p.Nodup ∧ i.Nodup ∧ (∀ k, k ∈ p ↔ k ∈ i) ∧ (∀ k ∈ kept, k ∈ p) ∧
  ∀ a b, a ∈ p → b ∈ p → ¬ (a ∈ kept ∧ b ∈ kept) → ([a, b].Sublist p ↔ [a, b].Sublist i)

end Reference

/-! ## The tables of the test driver (`src/main.cpp`) -/

section TestTables

/-- `std::hash<int>` as the test driver's platform has it: the `int` converted to
`size_t`. -/
def intHash (k : Int) : Nat := (k % 2 ^ 64).toNat

/-- `operator==` of `int`, the value type of the test driver's tables. -/
instance intValueEq : ValueEq Int := ⟨fun a b => decide (a = b)⟩

/-- The `double` values of the tables with a NaN: an integral number or NaN. -/
inductive DoubleVal where
  | num (n : Int)
  | nan
deriving DecidableEq, Repr

/-- `operator==` of `double`: NaN differs from every value, itself included. -/
instance doubleValueEq : ValueEq DoubleVal :=
  ⟨fun a b =>
    match a, b with
    | .num x, .num y => decide (x = y)
    | _, _ => false⟩

/-- `double()` is `0.0`. -/
instance : Inhabited DoubleVal := ⟨.num 0⟩

/-- Erasing a list of keys one after the other. -/
def eraseAll {K V : Type} [DecidableEq K] [DecidableEq V] [ValueEq V] (hash : K → Nat)
    (m : HashMap K V) (keys : List K) : HashMap K V :=
  keys.foldl (fun t key => (erase hash t key).1) m

/-- The insert test after its first twelve insertions: keys `1..12`, values
`13..2`, capacity 16. -/
def insertTestTable : HashMap Int Int :=
  { _capacity := 16
    _size := 12
    _hashTable :=
    [[], [(1, 13)], [(2, 12)], [(3, 11)], [(4, 10)], [(5, 9)], [(6, 8)], [(7, 7)], [(8, 6)],
     [(9, 5)], [(10, 4)], [(11, 3)], [(12, 2)], [], [], []] }

/-- The table of the erase test: keys `1..13`, values `13..1`, capacity 32. -/
def eraseTestTable : HashMap Int Int :=
  { _capacity := 32
    _size := 13
    _hashTable :=
    [[], [(1, 13)], [(2, 12)], [(3, 11)], [(4, 10)], [(5, 9)], [(6, 8)], [(7, 7)], [(8, 6)],
     [(9, 5)], [(10, 4)], [(11, 3)], [(12, 2)], [(13, 1)], [], [], [], [], [], [], [], [], [],
     [], [], [], [], [], [], [], [], []] }

/-- The table of the erase test after erasing the keys `1..5`. -/
def eraseTestTable8 : HashMap Int Int :=
  { _capacity := 32
    _size := 8
    _hashTable :=
    [[], [], [], [], [], [], [(6, 8)], [(7, 7)], [(8, 6)], [(9, 5)], [(10, 4)], [(11, 3)],
     [(12, 2)], [(13, 1)], [], [], [], [], [], [], [], [], [], [], [], [], [], [], [], [], [],
     []] }

/-- The keys `1, 2, ..., n` of the test driver. -/
def keysUpTo (n : Nat) : List Int := (List.range n).map (fun i => (i : Int) + 1)

/-- `insert(key, key)` for each key of a list, as in the constructor tests. -/
def insertOps (keys : List Int) : List (Op Int Int) := keys.map (fun key => Op.insert key key)

/-- `m[key] = 2 * key` for each key of a list, as in the `operator[]` test. -/
def assignOps (keys : List Int) : List (Op Int Int) :=
  keys.map (fun key => Op.subscriptAssign key (2 * key))

/-- The second table of the bucket tests: keys `1..13` mapped to themselves and
key 33 mapped to 19, capacity 32; keys 1 and 33 share bucket 1. -/
def bucketTestTable : HashMap Int Int :=
  { _capacity := 32
    _size := 14
    _hashTable :=
    [[], [(1, 1), (33, 19)], [(2, 2)], [(3, 3)], [(4, 4)], [(5, 5)], [(6, 6)], [(7, 7)],
     [(8, 8)], [(9, 9)], [(10, 10)], [(11, 11)], [(12, 12)], [(13, 13)], [], [], [], [], [],
     [], [], [], [], [], [], [], [], [], [], [], [], []] }

/-- Operations after which two keys share a bucket against their insertion
order: 9 and 1 are inserted in this order, and erasing key 2 halves the
capacity from 16 to 8. -/
def orderTestOps : List (Op Int Int) :=
  [Op.insert 9 9, Op.insert 1 1, Op.insert 2 2, Op.erase 2]

/-- Operations without a halving: fourteen insertions, which double the capacity
to 32 and leave the keys 1 and 33 in bucket 1, and `erase(17)`. -/
def orderKeptOps : List (Op Int Int) :=
  insertOps [1, 17, 33, 2, 3, 4, 5, 6, 7, 8, 9, 10, 11, 12] ++ [Op.erase 17]

/-- The table that `orderKeptOps` builds from the default table. -/
def orderKeptTable : HashMap Int Int :=
  (erase intHash
    (([1, 17, 33, 2, 3, 4, 5, 6, 7, 8, 9, 10, 11, 12] : List Int).foldl
      (fun t key => (insert intHash t key key).1) mkDefault) 17).1

/-- Operations with a halving after which the buckets are in insertion order:
`erase(1)` halves the capacity of the table to 8 and empties it, then the keys 1
and 9 are inserted and share bucket 1. -/
def orderRegrownOps : List (Op Int Int) :=
  [Op.insert 1 1, Op.erase 1, Op.insert 1 1, Op.insert 9 9]

/-- A `HashMap<int, double>` after `insert(1, NaN)` and `insert(2, 2.0)`. -/
def nanTable : HashMap Int DoubleVal :=
  { _capacity := 16
    _size := 2
    _hashTable :=
    [[], [(1, .nan)], [(2, .num 2)], [], [], [], [], [], [], [], [], [], [], [], [], []] }

/-- A `HashMap<int, double>` after `insert(1, NaN)`. -/
def nanSingleTable : HashMap Int DoubleVal :=
  { _capacity := 16
    _size := 1
    _hashTable := [[], [(1, .nan)], [], [], [], [], [], [], [], [], [], [], [], [], [], []] }

/-- The table `nanTable` after `erase(1)`: capacity 8, `_size` 1, and both pairs
in their buckets. -/
def nanEraseTable : HashMap Int DoubleVal :=
  { _capacity := 8
    _size := 1
    _hashTable := [[], [(1, .nan)], [(2, .num 2)], [], [], [], [], []] }

/-- The table `nanSingleTable` after `erase(1)`: capacity 8, `_size` 0, and the
pair in its bucket. -/
def nanErasedTable : HashMap Int DoubleVal :=
  { _capacity := 8
    _size := 0
    _hashTable := [[], [(1, .nan)], [], [], [], [], [], []] }

/-- The table `nanErasedTable` after `insert(1, 5.0)`. -/
def nanReinsertTable : HashMap Int DoubleVal :=
  { _capacity := 8
    _size := 1
    _hashTable := [[], [(1, .nan), (1, .num 5)], [], [], [], [], [], []] }

/-- On a `HashMap<int, double>`: `insert(1, NaN)`, `insert(2, 2.0)`, `erase(1)`. -/
def nanEraseOps : List (Op Int DoubleVal) :=
  [Op.insert 1 .nan, Op.insert 2 (.num 2), Op.erase 1]

/-- On a `HashMap<int, double>`: `insert(1, NaN)`, `erase(1)`, `insert(1, 5.0)`. -/
def nanReinsertOps : List (Op Int DoubleVal) :=
  [Op.insert 1 .nan, Op.erase 1, Op.insert 1 (.num 5)]

/-- The table that `orderTestOps` builds from the default table. -/
def orderTestTable : HashMap Int Int :=
  (erase intHash (insert intHash (insert intHash (insert intHash mkDefault 9 9).1 1 1).1 2 2).1
    2).1

end TestTables

/-! ## Bucket arrays -/

section TableLemmas

variable {α : Type}

theorem getD_set_table (t : List (List α)) (i j : Nat) (b : List α) :
    (t.set i b).getD j [] = if i = j ∧ i < t.length then b else t.getD j [] := by
  simp only [List.getD_eq_getElem?_getD, List.getElem?_set]
  by_cases h : i = j
  · subst h
    by_cases h2 : i < t.length
    · simp [h2]
    · simp [h2, List.getElem?_eq_none (Nat.le_of_not_lt h2)]
  · simp [h]

theorem getD_of_lt (t : List (List α)) (i : Nat) (h : i < t.length) :
    t.getD i [] = t[i] := by
  simp [List.getD_eq_getElem?_getD, List.getElem?_eq_getElem h]

theorem flatten_split (t : List (List α)) (i : Nat) (h : i < t.length) :
    t.flatten = (t.take i).flatten ++ t.getD i [] ++ (t.drop (i + 1)).flatten := by
  have h1 : t = t.take i ++ t[i] :: t.drop (i + 1) := by
    rw [List.getElem_cons_drop t i h, List.take_append_drop]
  rw [getD_of_lt t i h]
  refine (congrArg List.flatten h1).trans ?_
  rw [List.flatten_append, List.flatten_cons, List.append_assoc]

theorem flatten_set (t : List (List α)) (i : Nat) (b : List α) (h : i < t.length) :
    (t.set i b).flatten = (t.take i).flatten ++ b ++ (t.drop (i + 1)).flatten := by
  rw [List.set_eq_take_cons_drop b h]
  simp

theorem mem_flatten_iff_getD (t : List (List α)) (p : α) :
    p ∈ t.flatten ↔ ∃ i, i < t.length ∧ p ∈ t.getD i [] := by
  constructor
  · intro h
    obtain ⟨l, hl, hp⟩ := List.mem_flatten.mp h
    obtain ⟨i, hi, rfl⟩ := List.getElem_of_mem hl
    exact ⟨i, hi, by rw [getD_of_lt t i hi]; exact hp⟩
  · rintro ⟨i, hi, hp⟩
    rw [getD_of_lt t i hi] at hp
    exact List.mem_flatten.mpr ⟨t[i], List.getElem_mem hi, hp⟩

theorem map_getD_range (t : List (List α)) :
    (List.range t.length).map (fun i => t.getD i []) = t := by
  apply List.ext_getElem
  · simp
  · intro n h1 h2
    simp [List.getD_eq_getElem?_getD, List.getElem?_eq_getElem h2]

theorem getD_replicate_nil (n j : Nat) :
    (List.replicate n ([] : List α)).getD j [] = [] := by
  simp only [List.getD_eq_getElem?_getD, List.getElem?_replicate]
  split <;> rfl

theorem flatten_replicate_nil (n : Nat) :
    (List.replicate n ([] : List α)).flatten = [] := by
  induction n with
  | zero => rfl
  | succ n ih => simp [List.replicate_succ]

/-- Overwriting the buckets `0 .. n-1` one by one with the buckets of `src`. -/
theorem foldl_set_range (src : List (List α)) (g : List α → List α) :
    ∀ (n : Nat) (t : List (List α)), t.length = src.length → n ≤ src.length →
      (List.range n).foldl (fun t i => t.set i (g (src.getD i []))) t
        = (src.take n).map g ++ t.drop n := by
  intro n
  induction n with
  | zero => intro t _ _; simp
  | succ n ih =>
    intro t ht hn
    rw [List.range_succ, List.foldl_append, ih t ht (Nat.le_of_succ_le hn)]
    have hn1 : n < src.length := hn
    simp only [List.foldl_cons, List.foldl_nil]
    apply List.ext_getElem?
    intro j
    rw [List.getElem?_set]
    by_cases hj : n = j
    · subst hj
      have hlen : n < t.length := by omega
      simp [hlen, hn1, List.getElem?_append, getD_of_lt src n hn1,
        Nat.min_eq_left (Nat.le_of_lt hn1), List.getElem?_take]
    · simp only [hj, if_false, List.getElem?_append, List.length_map, List.length_take,
        Nat.min_eq_left (Nat.le_of_lt hn1), Nat.min_eq_left hn, List.getElem?_map,
        List.getElem?_take, List.getElem?_drop]
      by_cases h1 : j < n
      · have h2 : j < n + 1 := by omega
        simp [h1, h2]
      · have h2 : ¬ j < n + 1 := by omega
        have h3 : n + (j - n) = n + 1 + (j - (n + 1)) := by omega
        simp [h1, h2, h3]

end TableLemmas

/-! ## Load factor, bucket index, rehash -/

section CoreLemmas

variable {K V : Type} [DecidableEq K] [DecidableEq V]

theorem upperLoadFactor_iff (m : HashMap K V) (h : 0 < m._capacity) :
    _upperLoadFactor m = true ↔ 3 * m._capacity < 4 * m._size := by
  have hc : (0 : ℚ) < (m._capacity : ℚ) := by exact_mod_cast h
  simp only [_upperLoadFactor, load_factor, size, capacity, HIGH_LOAD_FACTOR, decide_eq_true_eq,
    gt_iff_lt]
  rw [lt_div_iff₀ hc]
  have h2 : (3 / 4 : ℚ) * (m._capacity : ℚ) < (m._size : ℚ)
      ↔ ((3 * m._capacity : ℕ) : ℚ) < ((4 * m._size : ℕ) : ℚ) := by
    push_cast
    constructor <;> intro h' <;> linarith
  rw [h2]
  exact Nat.cast_lt

theorem lowerLoadFactor_iff (m : HashMap K V) (h : 0 < m._capacity) :
    _lowerLoadFactor m = true ↔ 4 * m._size < m._capacity := by
  have hc : (0 : ℚ) < (m._capacity : ℚ) := by exact_mod_cast h
  simp only [_lowerLoadFactor, load_factor, size, capacity, LOW_LOAD_FACTOR, decide_eq_true_eq]
  rw [div_lt_iff₀ hc]
  have h2 : (m._size : ℚ) < (1 / 4 : ℚ) * (m._capacity : ℚ)
      ↔ ((4 * m._size : ℕ) : ℚ) < ((m._capacity : ℕ) : ℚ) := by
    push_cast
    constructor <;> intro h' <;> linarith
  rw [h2]
  exact Nat.cast_lt

theorem load_factor_le_high_iff (m : HashMap K V) (h : 0 < m._capacity) :
    load_factor m ≤ HIGH_LOAD_FACTOR ↔ 4 * m._size ≤ 3 * m._capacity := by
  have h1 := upperLoadFactor_iff m h
  simp only [_upperLoadFactor, decide_eq_true_eq, gt_iff_lt] at h1
  rw [← not_lt, h1]
  omega

theorem load_factor_ge_low_iff (m : HashMap K V) (h : 0 < m._capacity) :
    LOW_LOAD_FACTOR ≤ load_factor m ↔ m._capacity ≤ 4 * m._size := by
  have h1 := lowerLoadFactor_iff m h
  simp only [_lowerLoadFactor, decide_eq_true_eq] at h1
  rw [← not_lt, h1]
  omega

theorem and_mask_lt (x c : Nat) (h : 1 ≤ c) : x &&& (c - 1) < c :=
  lt_of_le_of_lt Nat.and_le_right (by omega)

theorem length_pushBack (t : List (bucket K V)) (i : Nat) (p : K × V) :
    (pushBack t i p).length = t.length := by
  simp [pushBack]

theorem getD_pushBack (t : List (bucket K V)) (i j : Nat) (p : K × V) :
    (pushBack t i p).getD j [] =
      if i = j ∧ i < t.length then t.getD j [] ++ [p] else t.getD j [] := by
  unfold pushBack
  rw [getD_set_table]
  by_cases h : i = j ∧ i < t.length
  · rw [if_pos h, if_pos h, h.1]
  · rw [if_neg h, if_neg h]

theorem perm_pushBack (t : List (bucket K V)) (i : Nat) (p : K × V) (h : i < t.length) :
    (pushBack t i p).flatten.Perm (p :: t.flatten) := by
  unfold pushBack
  rw [flatten_set _ _ _ h, flatten_split t i h]
  have e : (t.take i).flatten ++ (t.getD i [] ++ [p]) ++ (t.drop (i + 1)).flatten
      = ((t.take i).flatten ++ t.getD i []) ++ p :: (t.drop (i + 1)).flatten := by
    simp
  rw [e]
  exact List.perm_middle

theorem length_rehashBucket (hash : K → Nat) (c : Nat) (ps : bucket K V) :
    ∀ nm : List (bucket K V), (rehashBucket hash c nm ps).length = nm.length := by
  induction ps with
  | nil => intro nm; rfl
  | cons p ps ih =>
    intro nm
    simp only [rehashBucket, List.foldl_cons] at ih ⊢
    rw [ih, length_pushBack]

/-- Bucket `j` after redistributing `ps`: its old content followed by the pairs of
`ps` that select `j`, in the order of `ps`. -/
theorem getD_rehashBucket (hash : K → Nat) (c : Nat) (ps : bucket K V) :
    ∀ (nm : List (bucket K V)) (j : Nat), j < nm.length →
      (rehashBucket hash c nm ps).getD j [] =
        nm.getD j [] ++ ps.filter (fun p => decide (hash p.1 &&& (c - 1) = j)) := by
  induction ps with
  | nil => intro nm j _; simp [rehashBucket]
  | cons p ps ih =>
    intro nm j hj
    simp only [rehashBucket, List.foldl_cons] at ih ⊢
    rw [ih _ j (by rw [length_pushBack]; exact hj), getD_pushBack, List.filter_cons]
    by_cases h : hash p.1 &&& (c - 1) = j
    · have h' : hash p.1 &&& (c - 1) = j ∧ hash p.1 &&& (c - 1) < nm.length := ⟨h, h ▸ hj⟩
      simp [h, hj]
    · have h' : ¬ (hash p.1 &&& (c - 1) = j ∧ hash p.1 &&& (c - 1) < nm.length) :=
        fun hh => h hh.1
      simp [h, h']

theorem perm_rehashBucket (hash : K → Nat) (c : Nat) (ps : bucket K V) :
    ∀ nm : List (bucket K V), (∀ p ∈ ps, hash p.1 &&& (c - 1) < nm.length) →
      (rehashBucket hash c nm ps).flatten.Perm (nm.flatten ++ ps) := by
  induction ps with
  | nil => intro nm _; simp [rehashBucket]
  | cons p ps ih =>
    intro nm h
    simp only [rehashBucket, List.foldl_cons] at ih ⊢
    have hp := h p (List.mem_cons_self _ _)
    refine (ih _ ?_).trans ?_
    · intro q hq
      rw [length_pushBack]
      exact h q (List.mem_cons_of_mem _ hq)
    · refine ((perm_pushBack nm _ p hp).append_right ps).trans ?_
      exact (@List.perm_middle _ p nm.flatten ps).symm

/-- `_rehash` redistributes the bucket-ascending traversal of the old table. -/
theorem rehash_table (hash : K → Nat) (m : HashMap K V) (c : Nat)
    (hlen : m._hashTable.length = m._capacity) :
    (_rehash hash m c)._hashTable = rehashBucket hash c (List.replicate c []) (entries m) := by
  simp only [_rehash, capacity, entries]
  rw [← hlen, ← List.foldl_map (fun i => m._hashTable.getD i []) (rehashBucket hash c),
    map_getD_range]
  simp only [rehashBucket]
  rw [List.foldl_flatten]
  rfl

end CoreLemmas

/-! ## Well-formed tables: lookup -/

section LookupLemmas

variable {K V : Type} [DecidableEq K] [DecidableEq V] (hash : K → Nat)

theorem WellFormed.index_lt {m : HashMap K V} (h : WellFormed hash m) (key : K) :
    _hash hash m key < m._hashTable.length := by
  obtain ⟨h1, h2, -⟩ := h
  rw [h2]
  exact and_mask_lt _ _ h1

theorem WellFormed.mem_bucket_iff {m : HashMap K V} (h : WellFormed hash m) (p : K × V) :
    p ∈ m._hashTable.getD (_hash hash m p.1) [] ↔ p ∈ entries m := by
  constructor
  · intro hp
    exact (mem_flatten_iff_getD _ _).mpr ⟨_, h.index_lt hash p.1, hp⟩
  · intro hp
    obtain ⟨i, hi, hpi⟩ := (mem_flatten_iff_getD _ _).mp hp
    have := h.2.2.1 i hi p hpi
    simp only [_hash, capacity]
    rw [this]
    exact hpi

theorem unique_value_of_nodup {l : List (K × V)} (hnd : (l.map Prod.fst).Nodup)
    {k : K} {v w : V} (hv : (k, v) ∈ l) (hw : (k, w) ∈ l) : v = w := by
  have := List.inj_on_of_nodup_map hnd hv hw rfl
  exact (Prod.mk.inj this).2

theorem contains_key_iff {m : HashMap K V} (h : WellFormed hash m) (key : K) :
    contains_key hash m key = true ↔ ∃ v, (key, v) ∈ entries m := by
  unfold contains_key
  constructor
  · intro hc
    simp only [] at hc
    split at hc
    · exact absurd hc (by simp)
    · obtain ⟨x, hx, hk⟩ := List.any_eq_true.mp hc
      have hk' : x.1 = key := by simpa using hk
      refine ⟨x.2, ?_⟩
      have hx' : x ∈ m._hashTable.getD (_hash hash m x.1) [] := by rw [hk']; exact hx
      have := (h.mem_bucket_iff hash x).mp hx'
      rw [← hk']
      exact this
  · rintro ⟨v, hv⟩
    have hb := (h.mem_bucket_iff hash (key, v)).mpr hv
    have hsz : m._size ≠ 0 := by
      rw [h.2.2.2.2]
      exact List.length_pos.mp (List.length_pos_of_mem hv) |> fun hne => by
        intro h0; exact hne (List.length_eq_zero.mp h0)
    have hne : (m._hashTable.getD (_hash hash m key) []).isEmpty = false := by
      cases hb' : m._hashTable.getD (_hash hash m key) [] with
      | nil => rw [hb'] at hb; exact absurd hb (List.not_mem_nil _)
      | cons a l => rfl
    simp only [empty, beq_iff_eq, hsz, hne, Bool.or_false, decide_False, Bool.false_eq_true,
      if_false]
    exact List.any_eq_true.mpr ⟨(key, v), hb, by simp⟩

theorem contains_key_eq_false_iff {m : HashMap K V} (h : WellFormed hash m) (key : K) :
    contains_key hash m key = false ↔ ∀ v, (key, v) ∉ entries m := by
  rw [← Bool.not_eq_true, contains_key_iff hash h]
  simp

theorem atKey_eq_ok_iff {m : HashMap K V} (h : WellFormed hash m) (key : K) (v : V) :
    atKey hash m key = .ok v ↔ (key, v) ∈ entries m := by
  unfold atKey
  constructor
  · intro ha
    split at ha
    · rename_i t ht
      have hk : t.1 = key := by simpa using List.find?_some ht
      have hmem := List.mem_of_find?_eq_some ht
      have hv : t.2 = v := by injection ha
      have ht' : t = (key, v) := Prod.ext hk hv
      rw [ht'] at hmem
      exact (h.mem_bucket_iff hash (key, v)).mp hmem
    · exact absurd ha (by simp)
  · intro hv
    have hb := (h.mem_bucket_iff hash (key, v)).mpr hv
    split
    · rename_i t ht
      have hk : t.1 = key := by simpa using List.find?_some ht
      have hmem := List.mem_of_find?_eq_some ht
      have hmem' : (key, t.2) ∈ entries m := by
        have : t ∈ m._hashTable.getD (_hash hash m t.1) [] := by rw [hk]; exact hmem
        have := (h.mem_bucket_iff hash t).mp this
        rw [← hk]
        exact this
      rw [unique_value_of_nodup h.2.2.2.1 hmem' hv]
    · rename_i hnone
      have := List.find?_eq_none.mp hnone (key, v) hb
      simp at this

theorem atKey_error_iff {m : HashMap K V} (h : WellFormed hash m) (key : K) :
    atKey hash m key = .error .KeyNotFound ↔ contains_key hash m key = false := by
  rw [contains_key_eq_false_iff hash h]
  constructor
  · intro he v hv
    rw [(atKey_eq_ok_iff hash h key v).mpr hv] at he
    exact absurd he (by simp)
  · intro hall
    cases ha : atKey hash m key with
    | ok v => exact absurd ((atKey_eq_ok_iff hash h key v).mp ha) (hall v)
    | error e => cases e with
      | KeyNotFound => rfl
      | VectorsLength =>
        unfold atKey at ha
        split at ha <;> simp at ha

theorem locate_eq_none_iff (key : K) (b : bucket K V) :
    locate key b = none ↔ ∀ p ∈ b, p.1 ≠ key := by
  induction b with
  | nil => simp [locate]
  | cons t rest ih =>
    by_cases hk : t.1 = key
    · simp [locate, hk]
    · simp [locate, hk, ih]

/-- The position found by `locate` holds the first pair with the key. -/
theorem locate_eq_some (key : K) (b : bucket K V) :
    ∀ n, locate key b = some n →
      ∃ v, b[n]? = some (key, v) ∧ b.find? (fun t => decide (t.1 = key)) = some (key, v) := by
  induction b with
  | nil => intro n h; simp [locate] at h
  | cons t rest ih =>
    intro n h
    by_cases hk : t.1 = key
    · simp only [locate, hk, if_true, Option.some.injEq] at h
      subst h
      subst hk
      exact ⟨t.2, by simp, by simp [List.find?_cons]⟩
    · simp only [locate, hk, if_false, Option.map_eq_some'] at h
      obtain ⟨n', hn', rfl⟩ := h
      obtain ⟨v, h1, h2⟩ := ih n' hn'
      exact ⟨v, by simpa using h1, by simp [List.find?_cons, hk, h2]⟩

theorem locate_isSome_iff (key : K) (b : bucket K V) :
    (∃ n, locate key b = some n) ↔ ∃ v, (key, v) ∈ b := by
  constructor
  · rintro ⟨n, hn⟩
    obtain ⟨v, h1, -⟩ := locate_eq_some key b n hn
    exact ⟨v, List.mem_iff_getElem?.mpr ⟨n, h1⟩⟩
  · rintro ⟨v, hv⟩
    cases hl : locate key b with
    | some n => exact ⟨n, rfl⟩
    | none => exact absurd rfl ((locate_eq_none_iff key b).mp hl (key, v) hv)

end LookupLemmas

/-! ## Well-formed tables: rehash and insert -/

section InsertLemmas

variable {K V : Type} [DecidableEq K] [DecidableEq V] (hash : K → Nat)

theorem set_eq_map_of {α : Type} (t : List (List α)) (i : Nat) (f : List α → List α)
    (hother : ∀ j, j < t.length → j ≠ i → f (t.getD j []) = t.getD j []) :
    t.set i (f (t.getD i [])) = t.map f := by
  apply List.ext_getElem?
  intro j
  rw [List.getElem?_set, List.getElem?_map]
  by_cases hj : j < t.length
  · by_cases hij : i = j
    · subst hij
      simp [hj, getD_of_lt t i hj, List.getElem?_eq_getElem hj]
    · have := hother j hj (fun h => hij h.symm)
      rw [getD_of_lt t j hj] at this
      simp [hij, List.getElem?_eq_getElem hj, this]
  · have hnone : t[j]? = none := List.getElem?_eq_none (Nat.le_of_not_lt hj)
    by_cases hij : i = j
    · subst hij
      simp [hj, hnone]
    · simp [hij, hnone]

theorem getD_map_table {α : Type} (t : List (List α)) (f : List α → List α) (hf : f [] = [])
    (j : Nat) : (t.map f).getD j [] = f (t.getD j []) := by
  simp only [List.getD_eq_getElem?_getD, List.getElem?_map]
  cases t[j]? with
  | none => simp [hf]
  | some b => simp

theorem wellFormed_rehash {m : HashMap K V} (hlen : m._hashTable.length = m._capacity)
    (hnd : ((entries m).map Prod.fst).Nodup) (hsz : m._size = (entries m).length)
    (c : Nat) (hc : 1 ≤ c) :
    WellFormed hash (_rehash hash m c) ∧ (entries (_rehash hash m c)).Perm (entries m) := by
  have htab := rehash_table hash m c hlen
  have hcap : (_rehash hash m c)._capacity = c := rfl
  have hsize : (_rehash hash m c)._size = m._size := rfl
  have hl : (_rehash hash m c)._hashTable.length = c := by
    rw [htab, length_rehashBucket, List.length_replicate]
  have hperm : (entries (_rehash hash m c)).Perm (entries m) := by
    have := perm_rehashBucket hash c (entries m) (List.replicate c [])
      (fun p _ => by rw [List.length_replicate]; exact and_mask_lt _ _ hc)
    rw [flatten_replicate_nil, List.nil_append] at this
    simp only [entries] at this ⊢
    rw [htab]
    exact this
  refine ⟨⟨by rw [hcap]; exact hc, by rw [hl, hcap], ?_, ?_, ?_⟩, hperm⟩
  · intro i hi p hp
    rw [hl] at hi
    rw [htab, getD_rehashBucket hash c _ _ i (by rw [List.length_replicate]; exact hi),
      getD_replicate_nil, List.nil_append] at hp
    rw [hcap]
    simpa using (List.mem_filter.mp hp).2
  · exact ((hperm.map Prod.fst).nodup_iff).mpr hnd
  · rw [hsize, hsz]
    exact hperm.length_eq.symm

/-- The table after the `push_back` and `_size++` of `insert`, before the
load-factor check. -/
theorem wellFormed_push {m : HashMap K V} (h : WellFormed hash m) (key : K) (val : V)
    (habs : contains_key hash m key = false) :
    WellFormed hash
      { m with _hashTable := pushBack m._hashTable (_hash hash m key) (key, val),
               _size := m._size + 1 } ∧
    (pushBack m._hashTable (_hash hash m key) (key, val)).flatten.Perm
      ((key, val) :: entries m) := by
  have hidx := h.index_lt hash key
  have hperm := perm_pushBack m._hashTable (_hash hash m key) (key, val) hidx
  have hnot := (contains_key_eq_false_iff hash h key).mp habs
  refine ⟨⟨h.1, ?_, ?_, ?_, ?_⟩, hperm⟩
  · simp only [length_pushBack]
    exact h.2.1
  · intro i hi p hp
    simp only [length_pushBack] at hi
    simp only [getD_pushBack] at hp
    split at hp
    · rename_i hcond
      rcases List.mem_append.mp hp with hp | hp
      · exact h.2.2.1 i hi p hp
      · have : p = (key, val) := by simpa using hp
        rw [this, ← hcond.1]
        rfl
    · exact h.2.2.1 i hi p hp
  · simp only [entries]
    rw [((hperm.map Prod.fst).nodup_iff)]
    simp only [List.map_cons, List.nodup_cons]
    refine ⟨?_, h.2.2.2.1⟩
    intro hmem
    obtain ⟨p, hp, hk⟩ := List.mem_map.mp hmem
    exact hnot p.2 (by rw [← hk]; exact hp)
  · simp only [entries]
    rw [hperm.length_eq, List.length_cons, h.2.2.2.2]
    rfl

/-- `insert` of an absent key. -/
theorem insert_absent {m : HashMap K V} (h : WellFormed hash m) (key : K) (val : V)
    (habs : contains_key hash m key = false) :
    (insert hash m key val).2 = true ∧
    WellFormed hash (insert hash m key val).1 ∧
    (entries (insert hash m key val).1).Perm ((key, val) :: entries m) ∧
    (insert hash m key val).1._size = m._size + 1 ∧
    (insert hash m key val).1._capacity =
      if 3 * m._capacity < 4 * (m._size + 1) then m._capacity * 2 else m._capacity := by
  obtain ⟨hwf1, hperm1⟩ := wellFormed_push hash h key val habs
  have hup := upperLoadFactor_iff
    ({ m with _hashTable := pushBack m._hashTable (_hash hash m key) (key, val),
              _size := m._size + 1 } : HashMap K V) h.1
  simp only [] at hup
  unfold insert
  simp only [habs, Bool.false_eq_true, if_false]
  by_cases hgrow : 3 * m._capacity < 4 * (m._size + 1)
  · rw [if_pos (hup.mpr hgrow), if_pos hgrow]
    obtain ⟨hwf2, hperm2⟩ := wellFormed_rehash hash hwf1.2.1 hwf1.2.2.2.1 hwf1.2.2.2.2
      (m._capacity * 2) (by have := h.1; omega)
    exact ⟨rfl, hwf2, hperm2.trans hperm1, rfl, rfl⟩
  · rw [if_neg (fun hc => hgrow (hup.mp hc)), if_neg hgrow]
    exact ⟨rfl, hwf1, hperm1, rfl, rfl⟩

/-- `insert` of a key that is present. -/
theorem insert_present (m : HashMap K V) (key : K) (val : V)
    (hpres : contains_key hash m key = true) : insert hash m key val = (m, false) := by
  unfold insert
  simp [hpres]

theorem insert_absent_table (m : HashMap K V) (key : K) (val : V)
    (habs : contains_key hash m key = false) :
    (insert hash m key val).1 =
      if _upperLoadFactor ({ m with
          _hashTable := pushBack m._hashTable (_hash hash m key) (key, val),
          _size := m._size + 1 } : HashMap K V) = true then
        _rehash hash ({ m with
          _hashTable := pushBack m._hashTable (_hash hash m key) (key, val),
          _size := m._size + 1 } : HashMap K V) (m._capacity * 2)
      else { m with _hashTable := pushBack m._hashTable (_hash hash m key) (key, val),
                    _size := m._size + 1 } := by
  unfold insert
  simp only [habs, Bool.false_eq_true, if_false]
  split <;> rfl

end InsertLemmas

/-! ## Well-formed tables: erase, clear, copy -/

section EraseLemmas

variable {K V : Type} [DecidableEq K] [DecidableEq V] (hash : K → Nat)

theorem length_filter_ne_key (key : K) :
    ∀ (l : List (K × V)), (l.map Prod.fst).Nodup → (∃ v, (key, v) ∈ l) →
      (l.filter (fun p => !decide (p.1 = key))).length + 1 = l.length := by
  intro l
  induction l with
  | nil => rintro - ⟨v, hv⟩; exact absurd hv (List.not_mem_nil _)
  | cons p l ih =>
    intro hnd hex
    simp only [List.map_cons, List.nodup_cons] at hnd
    by_cases hk : p.1 = key
    · have hall : ∀ a ∈ l, (!decide (a.1 = key)) = true := by
        intro a ha
        simp only [Bool.not_eq_true', decide_eq_false_iff_not]
        intro hak
        exact hnd.1 (List.mem_map.mpr ⟨a, ha, by rw [hak, hk]⟩)
      rw [List.filter_cons_of_neg (by simp [hk]), List.filter_eq_self.mpr hall]
      rfl
    · obtain ⟨v, hv⟩ := hex
      have hv' : (key, v) ∈ l := by
        rcases List.mem_cons.mp hv with hv | hv
        · exact absurd (by rw [← hv]) hk
        · exact hv
      have := ih hnd.2 ⟨v, hv'⟩
      rw [List.filter_cons_of_pos (by simp [hk]), List.length_cons, List.length_cons, this]

/-- Whatever `operator==` answers, `std::list::remove` leaves a part of the
bucket, in the bucket's order. -/
theorem removeFound_sublist [ValueEq V] (key : K) (b : bucket K V) :
    (removeFound key b).Sublist b := by
  unfold removeFound
  split
  · exact List.filter_sublist _
  · exact List.Sublist.refl _

/-- On a bucket without repeated keys, and with an `operator==` of the values
that holds of every value and itself, `std::list::remove` of the found pair
deletes exactly the pairs with the key. -/
theorem removeFound_eq_filter [ValueEq V] (hveq : ∀ v : V, ValueEq.veq v v = true)
    (key : K) (b : bucket K V) (hnd : (b.map Prod.fst).Nodup) :
    removeFound key b = b.filter (fun p => !decide (p.1 = key)) := by
  unfold removeFound
  split
  · rename_i t ht
    have hk : t.1 = key := by simpa using List.find?_some ht
    have hmem := List.mem_of_find?_eq_some ht
    apply List.filter_congr
    intro p hp
    by_cases hpk : p.1 = key
    · have : p = t := List.inj_on_of_nodup_map hnd hp hmem (by rw [hpk, hk])
      simp [this, hk, hveq]
    · have : p.1 ≠ t.1 := fun hpt => hpk (by rw [hpt, hk])
      simp [hpk, this]
  · rename_i hnone
    symm
    apply List.filter_eq_self.mpr
    intro p hp
    simpa using List.find?_eq_none.mp hnone p hp

theorem nodup_keys_bucket {m : HashMap K V} (h : WellFormed hash m) (i : Nat) :
    ((m._hashTable.getD i []).map Prod.fst).Nodup := by
  by_cases hi : i < m._hashTable.length
  · have hsub : (m._hashTable.getD i []).Sublist (entries m) := by
      rw [getD_of_lt _ _ hi]
      exact List.sublist_flatten_of_mem (List.getElem_mem hi)
    exact h.2.2.2.1.sublist (hsub.map Prod.fst)
  · rw [List.getD_eq_default _ _ (Nat.le_of_not_lt hi)]
    exact List.nodup_nil

/-- The bucket array after the removal step of `erase`. -/
theorem erase_table [ValueEq V] (hveq : ∀ v : V, ValueEq.veq v v = true)
    {m : HashMap K V} (h : WellFormed hash m) (key : K) :
    m._hashTable.set (_hash hash m key)
        (removeFound key (m._hashTable.getD (_hash hash m key) []))
      = m._hashTable.map (List.filter (fun p => !decide (p.1 = key))) := by
  rw [removeFound_eq_filter hveq key _ (nodup_keys_bucket hash h _)]
  apply set_eq_map_of
  intro j hj hne
  apply List.filter_eq_self.mpr
  intro p hp
  simp only [Bool.not_eq_true', decide_eq_false_iff_not]
  intro hpk
  have := h.2.2.1 j hj p hp
  rw [hpk] at this
  exact hne this.symm

theorem wellFormed_remove [ValueEq V] (hveq : ∀ v : V, ValueEq.veq v v = true)
    {m : HashMap K V} (h : WellFormed hash m) (key : K)
    (hpres : contains_key hash m key = true) :
    WellFormed hash
      { m with _hashTable := m._hashTable.set (_hash hash m key)
                 (removeFound key (m._hashTable.getD (_hash hash m key) [])),
               _size := m._size - 1 } ∧
    (m._hashTable.set (_hash hash m key)
        (removeFound key (m._hashTable.getD (_hash hash m key) []))).flatten
      = (entries m).filter (fun p => !decide (p.1 = key)) ∧
    m._size - 1 + 1 = m._size := by
  have htab := erase_table hash hveq h key
  have hent : (m._hashTable.set (_hash hash m key)
        (removeFound key (m._hashTable.getD (_hash hash m key) []))).flatten
      = (entries m).filter (fun p => !decide (p.1 = key)) := by
    rw [htab, entries, List.filter_flatten]
  have hlenf := length_filter_ne_key key (entries m) h.2.2.2.1
    ((contains_key_iff hash h key).mp hpres)
  refine ⟨⟨h.1, ?_, ?_, ?_, ?_⟩, hent, ?_⟩
  · simp only [List.length_set]
    exact h.2.1
  · intro i hi p hp
    simp only [List.length_set] at hi
    simp only [htab] at hp
    rw [getD_map_table _ _ (by simp)] at hp
    exact h.2.2.1 i hi p (List.mem_filter.mp hp).1
  · simp only [entries]
    rw [hent]
    exact h.2.2.2.1.sublist ((List.filter_sublist _).map Prod.fst)
  · simp only [entries]
    rw [hent, h.2.2.2.2]
    omega
  · rw [h.2.2.2.2]
    omega

/-- A contained key: the table is not empty. -/
theorem size_pos_of_contains (m : HashMap K V) (key : K)
    (hpres : contains_key hash m key = true) : 1 ≤ m._size := by
  by_contra hcon
  have hz : m._size = 0 := by omega
  have : contains_key hash m key = false := by simp [contains_key, empty, hz]
  rw [this] at hpres
  exact absurd hpres (by simp)

/-- The table `erase` returns for a present key: the removal step, followed by
the rehash to the halved capacity when the load factor has fallen below the
lower bound. -/
theorem erase_present_table [ValueEq V] (m : HashMap K V) (key : K) (hpos : 0 < m._capacity)
    (hpres : contains_key hash m key = true) :
    erase hash m key =
      (if 4 * (m._size - 1) < m._capacity ∧ 1 < m._capacity then
        _rehash hash ({ m with
          _hashTable := m._hashTable.set (_hash hash m key)
            (removeFound key (m._hashTable.getD (_hash hash m key) [])),
          _size := m._size - 1 } : HashMap K V) (m._capacity / 2)
      else { m with
          _hashTable := m._hashTable.set (_hash hash m key)
            (removeFound key (m._hashTable.getD (_hash hash m key) [])),
          _size := m._size - 1 }, true) := by
  have hlow := lowerLoadFactor_iff
    ({ m with _hashTable := m._hashTable.set (_hash hash m key)
                 (removeFound key (m._hashTable.getD (_hash hash m key) [])),
              _size := m._size - 1 } : HashMap K V) hpos
  simp only [] at hlow
  unfold erase
  simp only [hpres, Bool.not_true, Bool.false_eq_true, if_false]
  by_cases hshrink : 4 * (m._size - 1) < m._capacity ∧ 1 < m._capacity
  · rw [if_pos hshrink, if_pos]
    · rfl
    · rw [Bool.and_eq_true]
      exact ⟨hlow.mpr hshrink.1, by simpa [capacity, MINIMAL_CAPACITY] using hshrink.2⟩
  · rw [if_neg hshrink, if_neg]
    rw [Bool.and_eq_true]
    rintro ⟨h1, h2⟩
    exact hshrink ⟨hlow.mp h1, by simpa [capacity, MINIMAL_CAPACITY] using h2⟩

/-- The flag and the counters after `erase` of a present key, whatever
`operator==` of the values answers. -/
theorem erase_counters [ValueEq V] (m : HashMap K V) (key : K) (hpos : 0 < m._capacity)
    (hpres : contains_key hash m key = true) :
    (erase hash m key).2 = true ∧
    (erase hash m key).1._size + 1 = m._size ∧
    (erase hash m key).1._capacity =
      if 4 * (m._size - 1) < m._capacity ∧ 1 < m._capacity then m._capacity / 2
      else m._capacity := by
  have hsz := size_pos_of_contains hash m key hpres
  rw [erase_present_table hash m key hpos hpres]
  refine ⟨rfl, ?_, ?_⟩
  · simp only []
    split
    · simp only [_rehash]
      omega
    · simp only []
      omega
  · simp only []
    split <;> rfl

/-- `erase` of a key that is present. -/
theorem erase_present [ValueEq V] (hveq : ∀ v : V, ValueEq.veq v v = true)
    {m : HashMap K V} (h : WellFormed hash m) (key : K)
    (hpres : contains_key hash m key = true) :
    (erase hash m key).2 = true ∧
    WellFormed hash (erase hash m key).1 ∧
    (entries (erase hash m key).1).Perm ((entries m).filter (fun p => !decide (p.1 = key))) ∧
    (erase hash m key).1._size + 1 = m._size ∧
    (erase hash m key).1._capacity =
      if 4 * (m._size - 1) < m._capacity ∧ 1 < m._capacity then m._capacity / 2
      else m._capacity := by
  obtain ⟨hwf1, hent1, hsz1⟩ := wellFormed_remove hash hveq h key hpres
  have hlow := lowerLoadFactor_iff
    ({ m with _hashTable := m._hashTable.set (_hash hash m key)
                 (removeFound key (m._hashTable.getD (_hash hash m key) [])),
              _size := m._size - 1 } : HashMap K V) h.1
  simp only [] at hlow
  unfold erase
  simp only [hpres, Bool.not_true, Bool.false_eq_true, if_false]
  by_cases hshrink : 4 * (m._size - 1) < m._capacity ∧ 1 < m._capacity
  · have hcond : (_lowerLoadFactor
        ({ m with _hashTable := m._hashTable.set (_hash hash m key)
                    (removeFound key (m._hashTable.getD (_hash hash m key) [])),
                  _size := m._size - 1 } : HashMap K V) &&
        decide (capacity
          ({ m with _hashTable := m._hashTable.set (_hash hash m key)
                      (removeFound key (m._hashTable.getD (_hash hash m key) [])),
                    _size := m._size - 1 } : HashMap K V) > MINIMAL_CAPACITY)) = true := by
      rw [Bool.and_eq_true]
      exact ⟨hlow.mpr hshrink.1, by simpa [capacity, MINIMAL_CAPACITY] using hshrink.2⟩
    rw [if_pos hcond, if_pos hshrink]
    obtain ⟨hwf2, hperm2⟩ := wellFormed_rehash hash hwf1.2.1 hwf1.2.2.2.1 hwf1.2.2.2.2
      (m._capacity / 2) (by have := hshrink.2; omega)
    refine ⟨rfl, hwf2, ?_, hsz1, rfl⟩
    refine hperm2.trans ?_
    simp only [entries] at hent1 ⊢
    rw [hent1]
  · have hcond : ¬ (_lowerLoadFactor
        ({ m with _hashTable := m._hashTable.set (_hash hash m key)
                    (removeFound key (m._hashTable.getD (_hash hash m key) [])),
                  _size := m._size - 1 } : HashMap K V) &&
        decide (capacity
          ({ m with _hashTable := m._hashTable.set (_hash hash m key)
                      (removeFound key (m._hashTable.getD (_hash hash m key) [])),
                    _size := m._size - 1 } : HashMap K V) > MINIMAL_CAPACITY)) = true := by
      rw [Bool.and_eq_true]
      rintro ⟨h1, h2⟩
      exact hshrink ⟨hlow.mp h1, by simpa [capacity, MINIMAL_CAPACITY] using h2⟩
    rw [if_neg hcond, if_neg hshrink]
    refine ⟨rfl, hwf1, ?_, hsz1, rfl⟩
    simp only [entries] at hent1 ⊢
    rw [hent1]

/-- `erase` of an absent key. -/
theorem erase_absent [ValueEq V] (m : HashMap K V) (key : K)
    (habs : contains_key hash m key = false) : erase hash m key = (m, false) := by
  unfold erase
  simp [habs]

theorem clear_table (m : HashMap K V) (hlen : m._hashTable.length = m._capacity) :
    (clear m)._hashTable = List.replicate m._capacity [] := by
  have := foldl_set_range m._hashTable (fun _ => ([] : bucket K V)) m._hashTable.length
    m._hashTable rfl (Nat.le_refl _)
  simp only [clear]
  rw [← hlen, this]
  simp only [List.take_length, List.drop_length, List.append_nil]
  apply List.ext_getElem
  · simp
  · intro n h1 h2
    simp

theorem wellFormed_clear {m : HashMap K V} (hcap : 1 ≤ m._capacity)
    (hlen : m._hashTable.length = m._capacity) :
    WellFormed hash (clear m) ∧ entries (clear m) = [] := by
  have htab := clear_table m hlen
  have hent : entries (clear m) = [] := by
    rw [entries, htab, flatten_replicate_nil]
  refine ⟨⟨hcap, ?_, ?_, ?_, ?_⟩, hent⟩
  · rw [htab, List.length_replicate]
    rfl
  · intro i _ p hp
    rw [htab, getD_replicate_nil] at hp
    exact absurd hp (List.not_mem_nil _)
  · rw [hent]
    exact List.nodup_nil
  · rw [hent]
    rfl

/-- Copy-assignment from a table whose array has `_capacity` buckets yields that
table. -/
theorem copyFrom_eq (self other : HashMap K V)
    (hlen : other._hashTable.length = other._capacity) : copyFrom self other = other := by
  have hfold := foldl_set_range other._hashTable id other._hashTable.length
    (List.replicate other._hashTable.length []) (by simp) (Nat.le_refl _)
  simp only [id, List.take_length, List.map_id', List.length_replicate] at hfold
  rw [List.drop_of_length_le (by simp), List.append_nil, hlen] at hfold
  cases other
  simp only [copyFrom, capacity, size] at hfold ⊢
  rw [hfold, List.map_id]

end EraseLemmas

/-! ## Well-formed tables: assignment through an alias, `operator[]` -/

section SubscriptLemmas

variable {K V : Type} [DecidableEq K] [DecidableEq V] (hash : K → Nat)

theorem setValue_fst (key : K) (val : V) (t : K × V) : (setValue key val t).1 = t.1 := by
  unfold setValue
  split <;> rfl

theorem setValue_of_ne (key : K) (val : V) (t : K × V) (h : t.1 ≠ key) :
    setValue key val t = t := by
  simp [setValue, h]

theorem map_setValue_of_absent (key : K) (val : V) (l : List (K × V))
    (h : ∀ p ∈ l, p.1 ≠ key) : l.map (setValue key val) = l := by
  refine (List.map_congr_left (fun p hp => ?_)).trans (List.map_id l)
  exact setValue_of_ne key val p (h p hp)

theorem storeAt_eq_map (key : K) (val : V) :
    ∀ (b : bucket K V) (pos : Nat), (b.map Prod.fst).Nodup → locate key b = some pos →
      storeAt val b pos = b.map (setValue key val) := by
  intro b
  induction b with
  | nil => intro pos _ h; simp [locate] at h
  | cons t rest ih =>
    intro pos hnd hloc
    simp only [List.map_cons, List.nodup_cons] at hnd
    by_cases hk : t.1 = key
    · simp only [locate, hk, if_true, Option.some.injEq] at hloc
      subst hloc
      have hrest : rest.map (setValue key val) = rest := by
        apply map_setValue_of_absent
        intro p hp hpk
        exact hnd.1 (List.mem_map.mpr ⟨p, hp, by rw [hpk, hk]⟩)
      simp [storeAt, setValue, hk, hrest]
    · simp only [locate, hk, if_false, Option.map_eq_some'] at hloc
      obtain ⟨n, hn, rfl⟩ := hloc
      simp [storeAt, ih n hnd.2 hn, setValue_of_ne key val t hk]

theorem mem_map_setValue (key : K) (val : V) (l : List (K × V))
    (hex : ∃ v0, (key, v0) ∈ l) (k : K) (v : V) :
    (k, v) ∈ l.map (setValue key val) ↔ if k = key then v = val else (k, v) ∈ l := by
  constructor
  · intro h
    obtain ⟨t, ht, hft⟩ := List.mem_map.mp h
    by_cases hk : k = key
    · rw [if_pos hk]
      have ht1 : t.1 = key := by
        have := setValue_fst key val t
        rw [hft] at this
        rw [← this]
        exact hk
      simp only [setValue, ht1, if_true] at hft
      exact (Prod.mk.inj hft).2.symm
    · rw [if_neg hk]
      have ht1 : t.1 ≠ key := by
        have := setValue_fst key val t
        rw [hft] at this
        rw [← this]
        exact hk
      rw [setValue_of_ne key val t ht1] at hft
      rw [← hft]
      exact ht
  · intro h
    by_cases hk : k = key
    · rw [if_pos hk] at h
      obtain ⟨v0, hv0⟩ := hex
      refine List.mem_map.mpr ⟨(key, v0), hv0, ?_⟩
      simp [setValue, hk, h]
    · rw [if_neg hk] at h
      exact List.mem_map.mpr ⟨(k, v), h, setValue_of_ne key val _ hk⟩

/-- Writing through an alias to the first pair with `key` of bucket `i`. -/
theorem writeRef_spec {m : HashMap K V} (h : WellFormed hash m) (key : K) (val : V)
    (i pos : Nat) (hloc : locate key (m._hashTable.getD i []) = some pos) :
    WellFormed hash (writeRef m ⟨i, pos⟩ val) ∧
    entries (writeRef m ⟨i, pos⟩ val) = (entries m).map (setValue key val) := by
  obtain ⟨v0, hv0⟩ := (locate_isSome_iff key _).mp ⟨pos, hloc⟩
  have hi : i < m._hashTable.length := by
    by_contra hcon
    rw [List.getD_eq_default _ _ (Nat.le_of_not_lt hcon)] at hv0
    exact absurd hv0 (List.not_mem_nil _)
  have hidx : hash key &&& (m._capacity - 1) = i := h.2.2.1 i hi (key, v0) hv0
  have htab : (writeRef m ⟨i, pos⟩ val)._hashTable
      = m._hashTable.map (List.map (setValue key val)) := by
    simp only [writeRef]
    rw [storeAt_eq_map key val _ pos (nodup_keys_bucket hash h i) hloc]
    apply set_eq_map_of
    intro j hj hne
    apply map_setValue_of_absent
    intro p hp hpk
    have := h.2.2.1 j hj p hp
    rw [hpk, hidx] at this
    exact hne this.symm
  have hent : entries (writeRef m ⟨i, pos⟩ val) = (entries m).map (setValue key val) := by
    simp only [entries]
    rw [htab, List.map_flatten]
  have hkeys : (entries (writeRef m ⟨i, pos⟩ val)).map Prod.fst = (entries m).map Prod.fst := by
    rw [hent, List.map_map]
    exact List.map_congr_left (fun p _ => setValue_fst key val p)
  refine ⟨⟨h.1, ?_, ?_, ?_, ?_⟩, hent⟩
  · rw [htab, List.length_map]
    exact h.2.1
  · intro j hj p hp
    rw [htab, List.length_map] at hj
    rw [htab, getD_map_table _ _ (by simp)] at hp
    obtain ⟨t, ht, hft⟩ := List.mem_map.mp hp
    have := h.2.2.1 j hj t ht
    rw [← hft, setValue_fst]
    exact this
  · rw [hkeys]
    exact h.2.2.2.1
  · rw [hent, List.length_map]
    exact h.2.2.2.2

/-- The table and the alias produced by mutable `operator[]`. -/
theorem subscript_spec [Inhabited V] {m : HashMap K V} (h : WellFormed hash m) (key : K) :
    (subscript hash m key).1 =
        (if contains_key hash m key then m else (insert hash m key default).1) ∧
    ∃ r, (subscript hash m key).2 = .ok r ∧
      locate key ((subscript hash m key).1._hashTable.getD r.bucketIdx []) = some r.pos := by
  have hm1 : (if (empty m || (m._hashTable.getD (_hash hash m key) []).isEmpty ||
        !contains_key hash m key) = true then (insert hash m key default).1 else m)
      = (if contains_key hash m key then m else (insert hash m key default).1) := by
    by_cases hc : contains_key hash m key = true
    · have hc' := hc
      unfold contains_key at hc'
      simp only [] at hc'
      split at hc'
      · exact absurd hc' (by simp)
      · rename_i hcond
        rw [if_pos hc, if_neg]
        simp only [hc, Bool.not_true, Bool.or_false]
        exact hcond
    · rw [if_neg hc, if_pos]
      simp [hc]
  have hwf1 : WellFormed hash
      (if contains_key hash m key then m else (insert hash m key default).1) := by
    by_cases hc : contains_key hash m key = true
    · rw [if_pos hc]; exact h
    · rw [if_neg hc]
      exact (insert_absent hash h key default (by simpa using hc)).2.1
  have hin : ∃ v, (key, v) ∈
      entries (if contains_key hash m key then m else (insert hash m key default).1) := by
    by_cases hc : contains_key hash m key = true
    · rw [if_pos hc]; exact (contains_key_iff hash h key).mp hc
    · rw [if_neg hc]
      exact ⟨default, ((insert_absent hash h key default (by simpa using hc)).2.2.1.mem_iff).mpr
        (List.mem_cons_self _ _)⟩
  unfold subscript
  simp only []
  rw [hm1]
  generalize (if contains_key hash m key = true then m else (insert hash m key default).1) = m1
    at hwf1 hin ⊢
  split
  · rename_i pos hpos
    exact ⟨rfl, ⟨_, pos⟩, rfl, hpos⟩
  · refine ⟨rfl, ?_⟩
    obtain ⟨v, hv⟩ := hin
    have hb := (hwf1.mem_bucket_iff hash (key, v)).mpr hv
    obtain ⟨n, hn⟩ := (locate_isSome_iff key _).mpr ⟨v, hb⟩
    have hn1 : locate key (m1._hashTable.getD (_hash hash m1 key) []) = some n := hn
    refine ⟨⟨_hash hash m1 key, n⟩, ?_, hn1⟩
    simp only [atRef, hn1]

end SubscriptLemmas

/-! ## The invariant of reachable tables -/

section InvariantLemmas

variable {K V : Type} [DecidableEq K] [DecidableEq V] (hash : K → Nat)

theorem wellFormed_default : WellFormed hash (mkDefault : HashMap K V) := by
  refine ⟨by simp [mkDefault, DEFAULT_CAPACITY], by simp [mkDefault], ?_, ?_, ?_⟩
  · intro i _ p hp
    simp only [mkDefault, getD_replicate_nil] at hp
    exact absurd hp (List.not_mem_nil _)
  · simp [entries, mkDefault, flatten_replicate_nil]
  · simp [entries, mkDefault, flatten_replicate_nil]

theorem invariant_default : Invariant hash (mkDefault : HashMap K V) :=
  ⟨wellFormed_default hash, by simp [mkDefault, DEFAULT_CAPACITY], 4, rfl⟩

theorem invariant_insert {m : HashMap K V} (h : Invariant hash m) (key : K) (val : V) :
    Invariant hash (insert hash m key val).1 := by
  obtain ⟨hwf, hload, j, hj⟩ := h
  by_cases hc : contains_key hash m key = true
  · rw [insert_present hash m key val hc]
    exact ⟨hwf, hload, j, hj⟩
  · obtain ⟨-, hwf1, -, hsz, hcap⟩ := insert_absent hash hwf key val (by simpa using hc)
    have hpos := hwf.1
    refine ⟨hwf1, ?_, ?_⟩
    · rw [hsz, hcap]
      split <;> omega
    · rw [hcap]
      split
      · exact ⟨j + 1, by rw [hj, pow_succ]⟩
      · exact ⟨j, hj⟩

theorem invariant_erase [ValueEq V] (hveq : ∀ v : V, ValueEq.veq v v = true)
    {m : HashMap K V} (h : Invariant hash m) (key : K) :
    Invariant hash (erase hash m key).1 := by
  obtain ⟨hwf, hload, j, hj⟩ := h
  by_cases hc : contains_key hash m key = true
  · obtain ⟨-, hwf1, -, hsz, hcap⟩ := erase_present hash hveq hwf key hc
    refine ⟨hwf1, ?_, ?_⟩
    · rw [hcap]
      split
      · rename_i hshrink
        omega
      · omega
    · rw [hcap]
      split
      · rename_i hshrink
        cases j with
        | zero => rw [hj] at hshrink; simp at hshrink
        | succ j => exact ⟨j, by rw [hj, pow_succ]; simp⟩
      · exact ⟨j, hj⟩
  · rw [erase_absent hash m key (by simpa using hc)]
    exact ⟨hwf, hload, j, hj⟩

theorem invariant_clear {m : HashMap K V} (h : Invariant hash m) : Invariant hash (clear m) := by
  obtain ⟨hwf, -, j, hj⟩ := h
  exact ⟨(wellFormed_clear hash hwf.1 hwf.2.1).1, by simp [clear], j, hj⟩

theorem invariant_writeRef {m : HashMap K V} (h : Invariant hash m) (key : K) (val : V)
    (i pos : Nat) (hloc : locate key (m._hashTable.getD i []) = some pos) :
    Invariant hash (writeRef m ⟨i, pos⟩ val) :=
  ⟨(writeRef_spec hash h.1 key val i pos hloc).1, h.2.1, h.2.2⟩

theorem invariant_subscript [Inhabited V] {m : HashMap K V} (h : Invariant hash m) (key : K) :
    Invariant hash (subscript hash m key).1 := by
  rw [(subscript_spec hash h.1 key).1]
  split
  · exact h
  · exact invariant_insert hash h key default

/-- The statement `m[key] = val` always completes: it writes `val` through the
alias returned by `operator[]`, which denotes the pair of `key`. -/
theorem subscriptAssign_spec [Inhabited V] {m : HashMap K V} (h : WellFormed hash m)
    (key : K) (val : V) :
    ∃ r, subscriptAssign hash m key val = .ok (writeRef (subscript hash m key).1 r val) ∧
      locate key ((subscript hash m key).1._hashTable.getD r.bucketIdx []) = some r.pos := by
  obtain ⟨-, r, hr, hloc⟩ := subscript_spec hash h key
  refine ⟨r, ?_, hloc⟩
  unfold subscriptAssign
  cases hs : subscript hash m key with
  | mk m1 res =>
    rw [hs] at hr
    simp only [] at hr
    subst hr
    rfl

theorem invariant_subscriptAssign [Inhabited V] {m m1 : HashMap K V} (h : Invariant hash m)
    (key : K) (val : V) (hok : subscriptAssign hash m key val = .ok m1) :
    Invariant hash m1 := by
  obtain ⟨r, hr, hloc⟩ := subscriptAssign_spec hash h.1 key val
  rw [hr] at hok
  injection hok with hok
  subst hok
  exact invariant_writeRef hash (invariant_subscript hash h key) key val _ _ hloc

theorem atAssign_ok {m m1 : HashMap K V} (key : K) (val : V)
    (hok : atAssign hash m key val = .ok m1) :
    ∃ pos, locate key (m._hashTable.getD (_hash hash m key) []) = some pos ∧
      m1 = writeRef m ⟨_hash hash m key, pos⟩ val := by
  unfold atAssign atRef at hok
  cases hl : locate key (m._hashTable.getD (_hash hash m key) []) with
  | none => rw [hl] at hok; simp at hok
  | some pos =>
    rw [hl] at hok
    simp only [Except.ok.injEq] at hok
    exact ⟨pos, rfl, hok.symm⟩

theorem invariant_atAssign {m m1 : HashMap K V} (h : Invariant hash m)
    (key : K) (val : V) (hok : atAssign hash m key val = .ok m1) : Invariant hash m1 := by
  obtain ⟨pos, hloc, rfl⟩ := atAssign_ok hash key val hok
  exact invariant_writeRef hash h key val _ _ hloc

theorem invariant_assign {self other : HashMap K V} (hs : Invariant hash self)
    (ho : Invariant hash other) (sameObject : Bool) :
    Invariant hash (assign self other sameObject) := by
  unfold assign
  split
  · exact hs
  · rw [copyFrom_eq self other ho.1.2.1]
    exact ho

theorem invariant_insertAll :
    ∀ (keys : List K) (values : List V) (m m1 : HashMap K V), Invariant hash m →
      insertAll hash m keys values = .ok m1 → Invariant hash m1 := by
  intro keys
  induction keys with
  | nil =>
    intro values m m1 h hok
    simp only [insertAll, Except.ok.injEq] at hok
    exact hok ▸ h
  | cons k keys ih =>
    intro values m m1 h hok
    cases values with
    | nil =>
      simp only [insertAll, Except.ok.injEq] at hok
      exact hok ▸ h
    | cons v values =>
      simp only [insertAll] at hok
      have hins := invariant_insert hash h k v
      cases hi : insert hash m k v with
      | mk m2 flag =>
        rw [hi] at hok hins
        cases flag with
        | true => exact ih values m2 m1 hins hok
        | false =>
          simp only [] at hok
          cases ha : atAssign hash m2 k v with
          | error e => rw [ha] at hok; simp at hok
          | ok m3 =>
            rw [ha] at hok
            exact ih values m3 m1 (invariant_atAssign hash hins k v ha) hok

theorem invariant_mkFromRange (keys : List K) (values : List V) (m : HashMap K V)
    (hok : mkFromRange hash keys values = .ok m) : Invariant hash m := by
  unfold mkFromRange at hok
  split at hok
  · simp at hok
  · exact invariant_insertAll hash keys values mkDefault m (invariant_default hash) hok

/-- With an `operator==` of the values that holds of every value and itself,
every reachable table satisfies the invariant. -/
theorem Reachable.invariant [Inhabited V] [ValueEq V]
    (hveq : ∀ v : V, ValueEq.veq v v = true) {m : HashMap K V} (h : Reachable hash m) :
    Invariant hash m := by
  induction h with
  | default => exact invariant_default hash
  | range keys values m hok => exact invariant_mkFromRange hash keys values m hok
  | insert m key val _ ih => exact invariant_insert hash ih key val
  | erase m key _ ih => exact invariant_erase hash hveq ih key
  | clear m _ ih => exact invariant_clear hash ih
  | subscript m key _ ih => exact invariant_subscript hash ih key
  | subscriptAssign m key val m1 _ hok ih => exact invariant_subscriptAssign hash ih key val hok
  | atAssign m key val m1 _ hok ih => exact invariant_atAssign hash ih key val hok
  | assign self other sameObject _ _ ih1 ih2 => exact invariant_assign hash ih1 ih2 sameObject

end InvariantLemmas

/-! ## Refinement of the reference map -/

section Refinement

variable {K V : Type} [DecidableEq K] [DecidableEq V] (hash : K → Nat)

theorem RefMap.mem_keys_iff (r : RefMap K V) (k : K) :
    k ∈ RefMap.keys r ↔ ∃ v, (k, v) ∈ r := by
  simp only [RefMap.keys, List.mem_dedup, List.mem_map]
  constructor
  · rintro ⟨p, hp, rfl⟩
    exact ⟨p.2, hp⟩
  · rintro ⟨v, hv⟩
    exact ⟨(k, v), hv, rfl⟩

theorem filter_ne_key_of_absent (key : K) (l : List (K × V)) (h : ∀ v, (key, v) ∉ l) :
    l.filter (fun p => !decide (p.1 = key)) = l := by
  apply List.filter_eq_self.mpr
  intro p hp
  simp only [Bool.not_eq_true', decide_eq_false_iff_not]
  intro hk
  exact h p.2 (by rw [← hk]; exact hp)

theorem perm_map_setValue (key : K) (val : V) :
    ∀ l : List (K × V), (l.map Prod.fst).Nodup → (∃ v0, (key, v0) ∈ l) →
      (l.map (setValue key val)).Perm
        ((key, val) :: l.filter (fun p => !decide (p.1 = key))) := by
  intro l
  induction l with
  | nil => rintro - ⟨v, hv⟩; exact absurd hv (List.not_mem_nil _)
  | cons p l ih =>
    intro hnd hex
    simp only [List.map_cons, List.nodup_cons] at hnd
    by_cases hk : p.1 = key
    · have habs : ∀ q ∈ l, q.1 ≠ key := by
        intro q hq hqk
        exact hnd.1 (List.mem_map.mpr ⟨q, hq, by rw [hqk, hk]⟩)
      have hfil : l.filter (fun p => !decide (p.1 = key)) = l :=
        filter_ne_key_of_absent key l (fun v hv => habs _ hv rfl)
      rw [List.map_cons, map_setValue_of_absent key val l habs,
        List.filter_cons_of_neg (by simp [hk]), hfil]
      simp [setValue, hk]
    · obtain ⟨v0, hv0⟩ := hex
      have hv0' : (key, v0) ∈ l := by
        rcases List.mem_cons.mp hv0 with hv | hv
        · exact absurd (by rw [← hv]) hk
        · exact hv
      rw [List.map_cons, setValue_of_ne key val p hk, List.filter_cons_of_pos (by simp [hk])]
      exact ((ih hnd.2 ⟨v0, hv0'⟩).cons p).trans (List.Perm.swap _ _ _)

/-- One operation keeps the table well-formed and its pairs a permutation of the
reference map; for an `erase` this needs an `operator==` of the values that
holds of every value and itself. -/
theorem step_sim [Inhabited V] [ValueEq V] {m : HashMap K V} {r : RefMap K V}
    (hwf : WellFormed hash m) (hperm : (entries m).Perm r) (op : Op K V)
    (hveq : (∀ v : V, ValueEq.veq v v = true) ∨ ∀ key, op ≠ Op.erase key) :
    ∃ m1 flag, step hash m op = .ok (m1, flag) ∧ WellFormed hash m1 ∧
      (entries m1).Perm (RefMap.step r op) := by
  cases op with
  | subscriptAssign key val =>
    obtain ⟨r0, hok, hloc⟩ := subscriptAssign_spec hash hwf key val
    have hsub := (subscript_spec hash hwf key).1
    refine ⟨writeRef (subscript hash m key).1 r0 val, none, by simp only [step, hok], ?_⟩
    have hwf1 : WellFormed hash (subscript hash m key).1 ∧
        (∃ v0, (key, v0) ∈ entries (subscript hash m key).1) ∧
        ((entries (subscript hash m key).1).filter (fun p => !decide (p.1 = key))).Perm
          (r.filter (fun p => !decide (p.1 = key))) := by
      rw [hsub]
      by_cases hc : contains_key hash m key = true
      · rw [if_pos hc]
        exact ⟨hwf, (contains_key_iff hash hwf key).mp hc, hperm.filter _⟩
      · rw [if_neg hc]
        obtain ⟨-, hw, hp, -, -⟩ := insert_absent hash hwf key default (by simpa using hc)
        refine ⟨hw, ⟨default, hp.mem_iff.mpr (List.mem_cons_self _ _)⟩, ?_⟩
        have := (hp.trans (hperm.cons (key, default))).filter (fun p => !decide (p.1 = key))
        rwa [List.filter_cons_of_neg (by simp)] at this
    obtain ⟨hw, hent⟩ := writeRef_spec hash hwf1.1 key val r0.bucketIdx r0.pos hloc
    refine ⟨hw, ?_⟩
    rw [hent]
    exact (perm_map_setValue key val _ hwf1.1.2.2.2.1 hwf1.2.1).trans (hwf1.2.2.cons _)
  | insert key val =>
    refine ⟨_, _, rfl, ?_⟩
    by_cases hc : contains_key hash m key = true
    · have hin : key ∈ RefMap.keys r := by
        obtain ⟨v, hv⟩ := (contains_key_iff hash hwf key).mp hc
        exact (RefMap.mem_keys_iff r key).mpr ⟨v, hperm.mem_iff.mp hv⟩
      rw [insert_present hash m key val hc]
      simp only [RefMap.step, hin, if_true]
      exact ⟨hwf, hperm⟩
    · have hnin : key ∉ RefMap.keys r := by
        intro hin
        obtain ⟨v, hv⟩ := (RefMap.mem_keys_iff r key).mp hin
        exact hc ((contains_key_iff hash hwf key).mpr ⟨v, hperm.mem_iff.mpr hv⟩)
      obtain ⟨-, hw, hp, -, -⟩ := insert_absent hash hwf key val (by simpa using hc)
      simp only [RefMap.step, hnin, if_false]
      exact ⟨hw, hp.trans (hperm.cons _)⟩
  | erase key =>
    have hveq : ∀ v : V, ValueEq.veq v v = true := by
      rcases hveq with h | h
      · exact h
      · exact absurd rfl (h key)
    refine ⟨_, _, rfl, ?_⟩
    by_cases hc : contains_key hash m key = true
    · obtain ⟨-, hw, hp, -, -⟩ := erase_present hash hveq hwf key hc
      exact ⟨hw, hp.trans (hperm.filter _)⟩
    · have habs := (contains_key_eq_false_iff hash hwf key).mp (by simpa using hc)
      rw [erase_absent hash m key (by simpa using hc)]
      refine ⟨hwf, ?_⟩
      simp only [RefMap.step]
      rw [filter_ne_key_of_absent key r (fun v hv => habs v (hperm.mem_iff.mpr hv))]
      exact hperm
  | clear =>
    obtain ⟨hw, hent⟩ := wellFormed_clear hash hwf.1 hwf.2.1
    refine ⟨_, none, rfl, hw, ?_⟩
    rw [hent]
    exact List.Perm.refl _

/-- Every sequence of operations completes and keeps the simulation, when it
holds no `erase` or `operator==` of the values holds of every value and itself. -/
theorem run_sim [Inhabited V] [ValueEq V] (ops : List (Op K V)) :
    ((∀ v : V, ValueEq.veq v v = true) ∨ ∀ key, Op.erase key ∉ ops) →
    ∀ (m : HashMap K V) (r : RefMap K V), WellFormed hash m → (entries m).Perm r →
      ∃ m1, run hash m ops = .ok m1 ∧ WellFormed hash m1 ∧
        (entries m1).Perm (RefMap.run r ops) := by
  induction ops with
  | nil => intro _ m r hwf hperm; exact ⟨m, rfl, hwf, hperm⟩
  | cons op ops ih =>
    intro hveq m r hwf hperm
    have hhead : (∀ v : V, ValueEq.veq v v = true) ∨ ∀ key, op ≠ Op.erase key := by
      rcases hveq with h | h
      · exact Or.inl h
      · exact Or.inr (fun key heq => h key (heq ▸ List.mem_cons_self _ _))
    have htail : (∀ v : V, ValueEq.veq v v = true) ∨ ∀ key, Op.erase key ∉ ops := by
      rcases hveq with h | h
      · exact Or.inl h
      · exact Or.inr (fun key hmem => h key (List.mem_cons_of_mem _ hmem))
    obtain ⟨m1, flag, hstep, hwf1, hperm1⟩ := step_sim hash hwf hperm op hhead
    obtain ⟨m2, hrun, hwf2, hperm2⟩ := ih htail m1 _ hwf1 hperm1
    exact ⟨m2, by simp only [run, hstep, hrun], hwf2, hperm2⟩

/-- What the simulation gives for the observers. -/
theorem sim_observers {m : HashMap K V} {r : RefMap K V} (hwf : WellFormed hash m)
    (hperm : (entries m).Perm r) :
    size m = (RefMap.keys r).length ∧
    (∀ k, contains_key hash m k = true ↔ k ∈ RefMap.keys r) ∧
    (∀ k v, RefMap.get r k = some v → atKey hash m k = .ok v) ∧
    (∀ k, RefMap.get r k = none → atKey hash m k = .error .KeyNotFound) := by
  have hnd : (r.map Prod.fst).Nodup := ((hperm.map Prod.fst).nodup_iff).mp hwf.2.2.2.1
  refine ⟨?_, ?_, ?_, ?_⟩
  · simp only [size, RefMap.keys]
    rw [hwf.2.2.2.2, hnd.dedup, List.length_map]
    exact hperm.length_eq
  · intro k
    rw [contains_key_iff hash hwf, RefMap.mem_keys_iff]
    exact exists_congr (fun v => hperm.mem_iff)
  · intro k v hget
    simp only [RefMap.get, Option.map_eq_some'] at hget
    obtain ⟨p, hp, hpv⟩ := hget
    have hk : p.1 = k := by simpa using List.find?_some hp
    have hmem : p ∈ r := List.mem_of_find?_eq_some hp
    rw [atKey_eq_ok_iff hash hwf]
    rw [← hk, ← hpv]
    exact hperm.mem_iff.mpr hmem
  · intro k hget
    simp only [RefMap.get, Option.map_eq_none'] at hget
    rw [atKey_error_iff hash hwf, contains_key_eq_false_iff hash hwf]
    intro v hv
    have := List.find?_eq_none.mp hget (k, v) (hperm.mem_iff.mp hv)
    simp at this

end Refinement

/-! ## Observers on related tables -/

section ObserverLemmas

variable {K V : Type} [DecidableEq K] [DecidableEq V] (hash : K → Nat)

theorem atKey_error_eq (m : HashMap K V) (key : K) (e : HashMapError)
    (h : atKey hash m key = .error e) : e = .KeyNotFound := by
  unfold atKey at h
  split at h
  · simp at h
  · injection h with h
    exact h.symm

/-- Two well-formed tables that store the same values for a key answer
`contains_key` and `at` alike. -/
theorem lookup_congr {m1 m2 : HashMap K V} (h1 : WellFormed hash m1) (h2 : WellFormed hash m2)
    (key : K) (hsame : ∀ v, (key, v) ∈ entries m1 ↔ (key, v) ∈ entries m2) :
    contains_key hash m1 key = contains_key hash m2 key ∧
    atKey hash m1 key = atKey hash m2 key := by
  constructor
  · rw [Bool.eq_iff_iff, contains_key_iff hash h1, contains_key_iff hash h2]
    exact exists_congr hsame
  · cases ha : atKey hash m2 key with
    | ok v =>
      exact (atKey_eq_ok_iff hash h1 key v).mpr
        ((hsame v).mpr ((atKey_eq_ok_iff hash h2 key v).mp ha))
    | error e =>
      cases hb : atKey hash m1 key with
      | ok v =>
        have := (atKey_eq_ok_iff hash h2 key v).mpr
          ((hsame v).mp ((atKey_eq_ok_iff hash h1 key v).mp hb))
        rw [this] at ha
        simp at ha
      | error e1 =>
        rw [atKey_error_eq hash m1 key e1 hb, atKey_error_eq hash m2 key e ha]

/-- The mutable `at` finds what the read-only `at` finds. -/
theorem atRef_spec {m : HashMap K V} (h : WellFormed hash m) (key : K) :
    (atRef hash m key = .error .KeyNotFound ↔ contains_key hash m key = false) ∧
    ∀ v, atKey hash m key = .ok v →
      ∃ r, atRef hash m key = .ok r ∧ readRef m r = some v := by
  constructor
  · rw [contains_key_eq_false_iff hash h]
    unfold atRef
    constructor
    · intro he v hv
      have hb := (h.mem_bucket_iff hash (key, v)).mpr hv
      obtain ⟨n, hn⟩ := (locate_isSome_iff key _).mpr ⟨v, hb⟩
      have hn1 : locate key (m._hashTable.getD (_hash hash m key) []) = some n := hn
      rw [hn1] at he
      simp at he
    · intro hall
      cases hl : locate key (m._hashTable.getD (_hash hash m key) []) with
      | none => rfl
      | some n =>
        obtain ⟨v, hv⟩ := (locate_isSome_iff key _).mp ⟨n, hl⟩
        exact absurd ((h.mem_bucket_iff hash (key, v)).mp hv) (hall v)
  · intro v hv
    have hmem := (atKey_eq_ok_iff hash h key v).mp hv
    have hb := (h.mem_bucket_iff hash (key, v)).mpr hmem
    obtain ⟨n, hn⟩ := (locate_isSome_iff key _).mpr ⟨v, hb⟩
    have hn1 : locate key (m._hashTable.getD (_hash hash m key) []) = some n := hn
    obtain ⟨w, hget, -⟩ := locate_eq_some key _ n hn1
    have hw : w = v := by
      have hwm : (key, w) ∈ m._hashTable.getD (_hash hash m (key, w).1) [] :=
        List.mem_iff_getElem?.mpr ⟨n, hget⟩
      exact unique_value_of_nodup h.2.2.2.1 ((h.mem_bucket_iff hash (key, w)).mp hwm) hmem
    refine ⟨⟨_hash hash m key, n⟩, by simp only [atRef, hn1], ?_⟩
    simp only [readRef, hget, Option.map_some', hw]

end ObserverLemmas

/-! ## What holds of every reachable table -/

section LayoutLemmas

variable {K V : Type} [DecidableEq K] [DecidableEq V] (hash : K → Nat)

theorem layout_of_invariant {m : HashMap K V} (h : Invariant hash m) : Layout hash m :=
  ⟨h.1.1, h.1.2.1, h.1.2.2.1, h.2.1, h.2.2⟩

/-- A rehash of an array of `_capacity` buckets yields `c` buckets and puts every
pair in the bucket its key selects under `c`. -/
theorem placed_rehash (m : HashMap K V) (hlen : m._hashTable.length = m._capacity)
    (c : Nat) :
    (_rehash hash m c)._hashTable.length = c ∧
    ∀ i < (_rehash hash m c)._hashTable.length, ∀ p ∈ (_rehash hash m c)._hashTable.getD i [],
      hash p.1 &&& (c - 1) = i := by
  have htab := rehash_table hash m c hlen
  have hl : (_rehash hash m c)._hashTable.length = c := by
    rw [htab, length_rehashBucket, List.length_replicate]
  refine ⟨hl, ?_⟩
  intro i hi p hp
  rw [hl] at hi
  rw [htab, getD_rehashBucket hash c _ _ i (by rw [List.length_replicate]; exact hi),
    getD_replicate_nil, List.nil_append] at hp
  simpa using (List.mem_filter.mp hp).2

theorem layout_insert {m : HashMap K V} (h : Layout hash m) (key : K) (val : V) :
    Layout hash (insert hash m key val).1 := by
  obtain ⟨hpos, hlen, hpl, hload, j, hj⟩ := h
  by_cases hc : contains_key hash m key = true
  · rw [insert_present hash m key val hc]
    exact ⟨hpos, hlen, hpl, hload, j, hj⟩
  · have habs : contains_key hash m key = false := by simpa using hc
    have hup := upperLoadFactor_iff
      ({ m with _hashTable := pushBack m._hashTable (_hash hash m key) (key, val),
                _size := m._size + 1 } : HashMap K V) hpos
    simp only [] at hup
    have hpl1 : ∀ i < (pushBack m._hashTable (_hash hash m key) (key, val)).length,
        ∀ p ∈ (pushBack m._hashTable (_hash hash m key) (key, val)).getD i [],
          hash p.1 &&& (m._capacity - 1) = i := by
      intro i hi p hp
      simp only [length_pushBack] at hi
      simp only [getD_pushBack] at hp
      split at hp
      · rename_i hcond
        rcases List.mem_append.mp hp with hp | hp
        · exact hpl i hi p hp
        · have : p = (key, val) := by simpa using hp
          rw [this, ← hcond.1]
          rfl
      · exact hpl i hi p hp
    rw [insert_absent_table hash m key val habs]
    by_cases hgrow : 3 * m._capacity < 4 * (m._size + 1)
    · rw [if_pos (hup.mpr hgrow)]
      obtain ⟨hl2, hpl2⟩ := placed_rehash hash
        ({ m with _hashTable := pushBack m._hashTable (_hash hash m key) (key, val),
                  _size := m._size + 1 } : HashMap K V)
        (by simp only [length_pushBack]; exact hlen) (m._capacity * 2)
      refine ⟨?_, hl2, hpl2, ?_, j + 1, ?_⟩
      · show 1 ≤ m._capacity * 2
        omega
      · show 4 * (m._size + 1) ≤ 3 * (m._capacity * 2)
        omega
      · show m._capacity * 2 = 2 ^ (j + 1)
        rw [hj, pow_succ]
    · rw [if_neg (fun hcon => hgrow (hup.mp hcon))]
      refine ⟨hpos, by simp only [length_pushBack]; exact hlen, hpl1, ?_, j, hj⟩
      show 4 * (m._size + 1) ≤ 3 * m._capacity
      omega

theorem layout_erase [ValueEq V] {m : HashMap K V} (h : Layout hash m) (key : K) :
    Layout hash (erase hash m key).1 := by
  obtain ⟨hpos, hlen, hpl, hload, j, hj⟩ := h
  by_cases hc : contains_key hash m key = true
  · have hpl1 : ∀ i < (m._hashTable.set (_hash hash m key)
          (removeFound key (m._hashTable.getD (_hash hash m key) []))).length,
        ∀ p ∈ (m._hashTable.set (_hash hash m key)
          (removeFound key (m._hashTable.getD (_hash hash m key) []))).getD i [],
          hash p.1 &&& (m._capacity - 1) = i := by
      intro i hi p hp
      simp only [List.length_set] at hi
      rw [getD_set_table] at hp
      split at hp
      · rename_i hcond
        have hmem := (removeFound_sublist key _).subset hp
        rw [hcond.1] at hmem
        exact hpl i hi p hmem
      · exact hpl i hi p hp
    rw [erase_present_table hash m key hpos hc]
    simp only []
    by_cases hshrink : 4 * (m._size - 1) < m._capacity ∧ 1 < m._capacity
    · rw [if_pos hshrink]
      obtain ⟨hl2, hpl2⟩ := placed_rehash hash
        ({ m with _hashTable := m._hashTable.set (_hash hash m key)
                    (removeFound key (m._hashTable.getD (_hash hash m key) [])),
                  _size := m._size - 1 } : HashMap K V)
        (by simp only [List.length_set]; exact hlen) (m._capacity / 2)
      refine ⟨?_, hl2, hpl2, ?_, ?_⟩
      · show 1 ≤ m._capacity / 2
        omega
      · show 4 * (m._size - 1) ≤ 3 * (m._capacity / 2)
        omega
      · show ∃ j1, m._capacity / 2 = 2 ^ j1
        cases j with
        | zero => rw [hj] at hshrink; simp at hshrink
        | succ j => exact ⟨j, by rw [hj, pow_succ]; simp⟩
    · rw [if_neg hshrink]
      refine ⟨hpos, by simp only [List.length_set]; exact hlen, hpl1, ?_, j, hj⟩
      show 4 * (m._size - 1) ≤ 3 * m._capacity
      omega
  · rw [erase_absent hash m key (by simpa using hc)]
    exact ⟨hpos, hlen, hpl, hload, j, hj⟩

theorem layout_clear {m : HashMap K V} (h : Layout hash m) : Layout hash (clear m) := by
  obtain ⟨hpos, hlen, -, -, j, hj⟩ := h
  have htab := clear_table m hlen
  refine ⟨hpos, ?_, ?_, by simp [clear], j, hj⟩
  · rw [htab, List.length_replicate]
    rfl
  · intro i _ p hp
    rw [htab, getD_replicate_nil] at hp
    exact absurd hp (List.not_mem_nil _)

theorem map_fst_storeAt (val : V) :
    ∀ (b : bucket K V) (pos : Nat), (storeAt val b pos).map Prod.fst = b.map Prod.fst := by
  intro b
  induction b with
  | nil => intro pos; rfl
  | cons t rest ih =>
    intro pos
    cases pos with
    | zero => simp [storeAt]
    | succ n => simp [storeAt, ih n]

/-- Writing through any alias keeps the keys where they are. -/
theorem layout_writeRef {m : HashMap K V} (h : Layout hash m) (r : ValueRef) (val : V) :
    Layout hash (writeRef m r val) := by
  obtain ⟨hpos, hlen, hpl, hload, hpow⟩ := h
  refine ⟨hpos, by simp only [writeRef, List.length_set]; exact hlen, ?_, hload, hpow⟩
  intro i hi p hp
  simp only [writeRef, List.length_set] at hi
  simp only [writeRef] at hp
  rw [getD_set_table] at hp
  split at hp
  · rename_i hcond
    have hk : p.1 ∈ (storeAt val (m._hashTable.getD r.bucketIdx []) r.pos).map Prod.fst :=
      List.mem_map_of_mem _ hp
    rw [map_fst_storeAt] at hk
    obtain ⟨q, hq, hqk⟩ := List.mem_map.mp hk
    rw [hcond.1] at hq
    have := hpl i hi q hq
    rw [← hqk]
    exact this
  · exact hpl i hi p hp

theorem subscript_fst [Inhabited V] (m : HashMap K V) (key : K) :
    (subscript hash m key).1 =
      if (empty m || (m._hashTable.getD (_hash hash m key) []).isEmpty ||
          !contains_key hash m key) = true then (insert hash m key default).1
      else m := by
  unfold subscript
  simp only []
  split <;> rfl

theorem layout_subscript [Inhabited V] {m : HashMap K V} (h : Layout hash m) (key : K) :
    Layout hash (subscript hash m key).1 := by
  rw [subscript_fst]
  split
  · exact layout_insert hash h key default
  · exact h

theorem subscriptAssign_ok [Inhabited V] {m m1 : HashMap K V} (key : K) (val : V)
    (hok : subscriptAssign hash m key val = .ok m1) :
    ∃ r, m1 = writeRef (subscript hash m key).1 r val := by
  unfold subscriptAssign at hok
  cases hs : subscript hash m key with
  | mk m2 res =>
    rw [hs] at hok
    cases res with
    | ok r =>
      simp only [Except.ok.injEq] at hok
      exact ⟨r, hok.symm⟩
    | error e => simp at hok

theorem layout_subscriptAssign [Inhabited V] {m m1 : HashMap K V} (h : Layout hash m)
    (key : K) (val : V) (hok : subscriptAssign hash m key val = .ok m1) : Layout hash m1 := by
  obtain ⟨r, rfl⟩ := subscriptAssign_ok hash key val hok
  exact layout_writeRef hash (layout_subscript hash h key) r val

theorem layout_atAssign {m m1 : HashMap K V} (h : Layout hash m)
    (key : K) (val : V) (hok : atAssign hash m key val = .ok m1) : Layout hash m1 := by
  obtain ⟨pos, -, rfl⟩ := atAssign_ok hash key val hok
  exact layout_writeRef hash h _ val

theorem layout_assign {self other : HashMap K V} (hs : Layout hash self)
    (ho : Layout hash other) (sameObject : Bool) :
    Layout hash (assign self other sameObject) := by
  unfold assign
  split
  · exact hs
  · rw [copyFrom_eq self other ho.2.1]
    exact ho

theorem layout_insertAll :
    ∀ (keys : List K) (values : List V) (m m1 : HashMap K V), Layout hash m →
      insertAll hash m keys values = .ok m1 → Layout hash m1 := by
  intro keys
  induction keys with
  | nil =>
    intro values m m1 h hok
    simp only [insertAll, Except.ok.injEq] at hok
    exact hok ▸ h
  | cons k keys ih =>
    intro values m m1 h hok
    cases values with
    | nil =>
      simp only [insertAll, Except.ok.injEq] at hok
      exact hok ▸ h
    | cons v values =>
      simp only [insertAll] at hok
      have hins := layout_insert hash h k v
      cases hi : insert hash m k v with
      | mk m2 flag =>
        rw [hi] at hok hins
        cases flag with
        | true => exact ih values m2 m1 hins hok
        | false =>
          simp only [] at hok
          cases ha : atAssign hash m2 k v with
          | error e => rw [ha] at hok; simp at hok
          | ok m3 =>
            rw [ha] at hok
            exact ih values m3 m1 (layout_atAssign hash hins k v ha) hok

theorem layout_mkFromRange (keys : List K) (values : List V) (m : HashMap K V)
    (hok : mkFromRange hash keys values = .ok m) : Layout hash m := by
  unfold mkFromRange at hok
  split at hok
  · simp at hok
  · exact layout_insertAll hash keys values mkDefault m (layout_of_invariant hash (invariant_default hash)) hok

/-- Every reachable table has the layout, whatever `operator==` of the values
answers. -/
theorem Reachable.layout [Inhabited V] [ValueEq V] {m : HashMap K V} (h : Reachable hash m) :
    Layout hash m := by
  induction h with
  | default => exact layout_of_invariant hash (invariant_default hash)
  | range keys values m hok => exact layout_mkFromRange hash keys values m hok
  | insert m key val _ ih => exact layout_insert hash ih key val
  | erase m key _ ih => exact layout_erase hash ih key
  | clear m _ ih => exact layout_clear hash ih
  | subscript m key _ ih => exact layout_subscript hash ih key
  | subscriptAssign m key val m1 _ hok ih => exact layout_subscriptAssign hash ih key val hok
  | atAssign m key val m1 _ hok ih => exact layout_atAssign hash ih key val hok
  | assign self other sameObject _ _ ih1 ih2 => exact layout_assign hash ih1 ih2 sameObject

/-- The bucket scan of `at` is complete: a stored key is found in the one bucket
its hash selects. -/
theorem layout_scan {m : HashMap K V} (h : Layout hash m) (k : K) (v : V)
    (hkv : (k, v) ∈ entries m) :
    (∃ w, atKey hash m k = .ok w ∧ (k, w) ∈ entries m) ∧
    (empty m = false → contains_key hash m k = true) := by
  obtain ⟨hpos, hlen, hpl, -, -⟩ := h
  obtain ⟨i, hi, hpi⟩ := (mem_flatten_iff_getD _ _).mp hkv
  have hidx : _hash hash m k = i := hpl i hi (k, v) hpi
  have hb : (k, v) ∈ m._hashTable.getD (_hash hash m k) [] := by rw [hidx]; exact hpi
  constructor
  · unfold atKey
    split
    · rename_i t ht
      have hk : t.1 = k := by simpa using List.find?_some ht
      have hmem := List.mem_of_find?_eq_some ht
      refine ⟨t.2, rfl, ?_⟩
      have : (k, t.2) = t := Prod.ext hk.symm rfl
      rw [this]
      exact (mem_flatten_iff_getD _ _).mpr ⟨i, hi, by rw [← hidx]; exact hmem⟩
    · rename_i hnone
      have := List.find?_eq_none.mp hnone (k, v) hb
      simp at this
  · intro hne
    have hne2 : (m._hashTable.getD (_hash hash m k) []).isEmpty = false := by
      cases hb' : m._hashTable.getD (_hash hash m k) [] with
      | nil => rw [hb'] at hb; exact absurd hb (List.not_mem_nil _)
      | cons a l => rfl
    unfold contains_key
    simp only [hne, hne2, Bool.or_false, Bool.false_eq_true, if_false]
    exact List.any_eq_true.mpr ⟨(k, v), hb, by simp⟩

end LayoutLemmas

/-! ## The contract -/

section Contract

variable {K V : Type} [DecidableEq K] [DecidableEq V]

/-- Claim C1, failing input.  On a `HashMap<int, double>` the operations
`insert(1, NaN)`, `insert(2, 2.0)`, `erase(1)` complete, and `erase` returns
`true`; the reference map is left with the key 2 alone, and the table still
contains the key 1 and `at(1)` returns the NaN: `std::list::remove` compares the
stored pair with its copy by `operator==`, which a NaN fails, and removes
nothing.  So `contains_key` does not hold exactly for the keys of the reference
map. -/
theorem refinement_fails_on_nan :
    run intHash (mkDefault : HashMap Int DoubleVal) nanEraseOps = .ok nanEraseTable ∧
    (erase intHash nanTable 1).2 = true ∧
    RefMap.keys (RefMap.run ([] : RefMap Int DoubleVal) nanEraseOps) = [2] ∧
    RefMap.get (RefMap.run ([] : RefMap Int DoubleVal) nanEraseOps) 1 = none ∧
    contains_key intHash nanEraseTable 1 = true ∧
    atKey intHash nanEraseTable 1 = .ok .nan ∧
    ¬ (∀ k, contains_key intHash nanEraseTable k = true ↔
      k ∈ RefMap.keys (RefMap.run ([] : RefMap Int DoubleVal) nanEraseOps)) :=
  ⟨by decide!, by decide!, by decide, by decide, by decide!, by decide!,
    fun h => absurd ((h 1).mp (by decide!)) (by decide)⟩

/-- The refinement of a reference finite map for a value type whose `operator==`
holds of every value and itself.  Every sequence of the operations `m[k] = v`,
`insert(k, v)`, `erase(k)` and `clear()` run on the default-constructed table
completes, and with the same sequence run on the empty reference map: `size()`
is the number of keys of the reference map, `contains_key` holds exactly for its
keys, `at` returns its value for each of them and fails with `KeyNotFound` for
every other key, and a following `insert` or `erase` returns `true` exactly when
the reference map changes its key set. -/
theorem hashMap_refines_reference_map [Inhabited V] [ValueEq V] (hash : K → Nat)
    (hveq : ∀ v : V, ValueEq.veq v v = true) (ops : List (Op K V)) :
    ∃ m : HashMap K V, run hash mkDefault ops = .ok m ∧
      size m = (RefMap.keys (RefMap.run ([] : RefMap K V) ops)).length ∧
      (∀ k, contains_key hash m k = true ↔ k ∈ RefMap.keys (RefMap.run ([] : RefMap K V) ops)) ∧
      (∀ k v, RefMap.get (RefMap.run ([] : RefMap K V) ops) k = some v →
        atKey hash m k = .ok v) ∧
      (∀ k, RefMap.get (RefMap.run ([] : RefMap K V) ops) k = none →
        atKey hash m k = .error .KeyNotFound) ∧
      (∀ k v, (insert hash m k v).2 = true ↔
        ¬ ∀ k1, k1 ∈ RefMap.keys (RefMap.step (RefMap.run ([] : RefMap K V) ops) (.insert k v))
          ↔ k1 ∈ RefMap.keys (RefMap.run ([] : RefMap K V) ops)) ∧
      (∀ k, (erase hash m k).2 = true ↔
        ¬ ∀ k1, k1 ∈ RefMap.keys (RefMap.step (RefMap.run ([] : RefMap K V) ops) (.erase k))
          ↔ k1 ∈ RefMap.keys (RefMap.run ([] : RefMap K V) ops)) := by
  have hperm0 : (entries (mkDefault : HashMap K V)).Perm ([] : RefMap K V) := by
    simp [entries, mkDefault, flatten_replicate_nil]
  obtain ⟨m, hrun, hwf, hperm⟩ := run_sim hash ops (Or.inl hveq) mkDefault []
    (wellFormed_default hash) hperm0
  obtain ⟨hsize, hcont, hat, hnone⟩ := sim_observers hash hwf hperm
  refine ⟨m, hrun, hsize, hcont, hat, hnone, ?_, ?_⟩
  · intro k v
    by_cases hc : contains_key hash m k = true
    · have hin := (hcont k).mp hc
      rw [insert_present hash m k v hc]
      simp [RefMap.step, hin]
    · have hnin : k ∉ RefMap.keys (RefMap.run ([] : RefMap K V) ops) := fun hin =>
        hc ((hcont k).mpr hin)
      have hflag := (insert_absent hash hwf k v (by simpa using hc)).1
      simp only [hflag, true_iff, RefMap.step, hnin, if_false]
      intro hall
      exact hnin ((hall k).mp ((RefMap.mem_keys_iff _ k).mpr ⟨v, List.mem_cons_self _ _⟩))
  · intro k
    by_cases hc : contains_key hash m k = true
    · have hin := (hcont k).mp hc
      have hflag := (erase_present hash hveq hwf k hc).1
      simp only [hflag, true_iff, RefMap.step]
      intro hall
      obtain ⟨v, hv⟩ := (RefMap.mem_keys_iff _ k).mp ((hall k).mpr hin)
      simpa using (List.mem_filter.mp hv).2
    · have hnin : k ∉ RefMap.keys (RefMap.run ([] : RefMap K V) ops) := fun hin =>
        hc ((hcont k).mpr hin)
      rw [erase_absent hash m k (by simpa using hc)]
      have hfil := filter_ne_key_of_absent k (RefMap.run ([] : RefMap K V) ops)
        (fun v hv => hnin ((RefMap.mem_keys_iff _ k).mpr ⟨v, hv⟩))
      simp [RefMap.step, hfil]

/-- Claim C2. On a well-formed table, `insert(k, v)` of an absent key returns
`true`; afterwards `at(k)` yields `v`, `size()` has grown by one, and every other
key is contained exactly when it was before, with the same value.  The statement
covers the insertions that rehash to the doubled capacity, and the result is
again well-formed. -/
theorem insert_absent_key (hash : K → Nat) (m : HashMap K V) (k : K) (v : V)
    (hwf : WellFormed hash m) (habs : contains_key hash m k = false) :
    (insert hash m k v).2 = true ∧
    atKey hash (insert hash m k v).1 k = .ok v ∧
    size (insert hash m k v).1 = size m + 1 ∧
    (∀ k1, k1 ≠ k →
      contains_key hash (insert hash m k v).1 k1 = contains_key hash m k1 ∧
      atKey hash (insert hash m k v).1 k1 = atKey hash m k1) ∧
    WellFormed hash (insert hash m k v).1 := by
  obtain ⟨hflag, hwf1, hperm, hsz, -⟩ := insert_absent hash hwf k v habs
  refine ⟨hflag, ?_, hsz, ?_, hwf1⟩
  · exact (atKey_eq_ok_iff hash hwf1 k v).mpr (hperm.mem_iff.mpr (List.mem_cons_self _ _))
  · intro k1 hne
    apply lookup_congr hash hwf1 hwf k1
    intro w
    rw [hperm.mem_iff, List.mem_cons]
    constructor
    · rintro (h | h)
      · exact absurd (Prod.mk.inj h).1 hne
      · exact h
    · exact Or.inr

/-- Claim C3. On a well-formed table that stores `v1` with `k`, `insert(k, v2)`
returns `false` and returns the table as it was (size, capacity and every
bucket), so `at(k)` still yields `v1`. -/
theorem insert_duplicate_key (hash : K → Nat) (m : HashMap K V) (k : K) (v1 v2 : V)
    (hwf : WellFormed hash m) (hat : atKey hash m k = .ok v1) :
    (insert hash m k v2).2 = false ∧
    (insert hash m k v2).1 = m ∧
    size (insert hash m k v2).1 = size m ∧
    capacity (insert hash m k v2).1 = capacity m ∧
    (insert hash m k v2).1._hashTable = m._hashTable ∧
    atKey hash (insert hash m k v2).1 k = .ok v1 := by
  have hc : contains_key hash m k = true :=
    (contains_key_iff hash hwf k).mpr ⟨v1, (atKey_eq_ok_iff hash hwf k v1).mp hat⟩
  rw [insert_present hash m k v2 hc]
  exact ⟨rfl, rfl, rfl, rfl, rfl, hat⟩

/-- Claim C4, failing input.  The `HashMap<int, double>` built by
`insert(1, NaN)` and `insert(2, 2.0)` is well-formed and contains the key 1;
`erase(1)` returns `true` and lowers `size()` to 1, and afterwards the key 1 is
still contained, `at(1)` still returns the NaN and both pairs are still stored:
`std::list::remove` finds no pair equal to the copy of the pair with the NaN. -/
theorem erase_keeps_nan_pair :
    run intHash (mkDefault : HashMap Int DoubleVal) [Op.insert 1 .nan, Op.insert 2 (.num 2)]
      = .ok nanTable ∧
    WellFormed intHash nanTable ∧
    contains_key intHash nanTable 1 = true ∧
    erase intHash nanTable 1 = (nanEraseTable, true) ∧
    contains_key intHash (erase intHash nanTable 1).1 1 = true ∧
    atKey intHash (erase intHash nanTable 1).1 1 = .ok .nan ∧
    size (erase intHash nanTable 1).1 = 1 ∧
    entries (erase intHash nanTable 1).1 = [(1, .nan), (2, .num 2)] ∧
    ¬ WellFormed intHash (erase intHash nanTable 1).1 :=
  ⟨by decide!, by decide!, by decide!, by decide!, by decide!, by decide!, by decide!,
    by decide!, by decide!⟩

/-- The contract of `erase` for a value type whose `operator==` holds of every
value and itself.  On a well-formed table `erase(k)` returns `true` iff `k` was
contained.  When it does, `k` is no longer contained, `size()` is one less, and
every other key keeps its presence and value, also when the erase rehashes to the
halved capacity; when it returns `false` the table is returned as it was. -/
theorem erase_contract [ValueEq V] (hash : K → Nat) (hveq : ∀ v : V, ValueEq.veq v v = true)
    (m : HashMap K V) (k : K) (hwf : WellFormed hash m) :
    ((erase hash m k).2 = true ↔ contains_key hash m k = true) ∧
    ((erase hash m k).2 = true →
      contains_key hash (erase hash m k).1 k = false ∧
      size (erase hash m k).1 + 1 = size m ∧
      (∀ k1, k1 ≠ k →
        contains_key hash (erase hash m k).1 k1 = contains_key hash m k1 ∧
        atKey hash (erase hash m k).1 k1 = atKey hash m k1) ∧
      WellFormed hash (erase hash m k).1) ∧
    ((erase hash m k).2 = false →
      (erase hash m k).1 = m ∧
      size (erase hash m k).1 = size m ∧
      capacity (erase hash m k).1 = capacity m ∧
      (erase hash m k).1._hashTable = m._hashTable) := by
  by_cases hc : contains_key hash m k = true
  · obtain ⟨hflag, hwf1, hperm, hsz, -⟩ := erase_present hash hveq hwf k hc
    refine ⟨by simp [hflag, hc], fun _ => ⟨?_, hsz, ?_, hwf1⟩, fun hf => ?_⟩
    · rw [contains_key_eq_false_iff hash hwf1]
      intro w hw
      simpa using (List.mem_filter.mp (hperm.mem_iff.mp hw)).2
    · intro k1 hne
      apply lookup_congr hash hwf1 hwf k1
      intro w
      rw [hperm.mem_iff, List.mem_filter]
      simp [hne]
    · rw [hflag] at hf
      exact absurd hf (by simp)
  · have hc' : contains_key hash m k = false := by simpa using hc
    rw [erase_absent hash m k hc']
    exact ⟨by simp [hc'], fun hf => absurd hf (by simp), fun _ => ⟨rfl, rfl, rfl, rfl⟩⟩

/-- Claim C5. On a well-formed table both overloads of `at(k)` fail with
`KeyNotFound` iff `contains_key(k)` is false, and no other failure exists;
otherwise both give the value of the pair stored with `k`, the mutable overload
as an alias that reads that value.  So the early exit of `contains_key` on an
empty table or an empty bucket agrees with the bucket scan of `at`. -/
theorem at_fails_iff_not_contains (hash : K → Nat) (m : HashMap K V) (k : K)
    (hwf : WellFormed hash m) :
    (atKey hash m k = .error .KeyNotFound ↔ contains_key hash m k = false) ∧
    (atRef hash m k = .error .KeyNotFound ↔ contains_key hash m k = false) ∧
    (∀ e, atKey hash m k = .error e → e = .KeyNotFound) ∧
    (contains_key hash m k = true →
      ∃ v, (k, v) ∈ entries m ∧ atKey hash m k = .ok v ∧
        ∃ r, atRef hash m k = .ok r ∧ readRef m r = some v) := by
  refine ⟨atKey_error_iff hash hwf k, (atRef_spec hash hwf k).1,
    fun e he => atKey_error_eq hash m k e he, ?_⟩
  intro hc
  obtain ⟨v, hv⟩ := (contains_key_iff hash hwf k).mp hc
  have hat := (atKey_eq_ok_iff hash hwf k v).mpr hv
  exact ⟨v, hv, hat, (atRef_spec hash hwf k).2 v hat⟩

/-- The erase test's table is the range constructor's result for the keys
`1..13` and the values `13..1`. -/
theorem eraseTestTable_reachable : Reachable intHash eraseTestTable :=
  Reachable.range [1, 2, 3, 4, 5, 6, 7, 8, 9, 10, 11, 12, 13]
    [13, 12, 11, 10, 9, 8, 7, 6, 5, 4, 3, 2, 1] eraseTestTable (by decide!)

/-- Witness of C2: the thirteenth insertion of the insert test, which rehashes
from capacity 16 to capacity 32. -/
theorem insert_absent_key_witness :
    WellFormed intHash insertTestTable ∧
    contains_key intHash insertTestTable 13 = false ∧
    capacity (insert intHash insertTestTable 13 1).1 = 32 ∧
    (insert intHash insertTestTable 13 1).2 = true ∧
    atKey intHash (insert intHash insertTestTable 13 1).1 13 = .ok 1 ∧
    size (insert intHash insertTestTable 13 1).1 = size insertTestTable + 1 :=
  ⟨by decide!, by decide!, by decide!,
    (insert_absent_key intHash insertTestTable 13 1 (by decide!) (by decide!)).1,
    (insert_absent_key intHash insertTestTable 13 1 (by decide!) (by decide!)).2.1,
    (insert_absent_key intHash insertTestTable 13 1 (by decide!) (by decide!)).2.2.1⟩

/-- Witness of C3: the duplicate insertion of key 13 in the insert test. -/
theorem insert_duplicate_key_witness :
    WellFormed intHash eraseTestTable ∧
    atKey intHash eraseTestTable 13 = .ok 1 ∧
    (insert intHash eraseTestTable 13 7).2 = false ∧
    (insert intHash eraseTestTable 13 7).1 = eraseTestTable :=
  ⟨by decide!, by decide!,
    (insert_duplicate_key intHash eraseTestTable 13 1 7 (by decide!) (by decide!)).1,
    (insert_duplicate_key intHash eraseTestTable 13 1 7 (by decide!) (by decide!)).2.1⟩

/-- Witness of C5: `at(-1)` of the at test fails, `at(1)` yields the stored 13. -/
theorem at_fails_iff_not_contains_witness :
    WellFormed intHash eraseTestTable ∧
    contains_key intHash eraseTestTable (-1) = false ∧
    atKey intHash eraseTestTable (-1) = .error .KeyNotFound ∧
    atRef intHash eraseTestTable (-1) = .error .KeyNotFound ∧
    atKey intHash eraseTestTable 1 = .ok 13 :=
  ⟨by decide!, by decide!,
    (at_fails_iff_not_contains intHash eraseTestTable (-1) (by decide!)).1.mpr (by decide!),
    (at_fails_iff_not_contains intHash eraseTestTable (-1) (by decide!)).2.1.mpr (by decide!),
    by decide!⟩

/-- Claim C6. Growth rule.  On a well-formed table with size `s` and capacity
`c`, `insert` of an absent key leaves capacity `2 * c` if `(s + 1) / c > 0.75`,
which is `4 * (s + 1) > 3 * c`, and `c` otherwise: at most one doubling.  A failed
insert leaves the capacity as it is. -/
theorem insert_growth_rule (hash : K → Nat) (m : HashMap K V) (k : K) (v : V)
    (hwf : WellFormed hash m) :
    (contains_key hash m k = false →
      capacity (insert hash m k v).1 =
        if ((size m + 1 : ℕ) : ℚ) / (capacity m : ℚ) > HIGH_LOAD_FACTOR then 2 * capacity m
        else capacity m) ∧
    (((size m + 1 : ℕ) : ℚ) / (capacity m : ℚ) > HIGH_LOAD_FACTOR ↔
      4 * (size m + 1) > 3 * capacity m) ∧
    (contains_key hash m k = true → capacity (insert hash m k v).1 = capacity m) := by
  have hiff : ((size m + 1 : ℕ) : ℚ) / (capacity m : ℚ) > HIGH_LOAD_FACTOR ↔
      4 * (size m + 1) > 3 * capacity m := by
    have := upperLoadFactor_iff ({ m with _size := m._size + 1 } : HashMap K V) hwf.1
    simpa only [_upperLoadFactor, load_factor, size, capacity, decide_eq_true_eq] using this
  refine ⟨fun habs => ?_, hiff, fun hpres => ?_⟩
  · have hcap := (insert_absent hash hwf k v habs).2.2.2.2
    simp only [capacity, size] at hiff ⊢
    rw [hcap]
    by_cases hg : 3 * m._capacity < 4 * (m._size + 1)
    · rw [if_pos hg, if_pos (hiff.mpr hg), Nat.mul_comm]
    · rw [if_neg hg, if_neg (fun h => hg (hiff.mp h))]
  · rw [insert_present hash m k v hpres]

/-- Witness of C6: the twelfth key leaves the insert test's table at capacity
16, the thirteenth doubles it. -/
theorem insert_growth_rule_witness :
    WellFormed intHash insertTestTable ∧
    capacity (insert intHash insertTestTable 13 1).1 = 2 * capacity insertTestTable ∧
    capacity (insert intHash insertTestTable 12 1).1 = capacity insertTestTable :=
  ⟨by decide!,
    ((insert_growth_rule intHash insertTestTable 13 1 (by decide!)).1 (by decide!)).trans
      (by decide!),
    (insert_growth_rule intHash insertTestTable 12 1 (by decide!)).2.2 (by decide!)⟩

/-- Claim C7. Shrink rule.  On a well-formed table with size `s` and capacity
`c`, `erase` of a present key leaves capacity `c / 2` if `(s - 1) / c < 0.25` and
`c > MINIMAL_CAPACITY`, and `c` otherwise: at most one halving. -/
theorem erase_shrink_rule [ValueEq V] (hash : K → Nat) (m : HashMap K V) (k : K)
    (hwf : WellFormed hash m) (hpres : contains_key hash m k = true) :
    capacity (erase hash m k).1 =
      (if ((size m - 1 : ℕ) : ℚ) / (capacity m : ℚ) < LOW_LOAD_FACTOR ∧
          capacity m > MINIMAL_CAPACITY then capacity m / 2
       else capacity m) ∧
    (((size m - 1 : ℕ) : ℚ) / (capacity m : ℚ) < LOW_LOAD_FACTOR ↔
      4 * (size m - 1) < capacity m) ∧
    size (erase hash m k).1 = size m - 1 := by
  have hiff : ((size m - 1 : ℕ) : ℚ) / (capacity m : ℚ) < LOW_LOAD_FACTOR ↔
      4 * (size m - 1) < capacity m := by
    have := lowerLoadFactor_iff ({ m with _size := m._size - 1 } : HashMap K V) hwf.1
    simpa only [_lowerLoadFactor, load_factor, size, capacity, decide_eq_true_eq] using this
  obtain ⟨-, hsz, hcap⟩ := erase_counters hash m k hwf.1 hpres
  refine ⟨?_, hiff, ?_⟩
  · simp only [capacity, size, MINIMAL_CAPACITY] at hiff ⊢
    rw [hcap]
    by_cases hs : 4 * (m._size - 1) < m._capacity ∧ 1 < m._capacity
    · rw [if_pos hs, if_pos ⟨hiff.mpr hs.1, hs.2⟩]
    · rw [if_neg hs, if_neg (fun h => hs ⟨hiff.mp h.1, h.2⟩)]
  · simp only [size]
    omega

/-- Witness of C7: in the erase test the table with 13 entries and capacity 32
keeps capacity 32 while the keys `1..5` are erased, and erasing key 6 gives
capacity 16 with size 7. -/
theorem erase_shrink_rule_witness :
    [1, 2, 3, 4, 5].map (fun n => capacity (eraseAll intHash eraseTestTable
      ((List.range n).map (fun i => (i : Int) + 1)))) = [32, 32, 32, 32, 32] ∧
    eraseAll intHash eraseTestTable [1, 2, 3, 4, 5] = eraseTestTable8 ∧
    WellFormed intHash eraseTestTable8 ∧
    contains_key intHash eraseTestTable8 6 = true ∧
    capacity (erase intHash eraseTestTable8 6).1 = 16 ∧
    size (erase intHash eraseTestTable8 6).1 = 7 :=
  ⟨by decide!, by decide!, by decide!, by decide!,
    (erase_shrink_rule intHash eraseTestTable8 6 (by decide!) (by decide!)).1.trans (by decide!),
    (erase_shrink_rule intHash eraseTestTable8 6 (by decide!) (by decide!)).2.2.trans
      (by decide!)⟩

/-- Claim C8. Upper load-factor invariant: every reachable table has
`size / capacity ≤ 0.75` (each operation is a constructor of `Reachable`, so the
bound holds after each of them completes). -/
theorem load_factor_le_high [Inhabited V] [ValueEq V] (hash : K → Nat) (m : HashMap K V)
    (hr : Reachable hash m) :
    load_factor m ≤ HIGH_LOAD_FACTOR ∧ (size m : ℚ) / (capacity m : ℚ) ≤ 3 / 4 := by
  have hl := Reachable.layout hash hr
  have := (load_factor_le_high_iff m hl.1).mpr hl.2.2.2.1
  exact ⟨this, this⟩

/-- Witness of C8: the table of the erase test has load factor `13 / 32`. -/
theorem load_factor_le_high_witness :
    Reachable intHash eraseTestTable ∧ load_factor eraseTestTable ≤ HIGH_LOAD_FACTOR :=
  ⟨eraseTestTable_reachable, (load_factor_le_high intHash eraseTestTable
    eraseTestTable_reachable).1⟩

/-- Counterexample to C9 as stated: on the default table `insert(1, 1)` followed
by `erase(1)` succeeds and halves the capacity once, to 8, with size 0: the
capacity exceeds `MINIMAL_CAPACITY` and `size / capacity = 0 < 0.25`. -/
theorem erase_lower_bound_counterexample :
    Reachable intHash (insert intHash (mkDefault : HashMap Int Int) 1 1).1 ∧
    (erase intHash (insert intHash (mkDefault : HashMap Int Int) 1 1).1 1).2 = true ∧
    capacity (erase intHash (insert intHash (mkDefault : HashMap Int Int) 1 1).1 1).1 = 8 ∧
    MINIMAL_CAPACITY <
      capacity (erase intHash (insert intHash (mkDefault : HashMap Int Int) 1 1).1 1).1 ∧
    size (erase intHash (insert intHash (mkDefault : HashMap Int Int) 1 1).1 1).1 = 0 ∧
    ¬ (LOW_LOAD_FACTOR ≤
      load_factor (erase intHash (insert intHash (mkDefault : HashMap Int Int) 1 1).1 1).1) :=
  ⟨Reachable.insert _ 1 1 Reachable.default, by decide!, by decide!, by decide!, by decide!,
    by decide!⟩

/-- Claim C9, amended.  For a reachable table and a present key, `erase` halves
the capacity at most once: the capacity afterwards is the capacity before or
exactly half of it.  After the `erase`, `size / capacity ≥ 0.25` holds if the
erase left the capacity as it was and that capacity exceeds `MINIMAL_CAPACITY`;
and it holds if it held before the erase and the erase leaves at least one
entry. -/
theorem erase_lower_bound_amended [Inhabited V] [ValueEq V] (hash : K → Nat)
    (m : HashMap K V) (k : K)
    (hr : Reachable hash m) (hpres : contains_key hash m k = true) :
    (capacity (erase hash m k).1 = capacity m ∨
      (capacity (erase hash m k).1 = capacity m / 2 ∧
        2 * capacity (erase hash m k).1 = capacity m)) ∧
    (capacity (erase hash m k).1 = capacity m →
      MINIMAL_CAPACITY < capacity (erase hash m k).1 →
      LOW_LOAD_FACTOR ≤ load_factor (erase hash m k).1) ∧
    (LOW_LOAD_FACTOR ≤ load_factor m → 1 ≤ size (erase hash m k).1 →
      LOW_LOAD_FACTOR ≤ load_factor (erase hash m k).1) := by
  obtain ⟨hpos, -, -, -, j, hj⟩ := Reachable.layout hash hr
  have hpos1 := (Reachable.layout hash (Reachable.erase m k hr)).1
  obtain ⟨-, hsz, hcap⟩ := erase_counters hash m k hpos hpres
  refine ⟨?_, ?_, ?_⟩
  · simp only [capacity]
    rw [hcap]
    by_cases hs : 4 * (m._size - 1) < m._capacity ∧ 1 < m._capacity
    · rw [if_pos hs]
      refine Or.inr ⟨rfl, ?_⟩
      cases j with
      | zero => rw [hj] at hs; simp at hs
      | succ j =>
        rw [hj, pow_succ]
        simp [Nat.mul_comm]
    · rw [if_neg hs]
      exact Or.inl rfl
  · intro hsame hgt
    rw [load_factor_ge_low_iff _ hpos1]
    simp only [capacity, MINIMAL_CAPACITY] at hsame hgt
    rw [hcap] at hsame hgt ⊢
    by_cases hs : 4 * (m._size - 1) < m._capacity ∧ 1 < m._capacity
    · rw [if_pos hs] at hsame
      omega
    · rw [if_neg hs] at hgt ⊢
      omega
  · intro hbefore hleft
    rw [load_factor_ge_low_iff _ hpos] at hbefore
    rw [load_factor_ge_low_iff _ hpos1]
    simp only [size] at hleft
    rw [hcap]
    by_cases hs : 4 * (m._size - 1) < m._capacity ∧ 1 < m._capacity
    · rw [if_pos hs]
      omega
    · rw [if_neg hs]
      omega

/-- Witness of C9, amended: erasing key 1 from the erase test's table leaves 12
entries at capacity 32. -/
theorem erase_lower_bound_amended_witness :
    Reachable intHash eraseTestTable ∧
    contains_key intHash eraseTestTable 1 = true ∧
    LOW_LOAD_FACTOR ≤ load_factor eraseTestTable ∧
    1 ≤ size (erase intHash eraseTestTable 1).1 ∧
    capacity (erase intHash eraseTestTable 1).1 = 32 ∧
    (capacity (erase intHash eraseTestTable 1).1 = capacity eraseTestTable ∨
      (capacity (erase intHash eraseTestTable 1).1 = capacity eraseTestTable / 2 ∧
        2 * capacity (erase intHash eraseTestTable 1).1 = capacity eraseTestTable)) ∧
    LOW_LOAD_FACTOR ≤ load_factor (erase intHash eraseTestTable 1).1 :=
  ⟨eraseTestTable_reachable, by decide!, by decide!, by decide!, by decide!,
    (erase_lower_bound_amended intHash eraseTestTable 1 eraseTestTable_reachable
      (by decide!)).1,
    (erase_lower_bound_amended intHash eraseTestTable 1 eraseTestTable_reachable
      (by decide!)).2.2 (by decide!) (by decide!)⟩

/-- Claim C10. Capacity invariant: every reachable table, built from the default
or the range constructor, has a capacity that is a power of two and at least 1,
so never 0, and a table of capacity 1 has size 0. -/
theorem capacity_power_of_two [Inhabited V] [ValueEq V] (hash : K → Nat) (m : HashMap K V)
    (hr : Reachable hash m) :
    (∃ j, capacity m = 2 ^ j) ∧ 1 ≤ capacity m ∧ capacity m ≠ 0 ∧
    (capacity m = 1 → size m = 0) := by
  obtain ⟨hpos, -, -, hload, hpow⟩ := Reachable.layout hash hr
  refine ⟨hpow, hpos, Nat.pos_iff_ne_zero.mp hpos, ?_⟩
  intro h1
  have h2 : m._capacity = 1 := h1
  have h3 : m._size = 0 := by
    clear hpow h1
    omega
  exact h3

/-- Witness of C10: the erase test's table has capacity `32 = 2 ^ 5`. -/
theorem capacity_power_of_two_witness :
    Reachable intHash eraseTestTable ∧ (∃ j, capacity eraseTestTable = 2 ^ j) ∧
    1 ≤ capacity eraseTestTable :=
  ⟨eraseTestTable_reachable,
    (capacity_power_of_two intHash eraseTestTable eraseTestTable_reachable).1,
    (capacity_power_of_two intHash eraseTestTable eraseTestTable_reachable).2.1⟩

end Contract

/-! ## `clear`, read-only `operator[]` -/

section ClearLemmas

variable {K V : Type} [DecidableEq K] [DecidableEq V] (hash : K → Nat)

theorem length_foldl_set_nil {α : Type} (n : Nat) (t : List (List α)) :
    ((List.range n).foldl (fun t i => t.set i []) t).length = t.length := by
  induction n with
  | zero => rfl
  | succ n ih => rw [List.range_succ, List.foldl_append]; simpa using ih

/-- After the loop of `clear` over `0 .. n-1` the buckets below `n` are empty and
the others are as before. -/
theorem getD_foldl_set_nil {α : Type} (n : Nat) (t : List (List α)) (i : Nat) :
    ((List.range n).foldl (fun t i => t.set i []) t).getD i [] =
      if i < n then [] else t.getD i [] := by
  induction n with
  | zero => simp
  | succ n ih =>
    rw [List.range_succ, List.foldl_append]
    simp only [List.foldl_cons, List.foldl_nil]
    rw [getD_set_table, ih, length_foldl_set_nil]
    by_cases h1 : n = i
    · subst h1
      by_cases h2 : n < t.length
      · simp [h2]
      · simp [h2, List.getElem?_eq_none (Nat.le_of_not_lt h2)]
    · by_cases h3 : i < n
      · have h4 : i < n + 1 := by omega
        simp [h1, h3, h4]
      · have h4 : ¬ i < n + 1 := by omega
        simp [h1, h3, h4]

theorem contains_key_of_size_zero (m : HashMap K V) (hz : m._size = 0) (key : K) :
    contains_key hash m key = false := by
  simp [contains_key, empty, hz]

/-- When `contains_key` holds, read-only `operator[]` and `at` scan the same
bucket and return the same value. -/
theorem subscriptConst_of_contains [Inhabited V] (m : HashMap K V) (key : K)
    (hc : contains_key hash m key = true) :
    subscriptConst hash m key = atKey hash m key ∧ ∃ v, atKey hash m key = .ok v := by
  have hc1 := hc
  unfold contains_key at hc1
  simp only [] at hc1
  split at hc1
  · exact absurd hc1 (by simp)
  · rename_i hcond
    obtain ⟨x, hx, hk⟩ := List.any_eq_true.mp hc1
    have hfind : ∃ t, (m._hashTable.getD (_hash hash m key) []).find?
        (fun tuple => decide (tuple.1 = key)) = some t := by
      cases hf : (m._hashTable.getD (_hash hash m key) []).find?
        (fun tuple => decide (tuple.1 = key)) with
      | some t => exact ⟨t, rfl⟩
      | none => exact absurd hk (List.find?_eq_none.mp hf x hx)
    obtain ⟨t, ht⟩ := hfind
    have hat : atKey hash m key = .ok t.2 := by simp only [atKey, ht]
    refine ⟨?_, t.2, hat⟩
    unfold subscriptConst
    simp only []
    rw [if_neg, ht, hat]
    simp only [hc, Bool.not_true, Bool.or_false]
    exact hcond

theorem subscriptConst_of_absent [Inhabited V] (m : HashMap K V) (key : K)
    (hc : contains_key hash m key = false) : subscriptConst hash m key = .ok default := by
  unfold subscriptConst
  simp [hc]

end ClearLemmas

/-! ## The range constructor -/

section RangeLemmas

variable {K V : Type} [DecidableEq K] [DecidableEq V] (hash : K → Nat)

theorem isLastOccurrence_zero (k0 : K) (ks : List K) (k : K) :
    IsLastOccurrence (k0 :: ks) 0 k ↔ k0 = k ∧ k ∉ ks := by
  unfold IsLastOccurrence
  constructor
  · rintro ⟨h0, hlater⟩
    refine ⟨by simpa using h0, ?_⟩
    intro hmem
    obtain ⟨n, hn⟩ := List.mem_iff_getElem?.mp hmem
    exact hlater (n + 1) (Nat.succ_pos n) (by simpa using hn)
  · rintro ⟨rfl, hnot⟩
    refine ⟨by simp, ?_⟩
    intro j hj hget
    cases j with
    | zero => exact absurd hj (Nat.lt_irrefl 0)
    | succ j =>
      exact hnot (List.mem_iff_getElem?.mpr ⟨j, by simpa using hget⟩)

theorem isLastOccurrence_succ (k0 : K) (ks : List K) (i : Nat) (k : K) :
    IsLastOccurrence (k0 :: ks) (i + 1) k ↔ IsLastOccurrence ks i k := by
  unfold IsLastOccurrence
  constructor
  · rintro ⟨h0, hlater⟩
    refine ⟨by simpa using h0, ?_⟩
    intro j hj hget
    exact hlater (j + 1) (Nat.succ_lt_succ hj) (by simpa using hget)
  · rintro ⟨h0, hlater⟩
    refine ⟨by simpa using h0, ?_⟩
    intro j hj hget
    cases j with
    | zero => exact absurd hj (Nat.not_lt_zero _)
    | succ j => exact hlater j (Nat.lt_of_succ_lt_succ hj) (by simpa using hget)

/-- One round of the constructor's loop: `insert`, and `at(key) = val` when the
key is already there. Afterwards `key` maps to `val` and nothing else changed. -/
theorem insertAll_cons {m : HashMap K V} (hwf : WellFormed hash m) (k : K) (v : V) :
    ∃ m1, WellFormed hash m1 ∧
      (∀ ks vs, insertAll hash m (k :: ks) (v :: vs) = insertAll hash m1 ks vs) ∧
      (∀ k1 v1, (k1, v1) ∈ entries m1 ↔ if k1 = k then v1 = v else (k1, v1) ∈ entries m) := by
  by_cases hc : contains_key hash m k = true
  · obtain ⟨v0, hv0⟩ := (contains_key_iff hash hwf k).mp hc
    have hb := (hwf.mem_bucket_iff hash (k, v0)).mpr hv0
    obtain ⟨pos, hpos⟩ := (locate_isSome_iff k _).mpr ⟨v0, hb⟩
    have hpos1 : locate k (m._hashTable.getD (_hash hash m k) []) = some pos := hpos
    obtain ⟨hwf1, hent⟩ := writeRef_spec hash hwf k v (_hash hash m k) pos hpos1
    refine ⟨writeRef m ⟨_hash hash m k, pos⟩ v, hwf1, ?_, ?_⟩
    · intro ks vs
      have hat : atAssign hash m k v = .ok (writeRef m ⟨_hash hash m k, pos⟩ v) := by
        simp only [atAssign, atRef, hpos1]
      simp only [insertAll, insert_present hash m k v hc, hat]
    · intro k1 v1
      rw [hent]
      exact mem_map_setValue k v (entries m) ⟨v0, hv0⟩ k1 v1
  · have hc1 : contains_key hash m k = false := by simpa using hc
    obtain ⟨hflag, hwf1, hperm, -, -⟩ := insert_absent hash hwf k v hc1
    refine ⟨(insert hash m k v).1, hwf1, ?_, ?_⟩
    · intro ks vs
      have hpair : insert hash m k v = ((insert hash m k v).1, true) := by
        rw [← hflag]
      simp only [insertAll]
      rw [hpair]
    · intro k1 v1
      rw [hperm.mem_iff, List.mem_cons]
      have hnot := (contains_key_eq_false_iff hash hwf k).mp hc1
      by_cases hk : k1 = k
      · subst hk
        simp only [if_true]
        constructor
        · rintro (h | h)
          · exact (Prod.mk.inj h).2
          · exact absurd h (hnot v1)
        · rintro rfl
          exact Or.inl rfl
      · simp only [hk, if_false]
        constructor
        · rintro (h | h)
          · exact absurd (Prod.mk.inj h).1 hk
          · exact h
        · exact Or.inr

/-- The loop of the range constructor completes, and each key of the sequence is
left with the value at its last occurrence. -/
theorem insertAll_spec :
    ∀ (ks : List K) (vs : List V) (m : HashMap K V), WellFormed hash m →
      ks.length = vs.length →
      ∃ m1, insertAll hash m ks vs = .ok m1 ∧ WellFormed hash m1 ∧
        ∀ k v, (k, v) ∈ entries m1 ↔
          ((∃ i, IsLastOccurrence ks i k ∧ vs[i]? = some v) ∨
            (k ∉ ks ∧ (k, v) ∈ entries m)) := by
  intro ks
  induction ks with
  | nil =>
    intro vs m hwf _
    refine ⟨m, by simp [insertAll], hwf, ?_⟩
    intro k v
    simp [IsLastOccurrence]
  | cons k0 ks ih =>
    intro vs m hwf hlen
    cases vs with
    | nil => simp at hlen
    | cons v0 vs =>
      obtain ⟨m1, hwf1, hstep, hent1⟩ := insertAll_cons hash hwf k0 v0
      obtain ⟨m2, hrun, hwf2, hent2⟩ := ih vs m1 hwf1 (by simpa using hlen)
      refine ⟨m2, by rw [hstep, hrun], hwf2, ?_⟩
      intro k v
      rw [hent2, hent1]
      constructor
      · rintro (⟨i, hlast, hval⟩ | ⟨hnot, hin⟩)
        · exact Or.inl ⟨i + 1, (isLastOccurrence_succ k0 ks i k).mpr hlast, by simpa using hval⟩
        · by_cases hk : k = k0
          · rw [if_pos hk] at hin
            refine Or.inl ⟨0, (isLastOccurrence_zero k0 ks k).mpr ⟨hk.symm, hnot⟩, ?_⟩
            simp [hin]
          · rw [if_neg hk] at hin
            refine Or.inr ⟨?_, hin⟩
            simp only [List.mem_cons, not_or]
            exact ⟨hk, hnot⟩
      · rintro (⟨i, hlast, hval⟩ | ⟨hnot, hin⟩)
        · cases i with
          | zero =>
            obtain ⟨hk, hnot⟩ := (isLastOccurrence_zero k0 ks k).mp hlast
            refine Or.inr ⟨hnot, ?_⟩
            rw [if_pos hk.symm]
            simpa using hval.symm
          | succ i =>
            exact Or.inl ⟨i, (isLastOccurrence_succ k0 ks i k).mp hlast, by simpa using hval⟩
        · simp only [List.mem_cons, not_or] at hnot
          refine Or.inr ⟨hnot.2, ?_⟩
          rw [if_neg hnot.1]
          exact hin

theorem isLastOccurrence_mem {ks : List K} {i : Nat} {k : K} (h : IsLastOccurrence ks i k) :
    k ∈ ks :=
  List.mem_iff_getElem?.mpr ⟨i, h.1⟩

end RangeLemmas

/-! ## `operator==` -/

section EqualityLemmas

variable {K V : Type} [DecidableEq K] [DecidableEq V] [Inhabited V] (hash : K → Nat)

theorem equalsBucket_spec (other : HashMap K V) (b : bucket K V) :
    ∃ res, equalsBucket hash other b = .ok res ∧
      (res = true ↔ ∀ t ∈ b, contains_key hash other t.1 = true ∧
        atKey hash other t.1 = .ok t.2) := by
  induction b with
  | nil => exact ⟨true, rfl, by simp⟩
  | cons t rest ih =>
    by_cases hc : contains_key hash other t.1 = true
    · obtain ⟨hsub, v1, hat⟩ := subscriptConst_of_contains hash other t.1 hc
      rw [hat] at hsub
      by_cases hv : v1 = t.2
      · obtain ⟨res, hres, hiff⟩ := ih
        refine ⟨res, ?_, ?_⟩
        · simp only [equalsBucket, hc, hsub, hv, hres]
          simp
        · rw [hiff]
          simp only [List.mem_cons, forall_eq_or_imp, hc, hat, hv, true_and]
      · refine ⟨false, ?_, ?_⟩
        · simp only [equalsBucket, hc, hsub]
          simp [hv]
        · simp only [Bool.false_eq_true, false_iff]
          intro hall
          have := (hall t (List.mem_cons_self _ _)).2
          rw [hat] at this
          injection this with this
          exact hv this
    · refine ⟨false, ?_, ?_⟩
      · simp only [equalsBucket]
        simp [hc]
      · simp only [Bool.false_eq_true, false_iff]
        intro hall
        exact hc (hall t (List.mem_cons_self _ _)).1

theorem equalsLoop_spec (self other : HashMap K V) (is : List Nat) :
    ∃ res, equalsLoop hash self other is = .ok res ∧
      (res = true ↔ ∀ i ∈ is, ∀ t ∈ self._hashTable.getD i [],
        contains_key hash other t.1 = true ∧ atKey hash other t.1 = .ok t.2) := by
  induction is with
  | nil => exact ⟨true, rfl, by simp⟩
  | cons i is ih =>
    obtain ⟨r1, hr1, hiff1⟩ := equalsBucket_spec hash other (self._hashTable.getD i [])
    cases r1 with
    | true =>
      obtain ⟨res, hres, hiff⟩ := ih
      refine ⟨res, by simp only [equalsLoop, hr1, hres], ?_⟩
      rw [hiff]
      simp only [List.mem_cons, forall_eq_or_imp]
      constructor
      · intro h
        exact ⟨hiff1.mp rfl, h⟩
      · intro h
        exact h.2
    | false =>
      refine ⟨false, by simp only [equalsLoop, hr1], ?_⟩
      simp only [Bool.false_eq_true, false_iff]
      intro hall
      have := hiff1.mpr (hall i (List.mem_cons_self _ _))
      exact absurd this (by simp)

/-- `operator==` always returns, and returns `true` exactly when capacities and
sizes agree and `other` contains every pair of `this`. -/
theorem equals_spec (self other : HashMap K V)
    (hlen : self._hashTable.length = self._capacity) :
    ∃ res, equals hash self other = .ok res ∧
      (res = true ↔ capacity self = capacity other ∧ size self = size other ∧
        ∀ t ∈ entries self, contains_key hash other t.1 = true ∧
          atKey hash other t.1 = .ok t.2) := by
  by_cases hcs : capacity self = capacity other ∧ size self = size other
  · obtain ⟨res, hres, hiff⟩ := equalsLoop_spec hash self other (List.range (capacity self))
    refine ⟨res, ?_, ?_⟩
    · simp only [equals, hcs.1, hcs.2, ne_eq, not_true_eq_false, decide_False, Bool.or_self,
        Bool.false_eq_true, if_false]
      rw [← hcs.1]
      exact hres
    · rw [hiff]
      constructor
      · intro h
        refine ⟨hcs.1, hcs.2, ?_⟩
        intro t ht
        obtain ⟨i, hi, hti⟩ := (mem_flatten_iff_getD _ _).mp ht
        exact h i (List.mem_range.mpr (by rw [capacity, ← hlen]; exact hi)) t hti
      · rintro ⟨-, -, h⟩ i hi t ht
        have hi' : i < self._hashTable.length := by
          rw [hlen]
          exact List.mem_range.mp hi
        exact h t ((mem_flatten_iff_getD _ _).mpr ⟨i, hi', ht⟩)
  · refine ⟨false, ?_, ?_⟩
    · unfold equals
      rw [if_pos]
      simp only [ne_eq, Bool.or_eq_true, decide_eq_true_eq]
      by_cases h1 : capacity self = capacity other
      · exact Or.inr (fun h2 => hcs ⟨h1, h2⟩)
      · exact Or.inl h1
    · simp only [Bool.false_eq_true, false_iff]
      rintro ⟨h1, h2, -⟩
      exact hcs ⟨h1, h2⟩

theorem notEquals_of_equals (self other : HashMap K V) (res : Bool)
    (h : equals hash self other = .ok res) : notEquals hash self other = .ok (!res) := by
  simp only [notEquals, h]

end EqualityLemmas

/-! ## Growth without erase, aliases of `operator[]` -/

section GrowthLemmas

variable {K V : Type} [DecidableEq K] [DecidableEq V] (hash : K → Nat)

/-- An alias to the first pair with `key` of some bucket reads the value that
`at(key)` returns. -/
theorem located_reads_stored {m : HashMap K V} (hwf : WellFormed hash m) (key : K)
    (i pos : Nat) (hloc : locate key (m._hashTable.getD i []) = some pos) :
    ∃ val, readRef m ⟨i, pos⟩ = some val ∧ atKey hash m key = .ok val := by
  obtain ⟨w, hget, -⟩ := locate_eq_some key _ pos hloc
  have hmem : (key, w) ∈ m._hashTable.getD i [] := List.mem_iff_getElem?.mpr ⟨pos, hget⟩
  have hi : i < m._hashTable.length := by
    by_contra hcon
    rw [List.getD_eq_default _ _ (Nat.le_of_not_lt hcon)] at hmem
    exact absurd hmem (List.not_mem_nil _)
  have hent : (key, w) ∈ entries m := (mem_flatten_iff_getD _ _).mpr ⟨i, hi, hmem⟩
  refine ⟨w, ?_, (atKey_eq_ok_iff hash hwf key w).mpr hent⟩
  simp only [readRef, hget, Option.map_some']

/-- An adding operation on an absent key: the size grows by one, the capacity
follows the growth rule, and no key other than the named one becomes contained. -/
theorem step_adds [Inhabited V] [ValueEq V] {m : HashMap K V} (hwf : WellFormed hash m) (op : Op K V)
    (hadds : Op.adds op = true) (k : K) (hk : Op.key? op = some k)
    (habs : contains_key hash m k = false) :
    ∃ m1 flag, step hash m op = .ok (m1, flag) ∧ WellFormed hash m1 ∧
      m1._size = m._size + 1 ∧
      m1._capacity =
        (if 3 * m._capacity < 4 * (m._size + 1) then m._capacity * 2 else m._capacity) ∧
      ∀ k1, contains_key hash m1 k1 = true → k1 = k ∨ contains_key hash m k1 = true := by
  cases op with
  | insert key val =>
    simp only [Op.key?, Option.some.injEq] at hk
    subst hk
    obtain ⟨-, hwf1, hperm, hsz, hcap⟩ := insert_absent hash hwf key val habs
    refine ⟨_, _, rfl, hwf1, hsz, hcap, ?_⟩
    intro k1 hc1
    obtain ⟨v1, hv1⟩ := (contains_key_iff hash hwf1 k1).mp hc1
    rcases List.mem_cons.mp (hperm.mem_iff.mp hv1) with h | h
    · exact Or.inl (Prod.mk.inj h).1
    · exact Or.inr ((contains_key_iff hash hwf k1).mpr ⟨v1, h⟩)
  | subscriptAssign key val =>
    simp only [Op.key?, Option.some.injEq] at hk
    subst hk
    obtain ⟨r, hok, hloc⟩ := subscriptAssign_spec hash hwf key val
    have hsub := (subscript_spec hash hwf key).1
    rw [habs] at hsub
    simp only [Bool.false_eq_true, if_false] at hsub
    obtain ⟨-, hwf1, hperm, hsz, hcap⟩ := insert_absent hash hwf key default habs
    rw [hsub] at hok hloc
    obtain ⟨hwf2, hent⟩ := writeRef_spec hash hwf1 key val r.bucketIdx r.pos hloc
    refine ⟨writeRef (insert hash m key default).1 r val, none, by simp only [step, hok],
      hwf2, hsz, hcap, ?_⟩
    intro k1 hc1
    obtain ⟨v1, hv1⟩ := (contains_key_iff hash hwf2 k1).mp hc1
    rw [hent] at hv1
    obtain ⟨t, ht, hft⟩ := List.mem_map.mp hv1
    have ht1 : t.1 = k1 := by
      have := setValue_fst key val t
      rw [hft] at this
      exact this.symm
    rcases List.mem_cons.mp (hperm.mem_iff.mp ht) with h | h
    · left
      rw [← ht1, h]
    · right
      refine (contains_key_iff hash hwf k1).mpr ⟨t.2, ?_⟩
      rw [← ht1]
      exact h
  | erase key => simp [Op.adds] at hadds
  | clear => simp [Op.adds] at hadds

/-- A run of adding operations on pairwise distinct absent keys. -/
theorem run_adds [Inhabited V] [ValueEq V] (ops : List (Op K V)) :
    ∀ m : HashMap K V, WellFormed hash m → 4 * m._size ≤ 3 * m._capacity →
      (∀ op ∈ ops, Op.adds op = true) → (ops.map Op.key?).Nodup →
      (∀ op ∈ ops, ∀ k, Op.key? op = some k → contains_key hash m k = false) →
      ∃ m1, run hash m ops = .ok m1 ∧ m1._size = m._size + ops.length ∧
        4 * m1._size ≤ 3 * m1._capacity ∧
        ∃ j, m1._capacity = m._capacity * 2 ^ j ∧
          ∀ i, i < j → 3 * (m._capacity * 2 ^ i) < 4 * m1._size := by
  induction ops with
  | nil =>
    intro m _ hload _ _ _
    exact ⟨m, rfl, rfl, hload, 0, by simp, fun i hi => absurd hi (Nat.not_lt_zero i)⟩
  | cons op ops ih =>
    intro m hwf hload hadds hnd habs
    have hop := hadds op (List.mem_cons_self _ _)
    obtain ⟨k, hk⟩ : ∃ k, Op.key? op = some k := by
      cases op with
      | insert key val => exact ⟨key, rfl⟩
      | subscriptAssign key val => exact ⟨key, rfl⟩
      | erase key => simp [Op.adds] at hop
      | clear => simp [Op.adds] at hop
    simp only [List.map_cons, List.nodup_cons] at hnd
    obtain ⟨m1, flag, hstep, hwf1, hsz1, hcap1, hcont1⟩ :=
      step_adds hash hwf op hop k hk (habs op (List.mem_cons_self _ _) k hk)
    have hpos := hwf.1
    have hload1 : 4 * m1._size ≤ 3 * m1._capacity := by
      rw [hsz1, hcap1]
      split <;> omega
    have habs1 : ∀ op1 ∈ ops, ∀ k1, Op.key? op1 = some k1 →
        contains_key hash m1 k1 = false := by
      intro op1 hop1 k1 hk1
      cases hc : contains_key hash m1 k1 with
      | false => rfl
      | true =>
        rcases hcont1 k1 hc with h | h
        · exfalso
          apply hnd.1
          rw [hk, ← h, ← hk1]
          exact List.mem_map_of_mem _ hop1
        · rw [habs op1 (List.mem_cons_of_mem _ hop1) k1 hk1] at h
          exact absurd h (by simp)
    obtain ⟨m2, hrun, hsz2, hload2, j, hcap2, hmin⟩ :=
      ih m1 hwf1 hload1 (fun o ho => hadds o (List.mem_cons_of_mem _ ho)) hnd.2 habs1
    refine ⟨m2, by simp only [run, hstep, hrun], ?_, hload2, ?_⟩
    · rw [hsz2, hsz1, List.length_cons]
      omega
    · by_cases hg : 3 * m._capacity < 4 * (m._size + 1)
      · rw [if_pos hg] at hcap1
        refine ⟨j + 1, ?_, ?_⟩
        · rw [hcap2, hcap1, pow_succ]
          ring
        · intro i hi
          cases i with
          | zero =>
            rw [hsz2, hsz1]
            simp only [pow_zero, Nat.mul_one]
            omega
          | succ i =>
            have := hmin i (Nat.lt_of_succ_lt_succ hi)
            rw [hcap1] at this
            have e : m._capacity * 2 ^ (i + 1) = m._capacity * 2 * 2 ^ i := by
              rw [pow_succ]
              ring
            rw [e]
            exact this
      · rw [if_neg hg] at hcap1
        refine ⟨j, by rw [hcap2, hcap1], ?_⟩
        intro i hi
        have := hmin i hi
        rw [hcap1] at this
        exact this

end GrowthLemmas

/-! ## The contract: construction, growth, `clear`, `operator[]` -/

section ContractConstruction

variable {K V : Type} [DecidableEq K] [DecidableEq V]

/-- Claim C11. Closed form for growth.  Adding `n` pairwise distinct keys, by
`insert` or by `m[key] = val` and without erase, to an empty well-formed table of
capacity `c0` completes with size `n` and with the capacity `c0 * 2 ^ j` for the
least `j` with `4 * n ≤ 3 * c0 * 2 ^ j`, whatever the hash function and the
values are. -/
theorem growth_closed_form [Inhabited V] [ValueEq V] (hash : K → Nat) (m0 : HashMap K V)
    (ops : List (Op K V)) (hwf : WellFormed hash m0) (hempty : size m0 = 0)
    (hadds : ∀ op ∈ ops, Op.adds op = true) (hdist : (ops.map Op.key?).Nodup) :
    ∃ m, run hash m0 ops = .ok m ∧ size m = ops.length ∧
      ∃ j, capacity m = capacity m0 * 2 ^ j ∧
        4 * ops.length ≤ 3 * (capacity m0 * 2 ^ j) ∧
        ∀ i, i < j → ¬ 4 * ops.length ≤ 3 * (capacity m0 * 2 ^ i) := by
  have hz : m0._size = 0 := hempty
  obtain ⟨m, hrun, hsz, hload, j, hcap, hmin⟩ := run_adds hash ops m0 hwf (by omega) hadds hdist
    (fun _ _ k _ => contains_key_of_size_zero hash m0 hz k)
  have hn : m._size = ops.length := by omega
  refine ⟨m, hrun, hn, j, hcap, ?_, ?_⟩
  · simp only [capacity]
    rw [← hcap, ← hn]
    exact hload
  · intro i hi
    have := hmin i hi
    simp only [capacity]
    omega

/-- Witness of C11: 9 keys leave the default table at capacity 16, 13 inserted
and 15 subscript-assigned keys give 32, and 200 keys inserted after `clear()` of
the table of capacity 32 give 512. -/
theorem growth_closed_form_witness :
    WellFormed intHash (mkDefault : HashMap Int Int) ∧
    (run intHash mkDefault (insertOps (keysUpTo 9))).map capacity = .ok 16 ∧
    (run intHash mkDefault (insertOps (keysUpTo 13))).map capacity = .ok 32 ∧
    (run intHash mkDefault (assignOps (keysUpTo 15))).map capacity = .ok 32 ∧
    (run intHash (clear eraseTestTable) (insertOps (keysUpTo 200))).map capacity = .ok 512 ∧
    ∃ m : HashMap Int Int, run intHash mkDefault (insertOps (keysUpTo 13)) = .ok m ∧
      size m = (insertOps (keysUpTo 13)).length ∧
      ∃ j, capacity m = capacity (mkDefault : HashMap Int Int) * 2 ^ j ∧
        4 * (insertOps (keysUpTo 13)).length
          ≤ 3 * (capacity (mkDefault : HashMap Int Int) * 2 ^ j) ∧
        ∀ i, i < j → ¬ 4 * (insertOps (keysUpTo 13)).length
          ≤ 3 * (capacity (mkDefault : HashMap Int Int) * 2 ^ i) :=
  ⟨by decide, by decide!, by decide!, by decide!, by decide!,
    growth_closed_form intHash mkDefault (insertOps (keysUpTo 13)) (by decide) (by decide)
      (by decide) (by decide)⟩

/-- Claim C12. The default-constructed table has size 0, capacity 16, is empty,
has load factor 0, contains no key, and `at` fails with `KeyNotFound` for every
key. -/
theorem default_table (hash : K → Nat) :
    size (mkDefault : HashMap K V) = 0 ∧
    capacity (mkDefault : HashMap K V) = 16 ∧
    empty (mkDefault : HashMap K V) = true ∧
    load_factor (mkDefault : HashMap K V) = 0 ∧
    (∀ k, contains_key hash (mkDefault : HashMap K V) k = false) ∧
    (∀ k, atKey hash (mkDefault : HashMap K V) k = .error .KeyNotFound) := by
  refine ⟨rfl, rfl, rfl, by simp [load_factor, size, mkDefault], ?_, ?_⟩
  · intro k
    exact contains_key_of_size_zero hash mkDefault rfl k
  · intro k
    simp only [atKey, mkDefault, getD_replicate_nil, List.find?_nil]

/-- Claim C13. The range constructor fails with `VectorsLength` iff the key and
value sequences differ in length, with more values as with fewer; then it
returns no table, and no other failure exists: with equal lengths it returns a
table. -/
theorem range_constructor_length_check (hash : K → Nat) (keys : List K) (values : List V) :
    (mkFromRange hash keys values = .error .VectorsLength ↔ keys.length ≠ values.length) ∧
    (keys.length ≠ values.length → ∀ m, mkFromRange hash keys values ≠ .ok m) ∧
    (keys.length = values.length → ∃ m, mkFromRange hash keys values = .ok m) := by
  have hne : keys.length ≠ values.length →
      mkFromRange hash keys values = .error .VectorsLength := by
    intro h
    unfold mkFromRange
    rw [if_pos]
    intro h0
    exact h (by exact_mod_cast sub_eq_zero.mp h0)
  have heq : keys.length = values.length → ∃ m, mkFromRange hash keys values = .ok m := by
    intro h
    obtain ⟨m, hm, -⟩ := insertAll_spec hash keys values mkDefault (wellFormed_default hash) h
    refine ⟨m, ?_⟩
    unfold mkFromRange
    rw [if_neg (by rw [h]; simp)]
    exact hm
  refine ⟨⟨?_, hne⟩, ?_, heq⟩
  · intro herr hlen
    obtain ⟨m, hm⟩ := heq hlen
    rw [hm] at herr
    exact absurd herr (by simp)
  · intro h m hm
    rw [hne h] at hm
    exact absurd hm (by simp)

/-- Witness of C13: the keys `[1, 2, 3]` with four values and with two values. -/
theorem range_constructor_length_check_witness :
    mkFromRange intHash [1, 2, 3] ['a', 'b', 'c', 'd'] = .error .VectorsLength ∧
    mkFromRange intHash [1, 2, 3] ['a', 'b'] = .error .VectorsLength :=
  ⟨(range_constructor_length_check intHash [1, 2, 3] ['a', 'b', 'c', 'd']).1.mpr (by decide),
    (range_constructor_length_check intHash [1, 2, 3] ['a', 'b']).1.mpr (by decide)⟩

/-- Claim C14. For key and value sequences of equal length the range
constructor returns a table whose keys are exactly the keys of the sequence,
whose size is the number of distinct keys, in which no key is stored twice, and
in which each key has the value at the position of its last occurrence. -/
theorem range_constructor_contents (hash : K → Nat) (keys : List K) (values : List V)
    (hlen : keys.length = values.length) :
    ∃ m, mkFromRange hash keys values = .ok m ∧
      (∀ k, contains_key hash m k = true ↔ k ∈ keys) ∧
      size m = keys.dedup.length ∧
      ((entries m).map Prod.fst).Nodup ∧
      (∀ i k v, IsLastOccurrence keys i k → values[i]? = some v → atKey hash m k = .ok v) ∧
      (∀ k, k ∈ keys → ∃ i v, IsLastOccurrence keys i k ∧ values[i]? = some v ∧
        atKey hash m k = .ok v) := by
  obtain ⟨m, hm, hwf, hent⟩ :=
    insertAll_spec hash keys values mkDefault (wellFormed_default hash) hlen
  have hnil : entries (mkDefault : HashMap K V) = [] := by
    simp [entries, mkDefault, flatten_replicate_nil]
  have hent1 : ∀ k v, (k, v) ∈ entries m ↔
      ∃ i, IsLastOccurrence keys i k ∧ values[i]? = some v := by
    intro k v
    rw [hent, hnil]
    simp
  have hcont : ∀ k, contains_key hash m k = true ↔ k ∈ keys := by
    intro k
    rw [contains_key_iff hash hwf]
    constructor
    · rintro ⟨v, hv⟩
      obtain ⟨i, hlast, -⟩ := (hent1 k v).mp hv
      exact isLastOccurrence_mem hlast
    · intro hk
      have hex : ∃ i, IsLastOccurrence keys i k := by
        clear hent hent1 hm hlen
        induction keys with
        | nil => exact absurd hk (List.not_mem_nil _)
        | cons k0 ks ih =>
          by_cases hin : k ∈ ks
          · obtain ⟨i, hi⟩ := ih hin
            exact ⟨i + 1, (isLastOccurrence_succ k0 ks i k).mpr hi⟩
          · rcases List.mem_cons.mp hk with h | h
            · exact ⟨0, (isLastOccurrence_zero k0 ks k).mpr ⟨h.symm, hin⟩⟩
            · exact absurd h hin
      obtain ⟨i, hi⟩ := hex
      have hilt : i < values.length := by
        rw [← hlen]
        exact (List.getElem?_eq_some.mp hi.1).1
      exact ⟨values[i], (hent1 k _).mpr ⟨i, hi, List.getElem?_eq_getElem hilt⟩⟩
  refine ⟨m, ?_, hcont, ?_, hwf.2.2.2.1, ?_, ?_⟩
  · unfold mkFromRange
    rw [if_neg (by rw [hlen]; simp)]
    exact hm
  · have hperm : ((entries m).map Prod.fst).Perm keys.dedup := by
      rw [List.perm_ext_iff_of_nodup hwf.2.2.2.1 (List.nodup_dedup keys)]
      intro k
      rw [List.mem_dedup, ← hcont k, contains_key_iff hash hwf]
      simp only [List.mem_map]
      constructor
      · rintro ⟨p, hp, rfl⟩
        exact ⟨p.2, hp⟩
      · rintro ⟨v, hv⟩
        exact ⟨(k, v), hv, rfl⟩
    simp only [size]
    rw [hwf.2.2.2.2, ← hperm.length_eq, List.length_map]
  · intro i k v hlast hval
    exact (atKey_eq_ok_iff hash hwf k v).mpr ((hent1 k v).mpr ⟨i, hlast, hval⟩)
  · intro k hk
    obtain ⟨v, hv⟩ := (contains_key_iff hash hwf k).mp ((hcont k).mpr hk)
    obtain ⟨i, hlast, hval⟩ := (hent1 k v).mp hv
    exact ⟨i, v, hlast, hval, (atKey_eq_ok_iff hash hwf k v).mpr hv⟩

/-- Witness of C14: the keys `[1, 2, 1]` with the values `[a, b, c]` give a table
of size 2 in which key 1 has the value `c` of its second occurrence. -/
theorem range_constructor_contents_witness :
    ([1, 2, 1] : List Int).length = ['a', 'b', 'c'].length ∧
    (mkFromRange intHash [1, 2, 1] ['a', 'b', 'c']).map size = .ok 2 ∧
    (mkFromRange intHash [1, 2, 1] ['a', 'b', 'c']).bind (fun m => atKey intHash m 1)
      = .ok 'c' ∧
    ∃ m, mkFromRange intHash [1, 2, 1] ['a', 'b', 'c'] = .ok m ∧
      (∀ k, contains_key intHash m k = true ↔ k ∈ ([1, 2, 1] : List Int)) ∧
      size m = ([1, 2, 1] : List Int).dedup.length :=
  ⟨by decide, by decide!, by decide!,
    (range_constructor_contents intHash [1, 2, 1] ['a', 'b', 'c'] (by decide)).imp
      (fun _ h => ⟨h.1, h.2.1, h.2.2.1⟩)⟩

/-- Claim C15. After `clear()` of any table the size is 0, `empty()` holds, every
bucket `0 .. capacity-1` is empty, no key is contained, and the capacity is the
one before the call. -/
theorem clear_contract (hash : K → Nat) (m : HashMap K V) :
    size (clear m) = 0 ∧
    empty (clear m) = true ∧
    (∀ i, i < capacity (clear m) → (clear m)._hashTable.getD i [] = []) ∧
    (∀ k, contains_key hash (clear m) k = false) ∧
    capacity (clear m) = capacity m := by
  refine ⟨rfl, rfl, ?_, fun k => contains_key_of_size_zero hash (clear m) rfl k, rfl⟩
  intro i hi
  have hi1 : i < m._capacity := hi
  simp only [clear, getD_foldl_set_nil, hi1, if_true]

/-- Witness of C15: clearing the table with 13 entries leaves capacity 32. -/
theorem clear_contract_witness :
    capacity (clear eraseTestTable) = 32 ∧ size (clear eraseTestTable) = 0 ∧
    entries (clear eraseTestTable) = [] :=
  ⟨(clear_contract intHash eraseTestTable).2.2.2.2.trans (by decide),
    (clear_contract intHash eraseTestTable).1, by decide⟩

/-- Claim C16. Mutable `operator[]` on a well-formed table: an absent key is
inserted with the default value, so the size grows by one and the growth rule
applies; for a present key the table stays as it is.  In both cases the returned
alias reads the value stored with the key in the resulting table, and after
`m[k] = v` the key is contained and `at(k)` yields `v`. -/
theorem mutable_subscript [Inhabited V] (hash : K → Nat) (m : HashMap K V) (k : K) (v : V)
    (hwf : WellFormed hash m) :
    (contains_key hash m k = false →
      (subscript hash m k).1 = (insert hash m k default).1 ∧
      size (subscript hash m k).1 = size m + 1 ∧
      capacity (subscript hash m k).1 =
        (if 4 * (size m + 1) > 3 * capacity m then 2 * capacity m else capacity m) ∧
      atKey hash (subscript hash m k).1 k = .ok default) ∧
    (contains_key hash m k = true → (subscript hash m k).1 = m) ∧
    (∃ r val, (subscript hash m k).2 = .ok r ∧
      readRef (subscript hash m k).1 r = some val ∧
      atKey hash (subscript hash m k).1 k = .ok val ∧
      subscriptAssign hash m k v = .ok (writeRef (subscript hash m k).1 r v)) ∧
    (∃ m1, subscriptAssign hash m k v = .ok m1 ∧ WellFormed hash m1 ∧
      contains_key hash m1 k = true ∧ atKey hash m1 k = .ok v) := by
  obtain ⟨hsub, r, hr, hloc⟩ := subscript_spec hash hwf k
  have hwf1 : WellFormed hash (subscript hash m k).1 := by
    rw [hsub]
    split
    · exact hwf
    · rename_i hc
      exact (insert_absent hash hwf k default (by simpa using hc)).2.1
  obtain ⟨val, hread, hat⟩ := located_reads_stored hash hwf1 k r.bucketIdx r.pos hloc
  have hok : subscriptAssign hash m k v = .ok (writeRef (subscript hash m k).1 r v) := by
    unfold subscriptAssign
    cases hs : subscript hash m k with
    | mk m2 res =>
      rw [hs] at hr
      simp only [] at hr
      subst hr
      rfl
  obtain ⟨hwf2, hent⟩ := writeRef_spec hash hwf1 k v r.bucketIdx r.pos hloc
  have hmem : (k, v) ∈ entries (writeRef (subscript hash m k).1 r v) := by
    have := (mem_map_setValue k v (entries (subscript hash m k).1)
      ⟨val, (atKey_eq_ok_iff hash hwf1 k val).mp hat⟩ k v).mpr (by simp)
    rw [← hent] at this
    exact this
  refine ⟨?_, ?_, ⟨r, val, hr, hread, hat, hok⟩, ⟨_, hok, hwf2,
    (contains_key_iff hash hwf2 k).mpr ⟨v, hmem⟩, (atKey_eq_ok_iff hash hwf2 k v).mpr hmem⟩⟩
  · intro habs
    obtain ⟨-, hwfi, hperm, hsz, hcap⟩ := insert_absent hash hwf k default habs
    rw [habs] at hsub
    simp only [Bool.false_eq_true, if_false] at hsub
    rw [hsub]
    refine ⟨rfl, hsz, ?_, ?_⟩
    · simp only [capacity, size]
      rw [hcap]
      by_cases hg : 3 * m._capacity < 4 * (m._size + 1)
      · rw [if_pos hg, if_pos hg, Nat.mul_comm]
      · rw [if_neg hg, if_neg hg]
    · exact (atKey_eq_ok_iff hash hwfi k default).mpr
        (hperm.mem_iff.mpr (List.mem_cons_self _ _))
  · intro hpres
    rw [hsub, if_pos hpres]

/-- Witness of C16: `m[29] = 7` on the insert test's table of capacity 16.  The
index computed before the insertion is 13; the default-insert rehashes to
capacity 32, where key 29 lies in bucket 29, and the alias denotes that pair. -/
theorem mutable_subscript_witness :
    WellFormed intHash insertTestTable ∧
    _hash intHash insertTestTable 29 = 13 ∧
    capacity (subscript intHash insertTestTable 29).1 = 32 ∧
    (subscript intHash insertTestTable 29).2 = .ok ⟨29, 0⟩ ∧
    ∃ m1, subscriptAssign intHash insertTestTable 29 7 = .ok m1 ∧ WellFormed intHash m1 ∧
      contains_key intHash m1 29 = true ∧ atKey intHash m1 29 = .ok 7 :=
  ⟨by decide, by decide, by decide!, by decide!,
    (mutable_subscript intHash insertTestTable 29 7 (by decide)).2.2.2⟩

/-- Claim C17. Read-only `operator[]` on a well-formed table returns the value
stored with a present key and the default value for an absent key.  It is a
function of the table that returns a value only: the table, with its size,
capacity and buckets, is not changed, and nothing is inserted. -/
theorem const_subscript [Inhabited V] (hash : K → Nat) (m : HashMap K V) (k : K)
    (hwf : WellFormed hash m) :
    (contains_key hash m k = true →
      ∃ v, (k, v) ∈ entries m ∧ atKey hash m k = .ok v ∧ subscriptConst hash m k = .ok v) ∧
    (contains_key hash m k = false → subscriptConst hash m k = .ok default) := by
  refine ⟨fun hc => ?_, subscriptConst_of_absent hash m k⟩
  obtain ⟨hsub, v, hat⟩ := subscriptConst_of_contains hash m k hc
  exact ⟨v, (atKey_eq_ok_iff hash hwf k v).mp hat, hat, by rw [hsub, hat]⟩

/-- Witness of C17: on the erase test's table the read-only `operator[]` gives 13
for key 1 and the default 0 for the absent key 14. -/
theorem const_subscript_witness :
    WellFormed intHash eraseTestTable ∧
    contains_key intHash eraseTestTable 14 = false ∧
    subscriptConst intHash eraseTestTable 14 = .ok 0 ∧
    subscriptConst intHash eraseTestTable 1 = .ok 13 :=
  ⟨by decide!, by decide!,
    (const_subscript intHash eraseTestTable 14 (by decide!)).2 (by decide!), by decide!⟩

end ContractConstruction

/-! ## The contract: equality -/

section ContractEquality

variable {K V : Type} [DecidableEq K] [DecidableEq V]

/-- A well-formed table compares equal to itself. -/
theorem equals_self [Inhabited V] (hash : K → Nat) (a : HashMap K V)
    (ha : WellFormed hash a) : equals hash a a = .ok true := by
  obtain ⟨res, hres, hiff⟩ := equals_spec hash a a ha.2.1
  have : res = true := by
    rw [hiff]
    refine ⟨rfl, rfl, ?_⟩
    intro t ht
    exact ⟨(contains_key_iff hash ha t.1).mpr ⟨t.2, ht⟩, (atKey_eq_ok_iff hash ha t.1 t.2).mpr ht⟩
  rw [hres, this]

/-- Claim C18. On well-formed tables `a == b` returns `true` iff the sizes are
equal, the capacities are equal, and every key stored in `a` is contained in `b`
with an equal value; `a != b` returns the negation of `a == b`. -/
theorem equals_iff [Inhabited V] (hash : K → Nat) (a b : HashMap K V)
    (ha : WellFormed hash a) (hb : WellFormed hash b) :
    ∃ res, equals hash a b = .ok res ∧ notEquals hash a b = .ok (!res) ∧
      (res = true ↔ size a = size b ∧ capacity a = capacity b ∧
        ∀ k v, (k, v) ∈ entries a →
          contains_key hash b k = true ∧ atKey hash b k = .ok v) ∧
      (res = true ↔ size a = size b ∧ capacity a = capacity b ∧
        ∀ k v, (k, v) ∈ entries a → (k, v) ∈ entries b) := by
  obtain ⟨res, hres, hiff⟩ := equals_spec hash a b ha.2.1
  have h1 : res = true ↔ size a = size b ∧ capacity a = capacity b ∧
      ∀ k v, (k, v) ∈ entries a → contains_key hash b k = true ∧ atKey hash b k = .ok v := by
    rw [hiff]
    constructor
    · rintro ⟨hc, hs, h⟩
      exact ⟨hs, hc, fun k v hkv => h (k, v) hkv⟩
    · rintro ⟨hs, hc, h⟩
      exact ⟨hc, hs, fun t ht => h t.1 t.2 ht⟩
  refine ⟨res, hres, notEquals_of_equals hash a b res hres, h1, ?_⟩
  rw [h1]
  constructor
  · rintro ⟨hs, hc, h⟩
    exact ⟨hs, hc, fun k v hkv => (atKey_eq_ok_iff hash hb k v).mp (h k v hkv).2⟩
  · rintro ⟨hs, hc, h⟩
    refine ⟨hs, hc, fun k v hkv => ?_⟩
    have := h k v hkv
    exact ⟨(contains_key_iff hash hb k).mpr ⟨v, this⟩, (atKey_eq_ok_iff hash hb k v).mpr this⟩

/-- Witness of C18: the tables of the `operator ==, !=` test.  The table of 13
entries equals itself, and after `insert(-2, -2)` the two differ. -/
theorem equals_iff_witness :
    WellFormed intHash eraseTestTable ∧
    WellFormed intHash (insert intHash eraseTestTable (-2) (-2)).1 ∧
    equals intHash eraseTestTable eraseTestTable = .ok true ∧
    equals intHash (insert intHash eraseTestTable (-2) (-2)).1 eraseTestTable = .ok false ∧
    notEquals intHash (insert intHash eraseTestTable (-2) (-2)).1 eraseTestTable = .ok true ∧
    ∃ res, equals intHash eraseTestTable (insert intHash eraseTestTable (-2) (-2)).1 = .ok res ∧
      notEquals intHash eraseTestTable (insert intHash eraseTestTable (-2) (-2)).1
        = .ok (!res) :=
  ⟨by decide!, by decide!, by decide!, by decide!, by decide!,
    (equals_iff intHash eraseTestTable (insert intHash eraseTestTable (-2) (-2)).1
      (by decide!) (by decide!)).imp (fun _ h => ⟨h.1, h.2.1⟩)⟩

/-- Claim C20. Strict capacity equality.  Two reachable tables with the same
contents and different capacities exist: the table of 13 entries after `clear()`
(size 0, capacity 32) and the default table (size 0, capacity 16).  Any two
tables of different capacities compare unequal, whatever their contents. -/
theorem equals_requires_equal_capacity :
    (∃ a b : HashMap Int Int, Reachable intHash a ∧ Reachable intHash b ∧
      entries a = entries b ∧
      (∀ k, contains_key intHash a k = contains_key intHash b k) ∧
      (∀ k, atKey intHash a k = atKey intHash b k) ∧
      size a = size b ∧ capacity a = 32 ∧ capacity b = 16 ∧
      equals intHash a b = .ok false ∧ notEquals intHash a b = .ok true) ∧
    (∀ (K V : Type) [DecidableEq K] [DecidableEq V] [Inhabited V] (hash : K → Nat)
      (a b : HashMap K V), capacity a ≠ capacity b →
      equals hash a b = .ok false ∧ notEquals hash a b = .ok true) := by
  have hgen : ∀ (K V : Type) [DecidableEq K] [DecidableEq V] [Inhabited V] (hash : K → Nat)
      (a b : HashMap K V), capacity a ≠ capacity b →
      equals hash a b = .ok false ∧ notEquals hash a b = .ok true := by
    intro K V _ _ _ hash a b hne
    have he : equals hash a b = .ok false := by
      unfold equals
      rw [if_pos]
      simp [hne]
    exact ⟨he, notEquals_of_equals hash a b false he⟩
  refine ⟨⟨clear eraseTestTable, mkDefault, Reachable.clear _ eraseTestTable_reachable,
    Reachable.default, by decide, ?_, ?_, rfl, rfl, rfl, ?_⟩, hgen⟩
  · intro k
    rw [contains_key_of_size_zero intHash (clear eraseTestTable) rfl k,
      contains_key_of_size_zero intHash mkDefault rfl k]
  · intro k
    have h1 : WellFormed intHash (clear eraseTestTable) := by decide
    have h2 : WellFormed intHash (mkDefault : HashMap Int Int) := by decide
    exact (lookup_congr intHash h1 h2 k (fun v => by
      have e1 : entries (clear eraseTestTable) = [] := by decide
      have e2 : entries (mkDefault : HashMap Int Int) = [] := by decide
      rw [e1, e2])).2
  · exact hgen Int Int intHash (clear eraseTestTable) mkDefault (by decide)

end ContractEquality

/-! ## The iterator -/

section IteratorLemmas

variable {K V : Type} [DecidableEq K] [DecidableEq V]

theorem flatten_drop_succ {α : Type} (t : List (List α)) (i : Nat) (h : i < t.length) :
    (t.drop i).flatten = t.getD i [] ++ (t.drop (i + 1)).flatten := by
  rw [List.drop_eq_getElem_cons h, List.flatten_cons, getD_of_lt t i h]

theorem flatten_drop_of_le {α : Type} (t : List (List α)) (i : Nat) (h : t.length ≤ i) :
    (t.drop i).flatten = [] := by
  rw [List.drop_of_length_le h]
  rfl

/-- The loop of `operator++`, entered in bucket `_curIndex` at a position `q` up
to the bucket's end, stops at the next stored pair or behind the last bucket. -/
theorem incrementLoop_spec (m : HashMap K V) (hlen : m._hashTable.length = m._capacity) :
    ∀ (fuel : Nat) (it : ConstIterator) (q : Nat), it._curIndex < capacity m →
      it._cur = some ⟨it._curIndex, q⟩ → q ≤ (m._hashTable.getD it._curIndex []).length →
      capacity m < fuel + it._curIndex →
      ∃ it1, incrementLoop m fuel it = some it1 ∧ Positioned m it1 ∧
        rest m it1 = (m._hashTable.getD it._curIndex []).drop q ++
          (m._hashTable.drop (it._curIndex + 1)).flatten ∧
        it1._counter = it._counter := by
  intro fuel
  induction fuel with
  | zero => intro it q hidx _ _ hfuel; omega
  | succ fuel ih =>
    intro it q hidx hcur hq hfuel
    by_cases hend : q = (m._hashTable.getD it._curIndex []).length
    · have hcond : it._cur = some ⟨it._curIndex, (m._hashTable.getD it._curIndex []).length⟩ := by
        rw [hcur, hend]
      have hdrop : (m._hashTable.getD it._curIndex []).drop q = [] := by
        rw [hend]
        exact List.drop_length _
      by_cases hnext : it._curIndex + 1 < capacity m
      · obtain ⟨it1, hrun, hpos, hrest, hcnt⟩ := ih
          { it with _curIndex := it._curIndex + 1, _cur := some ⟨it._curIndex + 1, 0⟩ } 0
          hnext rfl (Nat.zero_le _) (by simp only []; omega)
        refine ⟨it1, ?_, hpos, ?_, hcnt⟩
        · simp only [incrementLoop, hcond, if_true, hnext]
          exact hrun
        · rw [hrest, hdrop, List.nil_append, List.drop_zero]
          exact (flatten_drop_succ _ _ (by rw [hlen]; exact hnext)).symm
      · have hcap : it._curIndex + 1 = capacity m := by omega
        refine ⟨{ it with _curIndex := it._curIndex + 1 }, ?_, Or.inr hcap, ?_, rfl⟩
        · simp only [incrementLoop, hcond, if_true, hnext, if_false]
        · have htail : (m._hashTable.drop (it._curIndex + 1)).flatten = [] :=
            flatten_drop_of_le _ _ (by rw [hlen]; exact Nat.le_of_eq hcap.symm)
          simp only [rest, hcap, Nat.lt_irrefl, if_false, hdrop, List.nil_append]
          rw [← hcap, htail]
    · have hlt : q < (m._hashTable.getD it._curIndex []).length := by omega
      have hcond : ¬ it._cur = some ⟨it._curIndex, (m._hashTable.getD it._curIndex []).length⟩ := by
        rw [hcur]
        intro h
        injection h with h
        injection h with _ h
        exact hend h
      refine ⟨it, ?_, Or.inl ⟨hidx, q, hcur, hlt⟩, ?_, rfl⟩
      · simp only [incrementLoop, hcond, if_false]
      · simp only [rest, hidx, if_true, hcur]

/-- The loop of `begin()` stops at the first stored pair from bucket `_curIndex`
on, or behind the last bucket. -/
theorem beginLoop_spec (m : HashMap K V) (hlen : m._hashTable.length = m._capacity) :
    ∀ (fuel : Nat) (it : ConstIterator), it._curIndex < capacity m →
      ((m._hashTable.getD it._curIndex []).isEmpty = false →
        it._cur = some ⟨it._curIndex, 0⟩) →
      capacity m < fuel + it._curIndex →
      ∃ it1, beginLoop m fuel it = some it1 ∧ Positioned m it1 ∧
        rest m it1 = (m._hashTable.drop it._curIndex).flatten ∧
        it1._counter = it._counter := by
  intro fuel
  induction fuel with
  | zero => intro it hidx _ hfuel; omega
  | succ fuel ih =>
    intro it hidx hcur hfuel
    have hsplit := flatten_drop_succ m._hashTable it._curIndex (by rw [hlen]; exact hidx)
    cases hb : m._hashTable.getD it._curIndex [] with
    | nil =>
      rw [hb, List.nil_append] at hsplit
      by_cases hnext : it._curIndex + 1 < capacity m
      · obtain ⟨it1, hrun, hpos, hrest, hcnt⟩ := ih
          { it with _curIndex := it._curIndex + 1, _cur := some ⟨it._curIndex + 1, 0⟩ }
          hnext (fun _ => rfl) (by simp only []; omega)
        refine ⟨it1, ?_, hpos, ?_, hcnt⟩
        · simp only [beginLoop, hb, List.isEmpty_nil, if_true, hnext]
          exact hrun
        · rw [hrest, hsplit]
      · have hcap : it._curIndex + 1 = capacity m := by omega
        refine ⟨{ it with _curIndex := it._curIndex + 1 }, ?_, Or.inr hcap, ?_, rfl⟩
        · simp only [beginLoop, hb, List.isEmpty_nil, if_true, hnext, if_false]
        · have htail : (m._hashTable.drop (it._curIndex + 1)).flatten = [] :=
            flatten_drop_of_le _ _ (by rw [hlen]; exact Nat.le_of_eq hcap.symm)
          simp only [rest, hcap, Nat.lt_irrefl, if_false]
          rw [hsplit, htail]
    | cons x xs =>
      have hcur1 := hcur (by rw [hb]; rfl)
      refine ⟨it, ?_, Or.inl ⟨hidx, 0, hcur1, by rw [hb]; exact Nat.succ_pos _⟩, ?_, rfl⟩
      · simp only [beginLoop, hb, List.isEmpty_cons, Bool.false_eq_true, if_false]
      · simp only [rest, hidx, if_true, hcur1, List.drop_zero]
        rw [hsplit]

theorem iterBegin_spec (m : HashMap K V) (hcap : 1 ≤ m._capacity)
    (hlen : m._hashTable.length = m._capacity) :
    ∃ it, iterBegin m = some it ∧ Positioned m it ∧ rest m it = entries m ∧
      it._counter = 0 := by
  have h0 : (0 : Nat) < capacity m := hcap
  obtain ⟨it, hrun, hpos, hrest, hcnt⟩ := beginLoop_spec m hlen (capacity m + 1)
    (if !(m._hashTable.getD 0 []).isEmpty then
      ({ _curIndex := 0, _cur := some ⟨0, 0⟩, _counter := 0 } : ConstIterator)
     else { _curIndex := 0, _cur := none, _counter := 0 })
    (by split <;> exact h0)
    (by
      intro hne
      split
      · rfl
      · rename_i hcon
        split at hne <;> simp_all)
    (by omega)
  refine ⟨it, hrun, hpos, ?_, ?_⟩
  · rw [hrest]
    split <;> rfl
  · rw [hcnt]
    split <;> rfl

/-- `operator++` on an iterator that denotes a pair: the pair is the one
dereferenced, and the iterator moves to the next stored pair. -/
theorem increment_spec (m : HashMap K V) (hlen : m._hashTable.length = m._capacity)
    (it : ConstIterator) (hpos : Positioned m it) (x : K × V) (xs : List (K × V))
    (hrest : rest m it = x :: xs) :
    it._curIndex < capacity m ∧
    (∃ p, it._cur = some ⟨it._curIndex, p⟩ ∧
      p < (m._hashTable.getD it._curIndex []).length) ∧
    deref m it = some x ∧
    ∃ it1, increment m it = some it1 ∧ Positioned m it1 ∧ rest m it1 = xs ∧
      it1._counter = it._counter + 1 := by
  rcases hpos with ⟨hidx, p, hcur, hp⟩ | hend
  · simp only [rest, hidx, if_true, hcur] at hrest
    rw [List.drop_eq_getElem_cons hp, List.cons_append] at hrest
    injection hrest with hx hxs
    refine ⟨hidx, ⟨p, hcur, hp⟩, ?_, ?_⟩
    · simp only [deref, hcur, List.getElem?_eq_getElem hp, hx]
    · obtain ⟨it1, hrun, hpos1, hrest1, hcnt⟩ := incrementLoop_spec m hlen (capacity m + 1)
        { it with _cur := it._cur.map (fun c => ⟨c.bucketIdx, c.pos + 1⟩),
                  _counter := it._counter + 1 } (p + 1) hidx
        (by simp only [hcur, Option.map_some']) hp (by simp only []; omega)
      exact ⟨it1, hrun, hpos1, hrest1.trans hxs, hcnt⟩
  · simp only [rest, hend, Nat.lt_irrefl, if_false] at hrest
    exact absurd hrest (by simp)

theorem iterAfter_spec (m : HashMap K V) (hcap : 1 ≤ m._capacity)
    (hlen : m._hashTable.length = m._capacity) :
    ∀ k, k ≤ (entries m).length →
      ∃ it, iterAfter m k = some it ∧ Positioned m it ∧
        rest m it = (entries m).drop k ∧ it._counter = k := by
  intro k
  induction k with
  | zero =>
    intro _
    obtain ⟨it, h1, h2, h3, h4⟩ := iterBegin_spec m hcap hlen
    exact ⟨it, h1, h2, by rw [h3, List.drop_zero], h4⟩
  | succ k ih =>
    intro hk
    obtain ⟨it, hrun, hpos, hrest, hcnt⟩ := ih (Nat.le_of_succ_le hk)
    have hklt : k < (entries m).length := hk
    rw [List.drop_eq_getElem_cons hklt] at hrest
    obtain ⟨-, -, -, it1, hinc, hpos1, hrest1, hcnt1⟩ :=
      increment_spec m hlen it hpos _ _ hrest
    refine ⟨it1, ?_, hpos1, hrest1, by rw [hcnt1, hcnt]⟩
    simp only [iterAfter, hrun, Option.some_bind, hinc]

theorem traverseLoop_spec (m : HashMap K V) (hlen : m._hashTable.length = m._capacity) :
    ∀ (xs : List (K × V)) (fuel : Nat) (it : ConstIterator) (visited : List (K × V)),
      Positioned m it → rest m it = xs → it._counter + xs.length = size m →
      xs.length < fuel →
      ∃ it1, traverseLoop m fuel it visited = some (visited ++ xs, it1) ∧
        iterEq it1 (iterEnd m) = true ∧ it1._curIndex = capacity m := by
  intro xs
  induction xs with
  | nil =>
    intro fuel it visited hpos hrest hcnt hfuel
    cases fuel with
    | zero => exact absurd hfuel (Nat.not_lt_zero _)
    | succ fuel =>
      have heq : iterEq it (iterEnd m) = true := by
        simp only [iterEq, iterEnd, beq_iff_eq]
        simpa using hcnt
      refine ⟨it, by simp only [traverseLoop, heq, if_true, List.append_nil], heq, ?_⟩
      rcases hpos with ⟨hidx, p, hcur, hp⟩ | hend
      · simp only [rest, hidx, if_true, hcur] at hrest
        rw [List.drop_eq_getElem_cons hp, List.cons_append] at hrest
        exact absurd hrest (List.cons_ne_nil _ _)
      · exact hend
  | cons x xs ih =>
    intro fuel it visited hpos hrest hcnt hfuel
    cases fuel with
    | zero => exact absurd hfuel (Nat.not_lt_zero _)
    | succ fuel =>
      have hne : iterEq it (iterEnd m) = false := by
        simp only [iterEq, iterEnd, beq_eq_false_iff_ne, ne_eq]
        simp only [List.length_cons] at hcnt
        omega
      obtain ⟨-, -, hderef, it1, hinc, hpos1, hrest1, hcnt1⟩ :=
        increment_spec m hlen it hpos x xs hrest
      obtain ⟨it2, hrun, heq, hidx⟩ := ih fuel it1 (visited ++ [x]) hpos1 hrest1
        (by simp only [List.length_cons] at hcnt; omega)
        (by simp only [List.length_cons] at hfuel; omega)
      refine ⟨it2, ?_, heq, hidx⟩
      simp only [traverseLoop, hne, Bool.false_eq_true, if_false, hderef, hinc, hrun,
        List.append_assoc, List.singleton_append]

/-- A full traversal of a well-formed table visits the bucket-ascending
concatenation of the buckets and ends at `end()`. -/
theorem traverse_spec (hash : K → Nat) (m : HashMap K V) (hwf : WellFormed hash m) :
    ∃ it, traverse m = some (entries m, it) ∧ iterEq it (iterEnd m) = true ∧
      it._curIndex = capacity m := by
  obtain ⟨it0, hbegin, hpos, hrest, hcnt⟩ := iterBegin_spec m hwf.1 hwf.2.1
  obtain ⟨it1, hrun, heq, hidx⟩ := traverseLoop_spec m hwf.2.1 (entries m) (size m + 1) it0 []
    hpos hrest (by rw [hcnt, Nat.zero_add]; exact hwf.2.2.2.2.symm)
    (by rw [← hwf.2.2.2.2]; exact Nat.lt_succ_self _)
  refine ⟨it1, ?_, heq, hidx⟩
  simp only [traverse, hbegin, hrun, List.nil_append]

end IteratorLemmas

/-! ## Buckets as parts of the traversal, order of two keys in a list -/

section BucketLemmas

variable {K V : Type} [DecidableEq K] [DecidableEq V] (hash : K → Nat)

/-- In an array whose bucket `j` holds only elements of index `o + j`, the
elements of index `i` of the concatenation are the bucket `i - o`. -/
theorem filter_flatten_placed {α : Type} (f : α → Nat) :
    ∀ (t : List (List α)) (o i : Nat),
      (∀ j, j < t.length → ∀ p ∈ t.getD j [], f p = o + j) →
      t.flatten.filter (fun p => decide (f p = i)) =
        if o ≤ i then t.getD (i - o) [] else [] := by
  intro t
  induction t with
  | nil => intro o i _; simp
  | cons b t ih =>
    intro o i h
    have hb : ∀ p ∈ b, f p = o := by
      intro p hp
      have := h 0 (Nat.succ_pos _) p (by simpa using hp)
      simpa using this
    have ht : ∀ j, j < t.length → ∀ p ∈ t.getD j [], f p = o + 1 + j := by
      intro j hj p hp
      have := h (j + 1) (Nat.succ_lt_succ hj) p (by simpa using hp)
      omega
    rw [List.flatten_cons, List.filter_append, ih (o + 1) i ht]
    by_cases hio : i = o
    · subst hio
      have h1 : b.filter (fun p => decide (f p = i)) = b :=
        List.filter_eq_self.mpr (fun p hp => by simp [hb p hp])
      have h2 : ¬ i + 1 ≤ i := by omega
      simp [h1, h2]
    · have h1 : b.filter (fun p => decide (f p = i)) = [] :=
        List.filter_eq_nil_iff.mpr (fun p hp => by simp [hb p hp]; omega)
      rw [h1, List.nil_append]
      by_cases hlt : o + 1 ≤ i
      · have h2 : o ≤ i := by omega
        have h3 : i - o = (i - (o + 1)) + 1 := by omega
        rw [if_pos hlt, if_pos h2, h3]
        simp
      · have h2 : ¬ o ≤ i := by omega
        rw [if_neg hlt, if_neg h2]

/-- A bucket of a well-formed table is the part of the traversal whose keys
select it. -/
theorem WellFormed.filter_entries {m : HashMap K V} (h : WellFormed hash m) (i : Nat) :
    (entries m).filter (fun p => decide (hash p.1 &&& (m._capacity - 1) = i)) =
      m._hashTable.getD i [] := by
  have := filter_flatten_placed (fun p : K × V => hash p.1 &&& (m._capacity - 1))
    m._hashTable 0 i (fun j hj p hp => by rw [Nat.zero_add]; exact h.2.2.1 j hj p hp)
  simpa [entries] using this

theorem and_mask_double (h n : Nat) :
    (h &&& (2 ^ n * 2 - 1)) &&& (2 ^ n - 1) = h &&& (2 ^ n - 1) := by
  rw [← pow_succ, Nat.and_pow_two_sub_one_eq_mod, Nat.and_pow_two_sub_one_eq_mod,
    Nat.and_pow_two_sub_one_eq_mod]
  exact Nat.mod_mod_of_dvd h (pow_dvd_pow 2 (Nat.le_succ n))

theorem pair_sublist_or {α : Type} (a b : α) :
    ∀ l : List α, a ∈ l → b ∈ l → a ≠ b → [a, b].Sublist l ∨ [b, a].Sublist l := by
  intro l
  induction l with
  | nil => intro ha; exact absurd ha (List.not_mem_nil _)
  | cons x l ih =>
    intro ha hb hne
    rcases List.mem_cons.mp ha with ha | ha
    · rcases List.mem_cons.mp hb with hb | hb
      · exact absurd (ha.trans hb.symm) hne
      · left
        rw [ha]
        exact List.Sublist.cons₂ x (List.singleton_sublist.mpr hb)
    · rcases List.mem_cons.mp hb with hb | hb
      · right
        rw [hb]
        exact List.Sublist.cons₂ x (List.singleton_sublist.mpr ha)
      · rcases ih ha hb hne with h | h
        · exact Or.inl (List.Sublist.cons x h)
        · exact Or.inr (List.Sublist.cons x h)

theorem pair_sublist_mem {α : Type} {a b : α} {l : List α} (h : [a, b].Sublist l) :
    a ∈ l ∧ b ∈ l :=
  ⟨h.subset (List.mem_cons_self _ _), h.subset (List.mem_cons_of_mem _ (List.mem_singleton_self _))⟩

theorem pair_sublist_cons {α : Type} {a b x : α} {l : List α} (h : [a, b].Sublist (x :: l)) :
    [a, b].Sublist l ∨ (x = a ∧ b ∈ l) := by
  cases h with
  | cons _ h => exact Or.inl h
  | cons₂ _ h => exact Or.inr ⟨rfl, List.singleton_sublist.mp h⟩

theorem pair_sublist_asymm {α : Type} (a b : α) :
    ∀ l : List α, l.Nodup → [a, b].Sublist l → ¬ [b, a].Sublist l := by
  intro l
  induction l with
  | nil => intro _ h; exact absurd (pair_sublist_mem h).1 (List.not_mem_nil _)
  | cons x l ih =>
    intro hnd hab hba
    rw [List.nodup_cons] at hnd
    rcases pair_sublist_cons hab with h1 | ⟨hx1, hb⟩
    · rcases pair_sublist_cons hba with h2 | ⟨hx2, ha⟩
      · exact ih hnd.2 h1 h2
      · exact hnd.1 (hx2 ▸ (pair_sublist_mem h1).2)
    · rcases pair_sublist_cons hba with h2 | ⟨hx2, ha⟩
      · exact hnd.1 (hx1 ▸ (pair_sublist_mem h2).2)
      · exact hnd.1 (hx2 ▸ hb)

/-- For two keys of a list `small` that keeps the order of a duplicate-free
list `big`, being in order in one is being in order in the other. -/
theorem pair_sublist_iff_of_sublist {α : Type} {small big : List α} (hsub : small.Sublist big)
    (hnd : big.Nodup) (a b : α) (ha : a ∈ small) (hb : b ∈ small) :
    [a, b].Sublist small ↔ [a, b].Sublist big := by
  constructor
  · exact fun h => h.trans hsub
  · intro h
    by_cases hne : a = b
    · subst hne
      have : ¬ [a, a].Sublist big := fun h2 => pair_sublist_asymm a a big hnd h2 h2
      exact absurd h this
    · rcases pair_sublist_or a b small ha hb hne with h1 | h1
      · exact h1
      · exact absurd (h1.trans hsub) (pair_sublist_asymm a b big hnd h)

end BucketLemmas

/-! ## Insertion order inside the buckets -/

section OrderLemmas

variable {K V : Type} [DecidableEq K] [DecidableEq V] (hash : K → Nat)

theorem writeRef_table {m : HashMap K V} (h : WellFormed hash m) (key : K) (val : V)
    (i pos : Nat) (hloc : locate key (m._hashTable.getD i []) = some pos) :
    (writeRef m ⟨i, pos⟩ val)._hashTable = m._hashTable.map (List.map (setValue key val)) := by
  obtain ⟨v0, hv0⟩ := (locate_isSome_iff key _).mp ⟨pos, hloc⟩
  have hi : i < m._hashTable.length := by
    by_contra hcon
    rw [List.getD_eq_default _ _ (Nat.le_of_not_lt hcon)] at hv0
    exact absurd hv0 (List.not_mem_nil _)
  have hidx : hash key &&& (m._capacity - 1) = i := h.2.2.1 i hi (key, v0) hv0
  simp only [writeRef]
  rw [storeAt_eq_map key val _ pos (nodup_keys_bucket hash h i) hloc]
  apply set_eq_map_of
  intro j hj hne
  apply map_setValue_of_absent
  intro p hp hpk
  have := h.2.2.1 j hj p hp
  rw [hpk, hidx] at this
  exact hne this.symm

/-- Overwriting a stored value keeps the keys of every bucket and their order. -/
theorem orderInv_writeRef {m : HashMap K V} (h : WellFormed hash m) (order : List K)
    (ho : OrderInv hash m order) (key : K) (val : V) (i pos : Nat)
    (hloc : locate key (m._hashTable.getD i []) = some pos) :
    OrderInv hash (writeRef m ⟨i, pos⟩ val) order := by
  obtain ⟨hwf1, hent⟩ := writeRef_spec hash h key val i pos hloc
  have htab := writeRef_table hash h key val i pos hloc
  refine ⟨ho.1, ?_, ?_⟩
  · intro k
    rw [ho.2.1 k, contains_key_iff hash hwf1, contains_key_iff hash h, hent]
    constructor
    · rintro ⟨v, hv⟩
      exact ⟨(setValue key val (k, v)).2, by
        have e : (k, (setValue key val (k, v)).2) = setValue key val (k, v) :=
          Prod.ext (setValue_fst key val (k, v)).symm rfl
        rw [e]
        exact List.mem_map_of_mem _ hv⟩
    · rintro ⟨v, hv⟩
      obtain ⟨t, ht, hft⟩ := List.mem_map.mp hv
      refine ⟨t.2, ?_⟩
      have ht1 : t.1 = k := by
        have := setValue_fst key val t
        rw [hft] at this
        exact this.symm
      rw [← ht1]
      exact ht
  · intro j
    rw [htab, getD_map_table _ _ (by simp), List.map_map]
    have e : (Prod.fst ∘ setValue key val) = (Prod.fst : K × V → K) := by
      funext p
      exact setValue_fst key val p
    rw [e]
    exact ho.2.2 j

theorem orderInv_clear {m : HashMap K V} (hlen : m._hashTable.length = m._capacity) :
    OrderInv hash (clear m) ([] : List K) := by
  refine ⟨List.nodup_nil, ?_, ?_⟩
  · intro k
    rw [contains_key_of_size_zero hash (clear m) rfl k]
    simp
  · intro i
    rw [clear_table m hlen, getD_replicate_nil]
    exact List.Sublist.refl _

/-- A rehash to the doubled power-of-two capacity splits every bucket in two and
keeps the order inside each part. -/
theorem orderInv_rehash_double {m : HashMap K V} (h : WellFormed hash m) (n : Nat)
    (hcap : m._capacity = 2 ^ n) (order : List K)
    (hb : ∀ i, ((m._hashTable.getD i []).map Prod.fst).Sublist order) (j : Nat) :
    (((_rehash hash m (m._capacity * 2))._hashTable.getD j []).map Prod.fst).Sublist order := by
  rw [rehash_table hash m _ h.2.1]
  by_cases hj : j < m._capacity * 2
  · rw [getD_rehashBucket hash _ _ _ j (by rw [List.length_replicate]; exact hj),
      getD_replicate_nil, List.nil_append]
    have hfil : (entries m).filter (fun p => decide (hash p.1 &&& (m._capacity * 2 - 1) = j))
        = (m._hashTable.getD (j &&& (m._capacity - 1)) []).filter
            (fun p => decide (hash p.1 &&& (m._capacity * 2 - 1) = j)) := by
      rw [← h.filter_entries hash (j &&& (m._capacity - 1)), List.filter_filter]
      apply List.filter_congr
      intro p _
      by_cases hp : hash p.1 &&& (m._capacity * 2 - 1) = j
      · have : hash p.1 &&& (m._capacity - 1) = j &&& (m._capacity - 1) := by
          rw [← hp, hcap, and_mask_double]
        simp [hp, this]
      · simp [hp]
    rw [hfil]
    exact ((List.filter_sublist _).map Prod.fst).trans (hb _)
  · have hlen : (rehashBucket hash (m._capacity * 2) (List.replicate (m._capacity * 2) [])
        (entries m)).length ≤ j := by
      rw [length_rehashBucket, List.length_replicate]
      exact Nat.le_of_not_lt hj
    rw [List.getD_eq_default _ _ hlen]
    exact List.nil_sublist _

/-- `insert` of an absent key into a table of power-of-two capacity puts the key
last. -/
theorem orderInv_insert_absent {m : HashMap K V} (h : Invariant hash m) (order : List K)
    (ho : OrderInv hash m order) (key : K) (val : V)
    (habs : contains_key hash m key = false) :
    OrderInv hash (insert hash m key val).1 (order ++ [key]) := by
  obtain ⟨hwf, -, n, hn⟩ := h
  obtain ⟨-, hwf1, hperm, -, -⟩ := insert_absent hash hwf key val habs
  obtain ⟨hwfp, -⟩ := wellFormed_push hash hwf key val habs
  have hnot : key ∉ order := by
    intro hin
    rw [(ho.2.1 key).mp hin] at habs
    exact absurd habs (by simp)
  have hpush : ∀ i, (((pushBack m._hashTable (_hash hash m key) (key, val)).getD i []).map
      Prod.fst).Sublist (order ++ [key]) := by
    intro i
    rw [getD_pushBack]
    split
    · rw [List.map_append]
      exact (ho.2.2 i).append (List.Sublist.refl _)
    · exact (ho.2.2 i).trans (List.sublist_append_left _ _)
  refine ⟨?_, ?_, ?_⟩
  · rw [List.nodup_append]
    refine ⟨ho.1, List.nodup_singleton _, ?_⟩
    intro a ha hb
    rw [List.mem_singleton] at hb
    exact hnot (hb ▸ ha)
  · intro k
    rw [List.mem_append, List.mem_singleton, ho.2.1 k, contains_key_iff hash hwf1,
      contains_key_iff hash hwf]
    constructor
    · rintro (⟨v, hv⟩ | rfl)
      · exact ⟨v, hperm.mem_iff.mpr (List.mem_cons_of_mem _ hv)⟩
      · exact ⟨val, hperm.mem_iff.mpr (List.mem_cons_self _ _)⟩
    · rintro ⟨v, hv⟩
      rcases List.mem_cons.mp (hperm.mem_iff.mp hv) with h1 | h1
      · exact Or.inr (Prod.mk.inj h1).1
      · exact Or.inl ⟨v, h1⟩
  · intro i
    rw [insert_absent_table hash m key val habs]
    split
    · exact orderInv_rehash_double hash hwfp n hn (order ++ [key]) hpush i
    · exact hpush i

/-- `erase` of a present key that leaves the capacity as it is removes the key
from its bucket and keeps the order of the others. -/
theorem orderInv_erase_present [ValueEq V] (hveq : ∀ v : V, ValueEq.veq v v = true)
    {m : HashMap K V} (hwf : WellFormed hash m) (order : List K)
    (ho : OrderInv hash m order) (key : K) (hpres : contains_key hash m key = true)
    (hcap : capacity m ≤ capacity (erase hash m key).1) :
    OrderInv hash (erase hash m key).1 (order.filter (fun k => !decide (k = key))) := by
  obtain ⟨-, hwf1, hperm, -, hcapeq⟩ := erase_present hash hveq hwf key hpres
  have hpos := hwf.1
  have hnoshrink : ¬ (4 * (m._size - 1) < m._capacity ∧ 1 < m._capacity) := by
    intro hs
    rw [if_pos hs] at hcapeq
    have : m._capacity ≤ m._capacity / 2 := by
      have := hcap
      simp only [capacity] at this
      rw [hcapeq] at this
      exact this
    omega
  have hlow := lowerLoadFactor_iff
    ({ m with _hashTable := m._hashTable.set (_hash hash m key)
                 (removeFound key (m._hashTable.getD (_hash hash m key) [])),
              _size := m._size - 1 } : HashMap K V) hwf.1
  simp only [] at hlow
  have htab : (erase hash m key).1._hashTable
      = m._hashTable.map (List.filter (fun p => !decide (p.1 = key))) := by
    rw [← erase_table hash hveq hwf key]
    unfold erase
    simp only [hpres, Bool.not_true, Bool.false_eq_true, if_false]
    rw [if_neg]
    rw [Bool.and_eq_true]
    rintro ⟨h1, h2⟩
    exact hnoshrink ⟨hlow.mp h1, by simpa [capacity, MINIMAL_CAPACITY] using h2⟩
  refine ⟨ho.1.filter _, ?_, ?_⟩
  · intro k
    rw [List.mem_filter, ho.2.1 k, contains_key_iff hash hwf1, contains_key_iff hash hwf]
    constructor
    · rintro ⟨⟨v, hv⟩, hk⟩
      refine ⟨v, hperm.mem_iff.mpr (List.mem_filter.mpr ⟨hv, ?_⟩)⟩
      simpa using hk
    · rintro ⟨v, hv⟩
      have := List.mem_filter.mp (hperm.mem_iff.mp hv)
      exact ⟨⟨v, this.1⟩, by simpa using this.2⟩
  · intro i
    rw [htab, getD_map_table _ _ (by simp)]
    have e : ((m._hashTable.getD i []).filter (fun p => !decide (p.1 = key))).map Prod.fst
        = ((m._hashTable.getD i []).map Prod.fst).filter (fun k => !decide (k = key)) := by
      rw [List.filter_map]
      rfl
    rw [e]
    exact (ho.2.2 i).filter _

/-- An `erase` that rehashes to the halved capacity leaves every bucket in the
order of the traversal of the table before the erase. -/
theorem orderInv_erase_halving [ValueEq V] (hveq : ∀ v : V, ValueEq.veq v v = true)
    {m : HashMap K V} (hwf : WellFormed hash m) (key : K)
    (hpres : contains_key hash m key = true)
    (hcap : capacity (erase hash m key).1 < capacity m) :
    OrderInv hash (erase hash m key).1
      (((entries m).map Prod.fst).filter (fun k => !decide (k = key))) := by
  obtain ⟨-, hwf1, hperm, -, hcapeq⟩ := erase_present hash hveq hwf key hpres
  obtain ⟨hwfr, hentr, -⟩ := wellFormed_remove hash hveq hwf key hpres
  have hshrink : 4 * (m._size - 1) < m._capacity ∧ 1 < m._capacity := by
    by_contra hs
    rw [if_neg hs] at hcapeq
    simp only [capacity] at hcap
    omega
  have hmapfil : ((entries m).filter (fun p => !decide (p.1 = key))).map Prod.fst
      = ((entries m).map Prod.fst).filter (fun k => !decide (k = key)) := by
    rw [List.filter_map]
    rfl
  have htab : (erase hash m key).1 = _rehash hash ({ m with
      _hashTable := m._hashTable.set (_hash hash m key)
        (removeFound key (m._hashTable.getD (_hash hash m key) [])),
      _size := m._size - 1 } : HashMap K V) (m._capacity / 2) := by
    rw [erase_present_table hash m key hwf.1 hpres, if_pos hshrink]
  refine ⟨hwf.2.2.2.1.filter _, ?_, ?_⟩
  · intro k
    rw [← hmapfil, contains_key_iff hash hwf1]
    constructor
    · intro hk
      obtain ⟨p, hp, rfl⟩ := List.mem_map.mp hk
      exact ⟨p.2, hperm.mem_iff.mpr hp⟩
    · rintro ⟨v, hv⟩
      exact List.mem_map.mpr ⟨(k, v), hperm.mem_iff.mp hv, rfl⟩
  · intro i
    rw [htab, ← hmapfil, rehash_table hash _ _ hwfr.2.1]
    by_cases hi : i < m._capacity / 2
    · rw [getD_rehashBucket hash _ _ _ i (by rw [List.length_replicate]; exact hi),
        getD_replicate_nil, List.nil_append]
      simp only [entries] at hentr ⊢
      rw [hentr]
      exact (List.filter_sublist _).map Prod.fst
    · rw [List.getD_eq_default _ _
        (by rw [length_rehashBucket, List.length_replicate]; exact Nat.le_of_not_lt hi)]
      exact List.nil_sublist _

end OrderLemmas

section OrderListLemmas

variable {K V : Type} [DecidableEq K] [DecidableEq V]

theorem nodup_order_add (order : List K) (key : K) (h : order.Nodup) :
    (if key ∈ order then order else order ++ [key]).Nodup := by
  split
  · exact h
  · rename_i hn
    rw [List.nodup_append]
    refine ⟨h, List.nodup_singleton _, ?_⟩
    intro a ha hb
    rw [List.mem_singleton] at hb
    exact hn (hb ▸ ha)

theorem mem_order_add (order : List K) (key k : K) :
    k ∈ (if key ∈ order then order else order ++ [key]) ↔ k ∈ order ∨ k = key := by
  split
  · rename_i h
    constructor
    · exact Or.inl
    · rintro (h1 | rfl)
      · exact h1
      · exact h
  · simp [List.mem_append]

theorem nodup_orderStep (order : List K) (op : Op K V) (h : order.Nodup) :
    (orderStep order op).Nodup := by
  cases op with
  | subscriptAssign key val => exact nodup_order_add order key h
  | insert key val => exact nodup_order_add order key h
  | erase key => exact h.filter _
  | clear => exact List.nodup_nil

theorem nodup_foldl_orderStep (ops : List (Op K V)) :
    ∀ order : List K, order.Nodup → (ops.foldl orderStep order).Nodup := by
  induction ops with
  | nil => intro order h; exact h
  | cons op ops ih =>
    intro order h
    exact ih _ (nodup_orderStep order op h)

/-- The insertion-order list and the reference map have the same keys. -/
theorem mem_orderStep_iff (order : List K) (r : RefMap K V) (op : Op K V)
    (h : ∀ k, k ∈ order ↔ k ∈ RefMap.keys r) :
    ∀ k, k ∈ orderStep order op ↔ k ∈ RefMap.keys (RefMap.step r op) := by
  intro k
  cases op with
  | subscriptAssign key val =>
    show k ∈ (if key ∈ order then order else order ++ [key]) ↔
      k ∈ RefMap.keys ((key, val) :: r.filter (fun p => !decide (p.1 = key)))
    rw [mem_order_add, h k, RefMap.mem_keys_iff, RefMap.mem_keys_iff]
    constructor
    · rintro (⟨v, hv⟩ | rfl)
      · by_cases hk : k = key
        · subst hk
          exact ⟨val, List.mem_cons_self _ _⟩
        · exact ⟨v, List.mem_cons_of_mem _ (List.mem_filter.mpr ⟨hv, by simpa using hk⟩)⟩
      · exact ⟨val, List.mem_cons_self _ _⟩
    · rintro ⟨v, hv⟩
      rcases List.mem_cons.mp hv with h1 | h1
      · exact Or.inr (Prod.mk.inj h1).1
      · exact Or.inl ⟨v, (List.mem_filter.mp h1).1⟩
  | insert key val =>
    show k ∈ (if key ∈ order then order else order ++ [key]) ↔
      k ∈ RefMap.keys (if key ∈ RefMap.keys r then r else (key, val) :: r)
    rw [mem_order_add, h k]
    by_cases hin : key ∈ RefMap.keys r
    · rw [if_pos hin]
      constructor
      · rintro (h1 | rfl)
        · exact h1
        · exact hin
      · exact Or.inl
    · rw [if_neg hin, RefMap.mem_keys_iff, RefMap.mem_keys_iff]
      constructor
      · rintro (⟨v, hv⟩ | rfl)
        · exact ⟨v, List.mem_cons_of_mem _ hv⟩
        · exact ⟨val, List.mem_cons_self _ _⟩
      · rintro ⟨v, hv⟩
        rcases List.mem_cons.mp hv with h1 | h1
        · exact Or.inr (Prod.mk.inj h1).1
        · exact Or.inl ⟨v, h1⟩
  | erase key =>
    show k ∈ order.filter (fun k => !decide (k = key)) ↔
      k ∈ RefMap.keys (r.filter (fun p => !decide (p.1 = key)))
    rw [List.mem_filter, h k, RefMap.mem_keys_iff, RefMap.mem_keys_iff]
    constructor
    · rintro ⟨⟨v, hv⟩, hk⟩
      exact ⟨v, List.mem_filter.mpr ⟨hv, hk⟩⟩
    · rintro ⟨v, hv⟩
      have := List.mem_filter.mp hv
      exact ⟨⟨v, this.1⟩, this.2⟩
  | clear =>
    show k ∈ ([] : List K) ↔ k ∈ RefMap.keys ([] : RefMap K V)
    simp [RefMap.keys]

theorem mem_foldl_orderStep_iff (ops : List (Op K V)) :
    ∀ (order : List K) (r : RefMap K V), (∀ k, k ∈ order ↔ k ∈ RefMap.keys r) →
      ∀ k, k ∈ ops.foldl orderStep order ↔ k ∈ RefMap.keys (RefMap.run r ops) := by
  induction ops with
  | nil => intro order r h k; exact h k
  | cons op ops ih =>
    intro order r h k
    exact ih _ _ (mem_orderStep_iff order r op h) k

theorem agreeOutside_add (kept p i : List K) (key : K) (h : AgreeOutside kept p i) :
    AgreeOutside kept (if key ∈ p then p else p ++ [key])
      (if key ∈ i then i else i ++ [key]) := by
  have hp1 := nodup_order_add p key h.1
  have hi1 := nodup_order_add i key h.2.1
  obtain ⟨hp, hi, hmem, hkept, hpair⟩ := h
  by_cases hin : key ∈ p
  · rw [if_pos hin, if_pos ((hmem key).mp hin)]
    exact ⟨hp, hi, hmem, hkept, hpair⟩
  · have hin2 : key ∉ i := fun hc => hin ((hmem key).mpr hc)
    rw [if_neg hin] at hp1 ⊢
    rw [if_neg hin2] at hi1 ⊢
    refine ⟨hp1, hi1, ?_, ?_, ?_⟩
    · intro k
      simp only [List.mem_append, List.mem_singleton, hmem k]
    · intro k hk
      exact List.mem_append_left _ (hkept k hk)
    · intro a b ha hb hnot
      have hlast : ∀ (l : List K) (x : K), x ∈ l → [x, key].Sublist (l ++ [key]) :=
        fun l x hx => (List.singleton_sublist.mpr hx).append (List.Sublist.refl [key])
      have hfirst : ∀ (l : List K), (l ++ [key]).Nodup → ∀ y, y ∈ l ++ [key] →
          ¬ [key, y].Sublist (l ++ [key]) := by
        intro l hl y hy hs
        by_cases hyk : y = key
        · subst hyk
          exact pair_sublist_asymm y y _ hl hs hs
        · have hyl : y ∈ l := by
            rcases List.mem_append.mp hy with h1 | h1
            · exact h1
            · exact absurd (List.mem_singleton.mp h1) hyk
          exact pair_sublist_asymm y key _ hl (hlast l y hyl) hs
      have hb2 : b ∈ i ++ [key] := by
        simpa only [List.mem_append, List.mem_singleton, hmem b] using hb
      rcases List.mem_append.mp ha with ha | ha
      · rcases List.mem_append.mp hb with hb | hb
        · rw [← pair_sublist_iff_of_sublist (List.sublist_append_left p [key]) hp1 a b ha hb,
            ← pair_sublist_iff_of_sublist (List.sublist_append_left i [key]) hi1 a b
              ((hmem a).mp ha) ((hmem b).mp hb)]
          exact hpair a b ha hb hnot
        · rw [List.mem_singleton] at hb
          rw [hb]
          exact ⟨fun _ => hlast i a ((hmem a).mp ha), fun _ => hlast p a ha⟩
      · rw [List.mem_singleton] at ha
        rw [ha]
        exact ⟨fun hs => absurd hs (hfirst p hp1 b hb), fun hs => absurd hs (hfirst i hi1 b hb2)⟩

/-- One operation keeps the insertion order and a list that agrees with it
outside `kept` in agreement outside the keys of `kept` that stay stored. -/
theorem agreeOutside_step (kept p i : List K) (op : Op K V) (h : AgreeOutside kept p i) :
    AgreeOutside (keptStep kept op) (orderStep p op) (orderStep i op) := by
  cases op with
  | subscriptAssign key val => exact agreeOutside_add kept p i key h
  | insert key val => exact agreeOutside_add kept p i key h
  | erase key =>
    obtain ⟨hp, hi, hmem, hkept, hpair⟩ := h
    show AgreeOutside (kept.filter (fun k => !decide (k = key)))
      (p.filter (fun k => !decide (k = key))) (i.filter (fun k => !decide (k = key)))
    refine ⟨hp.filter _, hi.filter _, ?_, ?_, ?_⟩
    · intro k
      simp only [List.mem_filter, hmem k]
    · intro k hk
      have := List.mem_filter.mp hk
      exact List.mem_filter.mpr ⟨hkept k this.1, this.2⟩
    · intro a b ha hb hnot
      have ha1 := List.mem_filter.mp ha
      have hb1 := List.mem_filter.mp hb
      rw [pair_sublist_iff_of_sublist (List.filter_sublist _) hp a b ha hb,
        pair_sublist_iff_of_sublist (List.filter_sublist _) hi a b
          (List.mem_filter.mpr ⟨(hmem a).mp ha1.1, ha1.2⟩)
          (List.mem_filter.mpr ⟨(hmem b).mp hb1.1, hb1.2⟩)]
      apply hpair a b ha1.1 hb1.1
      rintro ⟨h1, h2⟩
      exact hnot ⟨List.mem_filter.mpr ⟨h1, ha1.2⟩, List.mem_filter.mpr ⟨h2, hb1.2⟩⟩
  | clear =>
    exact ⟨List.nodup_nil, List.nodup_nil, fun k => Iff.rfl,
      fun k hk => absurd hk (List.not_mem_nil _), fun a b ha => absurd ha (List.not_mem_nil _)⟩

theorem agreeOutside_foldl (ops : List (Op K V)) :
    ∀ kept p i : List K, AgreeOutside kept p i →
      AgreeOutside (ops.foldl keptStep kept) (ops.foldl orderStep p)
        (ops.foldl orderStep i) := by
  induction ops with
  | nil => intro kept p i h; exact h
  | cons op ops ih =>
    intro kept p i h
    exact ih _ _ _ (agreeOutside_step kept p i op h)

end OrderListLemmas

section OrderRunLemmas

variable {K V : Type} [DecidableEq K] [DecidableEq V] (hash : K → Nat)

theorem orderInv_default : OrderInv hash (mkDefault : HashMap K V) ([] : List K) := by
  refine ⟨List.nodup_nil, ?_, ?_⟩
  · intro k
    rw [contains_key_of_size_zero hash mkDefault rfl k]
    simp
  · intro i
    simp only [mkDefault, getD_replicate_nil]
    exact List.Sublist.refl _

theorem run_append [Inhabited V] [ValueEq V] (pre post : List (Op K V)) :
    ∀ m mid : HashMap K V, run hash m pre = .ok mid →
      run hash m (pre ++ post) = run hash mid post := by
  induction pre with
  | nil =>
    intro m mid h
    simp only [run, Except.ok.injEq] at h
    subst h
    rfl
  | cons op pre ih =>
    intro m mid h
    cases hs : step hash m op with
    | error e => simp only [run, hs] at h; exact absurd h (by simp)
    | ok res =>
      obtain ⟨m2, flag⟩ := res
      simp only [run, hs] at h
      simp only [List.cons_append, run, hs]
      exact ih m2 mid h

/-- One operation keeps the buckets in placement order; for an `erase` this
needs an `operator==` of the values that holds of every value and itself. -/
theorem step_placement [Inhabited V] [ValueEq V] {m : HashMap K V} (h : Invariant hash m)
    (order : List K) (ho : OrderInv hash m order) (op : Op K V)
    (hveq : (∀ v : V, ValueEq.veq v v = true) ∨ ∀ key, op ≠ Op.erase key)
    (m1 : HashMap K V) (flag : Option Bool) (hstep : step hash m op = .ok (m1, flag)) :
    OrderInv hash m1 (placementStep hash m order op) ∧ Invariant hash m1 := by
  cases op with
  | insert key val =>
    simp only [step, Except.ok.injEq, Prod.mk.injEq] at hstep
    obtain ⟨rfl, -⟩ := hstep
    refine ⟨?_, invariant_insert hash h key val⟩
    show OrderInv hash _ (orderStep order (Op.insert key val))
    by_cases hc : contains_key hash m key = true
    · rw [insert_present hash m key val hc]
      simp only [orderStep, (ho.2.1 key).mpr hc, if_true]
      exact ho
    · have hnot : key ∉ order := fun hin => hc ((ho.2.1 key).mp hin)
      simp only [orderStep, hnot, if_false]
      exact orderInv_insert_absent hash h order ho key val (by simpa using hc)
  | erase key =>
    have hveq1 : ∀ v : V, ValueEq.veq v v = true := by
      rcases hveq with hv | hv
      · exact hv
      · exact absurd rfl (hv key)
    simp only [step, Except.ok.injEq, Prod.mk.injEq] at hstep
    obtain ⟨rfl, -⟩ := hstep
    refine ⟨?_, invariant_erase hash hveq1 h key⟩
    by_cases hc : contains_key hash m key = true
    · by_cases hcap : capacity (erase hash m key).1 < capacity m
      · simp only [placementStep, hcap, if_true]
        exact orderInv_erase_halving hash hveq1 h.1 key hc hcap
      · simp only [placementStep, hcap, if_false]
        exact orderInv_erase_present hash hveq1 h.1 order ho key hc (Nat.le_of_not_lt hcap)
    · have habs : contains_key hash m key = false := by simpa using hc
      have hnot : key ∉ order := fun hin => hc ((ho.2.1 key).mp hin)
      have hfil : order.filter (fun k => !decide (k = key)) = order := by
        apply List.filter_eq_self.mpr
        intro a ha
        simp only [Bool.not_eq_true', decide_eq_false_iff_not]
        intro hak
        exact hnot (hak ▸ ha)
      simp only [placementStep, erase_absent hash m key habs, lt_irrefl, if_false, orderStep,
        hfil]
      exact ho
  | clear =>
    simp only [step, Except.ok.injEq, Prod.mk.injEq] at hstep
    obtain ⟨rfl, -⟩ := hstep
    exact ⟨orderInv_clear hash h.1.2.1, invariant_clear hash h⟩
  | subscriptAssign key val =>
    obtain ⟨r, hok, hloc⟩ := subscriptAssign_spec hash h.1 key val
    simp only [step, hok, Except.ok.injEq, Prod.mk.injEq] at hstep
    obtain ⟨rfl, -⟩ := hstep
    refine ⟨?_, invariant_subscriptAssign hash h key val hok⟩
    show OrderInv hash _ (orderStep order (Op.subscriptAssign key val))
    have hsub := (subscript_spec hash h.1 key).1
    have hinner : WellFormed hash (subscript hash m key).1 ∧
        OrderInv hash (subscript hash m key).1
          (orderStep order (Op.subscriptAssign key val)) := by
      rw [hsub]
      by_cases hc : contains_key hash m key = true
      · rw [if_pos hc]
        simp only [orderStep, (ho.2.1 key).mpr hc, if_true]
        exact ⟨h.1, ho⟩
      · have hnot : key ∉ order := fun hin => hc ((ho.2.1 key).mp hin)
        rw [if_neg hc]
        simp only [orderStep, hnot, if_false]
        exact ⟨(insert_absent hash h.1 key default (by simpa using hc)).2.1,
          orderInv_insert_absent hash h order ho key default (by simpa using hc)⟩
    exact orderInv_writeRef hash hinner.1 _ hinner.2 key val r.bucketIdx r.pos hloc

/-- A run keeps the buckets in placement order, when it holds no `erase` or
`operator==` of the values holds of every value and itself. -/
theorem run_placement [Inhabited V] [ValueEq V] (ops : List (Op K V)) :
    ((∀ v : V, ValueEq.veq v v = true) ∨ ∀ key, Op.erase key ∉ ops) →
    ∀ (m : HashMap K V) (order : List K), Invariant hash m → OrderInv hash m order →
      ∀ m1, run hash m ops = .ok m1 →
      OrderInv hash m1 (placementOrder hash m order ops) ∧ Invariant hash m1 := by
  induction ops with
  | nil =>
    intro _ m order h ho m1 hrun
    simp only [run, Except.ok.injEq] at hrun
    subst hrun
    exact ⟨ho, h⟩
  | cons op ops ih =>
    intro hveq m order h ho m1 hrun
    have hhead : (∀ v : V, ValueEq.veq v v = true) ∨ ∀ key, op ≠ Op.erase key := by
      rcases hveq with hv | hv
      · exact Or.inl hv
      · exact Or.inr (fun key heq => hv key (heq ▸ List.mem_cons_self _ _))
    have htail : (∀ v : V, ValueEq.veq v v = true) ∨ ∀ key, Op.erase key ∉ ops := by
      rcases hveq with hv | hv
      · exact Or.inl hv
      · exact Or.inr (fun key hmem => hv key (List.mem_cons_of_mem _ hmem))
    cases hs : step hash m op with
    | error e => simp only [run, hs] at hrun; exact absurd hrun (by simp)
    | ok res =>
      obtain ⟨m2, flag⟩ := res
      simp only [run, hs] at hrun
      simp only [placementOrder, hs]
      obtain ⟨ho2, h2⟩ := step_placement hash h order ho op hhead m2 flag hs
      exact ih htail m2 _ h2 ho2 m1 hrun

/-- An operation that does not lower the capacity acts on the placement order
as on the insertion order. -/
theorem placementStep_of_le [Inhabited V] [ValueEq V] (m : HashMap K V) (order : List K)
    (op : Op K V) (m1 : HashMap K V) (flag : Option Bool)
    (hstep : step hash m op = .ok (m1, flag)) (hcap : capacity m ≤ capacity m1) :
    placementStep hash m order op = orderStep order op := by
  cases op with
  | erase key =>
    simp only [step, Except.ok.injEq, Prod.mk.injEq] at hstep
    obtain ⟨rfl, -⟩ := hstep
    simp only [placementStep]
    rw [if_neg (Nat.not_lt.mpr hcap)]
  | insert key val => rfl
  | subscriptAssign key val => rfl
  | clear => rfl

/-- In a run without halving the placement order is the insertion order. -/
theorem placementOrder_of_noHalving [Inhabited V] [ValueEq V] (ops : List (Op K V)) :
    ∀ (m : HashMap K V) (order : List K) (m1 : HashMap K V), run hash m ops = .ok m1 →
      NoHalving hash m ops = true →
      placementOrder hash m order ops = ops.foldl orderStep order := by
  induction ops with
  | nil => intro m order m1 _ _; rfl
  | cons op ops ih =>
    intro m order m1 hrun hno
    cases hs : step hash m op with
    | error e => simp only [run, hs] at hrun; exact absurd hrun (by simp)
    | ok res =>
      obtain ⟨m2, flag⟩ := res
      simp only [run, hs] at hrun
      simp only [NoHalving, hs, Bool.and_eq_true, decide_eq_true_eq] at hno
      simp only [placementOrder, hs, List.foldl_cons]
      rw [placementStep_of_le hash m order op m2 flag hs hno.1]
      exact ih m2 _ m1 hrun hno.2

theorem placementOrder_append [Inhabited V] [ValueEq V] (pre post : List (Op K V)) :
    ∀ (m : HashMap K V) (order : List K) (mid : HashMap K V), run hash m pre = .ok mid →
      placementOrder hash m order (pre ++ post) =
        placementOrder hash mid (placementOrder hash m order pre) post := by
  induction pre with
  | nil =>
    intro m order mid h
    simp only [run, Except.ok.injEq] at h
    subst h
    rfl
  | cons op pre ih =>
    intro m order mid h
    cases hs : step hash m op with
    | error e => simp only [run, hs] at h; exact absurd h (by simp)
    | ok res =>
      obtain ⟨m2, flag⟩ := res
      simp only [run, hs] at h
      simp only [List.cons_append, placementOrder, hs]
      exact ih m2 _ mid h

/-- A run without halving keeps the buckets in insertion order. -/
theorem run_orderInv [Inhabited V] [ValueEq V] (ops : List (Op K V))
    (hveq : (∀ v : V, ValueEq.veq v v = true) ∨ ∀ key, Op.erase key ∉ ops)
    (m : HashMap K V) (order : List K) (h : Invariant hash m) (ho : OrderInv hash m order)
    (hno : NoHalving hash m ops = true) (m1 : HashMap K V) (hrun : run hash m ops = .ok m1) :
    OrderInv hash m1 (ops.foldl orderStep order) ∧ Invariant hash m1 := by
  have := run_placement hash ops hveq m order h ho m1 hrun
  rwa [placementOrder_of_noHalving hash ops m order m1 hrun hno] at this

/-- Two keys of one bucket: the traversal and the insertion order list them in
the same order. -/
theorem visit_order_iff {m : HashMap K V} (hwf : WellFormed hash m) (order : List K)
    (ho : OrderInv hash m order) (k1 k2 : K) (h1 : contains_key hash m k1 = true)
    (h2 : contains_key hash m k2 = true) (hb : _hash hash m k1 = _hash hash m k2) :
    [k1, k2].Sublist ((entries m).map Prod.fst) ↔ [k1, k2].Sublist order := by
  obtain ⟨v1, hv1⟩ := (contains_key_iff hash hwf k1).mp h1
  obtain ⟨v2, hv2⟩ := (contains_key_iff hash hwf k2).mp h2
  have hm1 : k1 ∈ (m._hashTable.getD (_hash hash m k1) []).map Prod.fst :=
    List.mem_map.mpr ⟨(k1, v1), (hwf.mem_bucket_iff hash (k1, v1)).mpr hv1, rfl⟩
  have hm2 : k2 ∈ (m._hashTable.getD (_hash hash m k1) []).map Prod.fst := by
    rw [hb]
    exact List.mem_map.mpr ⟨(k2, v2), (hwf.mem_bucket_iff hash (k2, v2)).mpr hv2, rfl⟩
  have hsub : ((m._hashTable.getD (_hash hash m k1) []).map Prod.fst).Sublist
      ((entries m).map Prod.fst) := by
    have hi := hwf.index_lt hash k1
    rw [getD_of_lt _ _ hi]
    exact (List.sublist_flatten_of_mem (List.getElem_mem hi)).map Prod.fst
  rw [← pair_sublist_iff_of_sublist hsub hwf.2.2.2.1 k1 k2 hm1 hm2,
    pair_sublist_iff_of_sublist (ho.2.2 _) ho.1 k1 k2 hm1 hm2]

end OrderRunLemmas

/-! ## The contract: copy, bucket queries, traversal -/

section ContractTraversal

variable {K V : Type} [DecidableEq K] [DecidableEq V]

/-- Claim C21. Copy-assignment from a well-formed source `s` into any table `t`,
and copy construction from `s`, yield a table with the capacity, the size and
every bucket of `s`, which compares equal to `s`; the source is a value of the
embedding and stays as it is; self-assignment returns the table as it is. -/
theorem copy_contract [Inhabited V] (hash : K → Nat) (s t m : HashMap K V)
    (hs : WellFormed hash s) :
    assign t s false = s ∧
    capacity (assign t s false) = capacity s ∧
    size (assign t s false) = size s ∧
    (∀ i, (assign t s false)._hashTable.getD i [] = s._hashTable.getD i []) ∧
    equals hash (assign t s false) s = .ok true ∧
    copyConstruct s = s ∧
    equals hash (copyConstruct s) s = .ok true ∧
    assign m m true = m := by
  have h1 : assign t s false = s := by
    simp only [assign, Bool.false_eq_true, if_false]
    exact copyFrom_eq t s hs.2.1
  have h2 : copyConstruct s = s := by
    simp only [copyConstruct, assign, Bool.false_eq_true, if_false]
    exact copyFrom_eq mkDefault s hs.2.1
  refine ⟨h1, by rw [h1], by rw [h1], fun i => by rw [h1], ?_, h2, ?_, rfl⟩
  · rw [h1]
    exact equals_self hash s hs
  · rw [h2]
    exact equals_self hash s hs

/-- Witness of C21: the `operator=` test assigns the table of 13 entries to a
default table. -/
theorem copy_contract_witness :
    WellFormed intHash eraseTestTable ∧
    assign (mkDefault : HashMap Int Int) eraseTestTable false = eraseTestTable ∧
    equals intHash (assign (mkDefault : HashMap Int Int) eraseTestTable false) eraseTestTable
      = .ok true ∧
    assign eraseTestTable eraseTestTable true = eraseTestTable :=
  ⟨by decide!,
    (copy_contract intHash eraseTestTable mkDefault eraseTestTable (by decide!)).1,
    (copy_contract intHash eraseTestTable mkDefault eraseTestTable (by decide!)).2.2.2.2.1,
    (copy_contract intHash eraseTestTable mkDefault eraseTestTable (by decide!)).2.2.2.2.2.2.2⟩

/-- Claim C22. On a well-formed table `bucket_index(k)` fails with `KeyNotFound`
iff `k` is absent; for a present `k` it returns `hash(k) & (capacity - 1)`, which
is below the capacity, holds the pair of `k`, and equals `hash(k) mod capacity`
when the capacity is a power of two. -/
theorem bucket_index_contract (hash : K → Nat) (m : HashMap K V) (k : K)
    (hwf : WellFormed hash m) :
    (bucket_index hash m k = .error .KeyNotFound ↔ contains_key hash m k = false) ∧
    (contains_key hash m k = true →
      bucket_index hash m k = .ok (hash k &&& (capacity m - 1)) ∧
      hash k &&& (capacity m - 1) < capacity m ∧
      ∃ v, (k, v) ∈ m._hashTable.getD (hash k &&& (capacity m - 1)) []) ∧
    ((∃ j, capacity m = 2 ^ j) → hash k &&& (capacity m - 1) = hash k % capacity m) := by
  refine ⟨?_, ?_, ?_⟩
  · cases hc : contains_key hash m k <;> simp [bucket_index, hc]
  · intro hc
    obtain ⟨v, hv⟩ := (contains_key_iff hash hwf k).mp hc
    refine ⟨by simp [bucket_index, hc, _hash], and_mask_lt _ _ hwf.1, v, ?_⟩
    exact (hwf.mem_bucket_iff hash (k, v)).mpr hv
  · rintro ⟨j, hj⟩
    rw [hj]
    exact Nat.and_pow_two_sub_one_eq_mod _ _

/-- Witness of C22: in the table of capacity 32 built from the keys `1..13` and
33, `bucket_index(i) = i` for `i` in `1..13` and `bucket_index(33) = 1`. -/
theorem bucket_index_contract_witness :
    mkFromRange intHash (keysUpTo 13 ++ [33]) (keysUpTo 13 ++ [19]) = .ok bucketTestTable ∧
    WellFormed intHash bucketTestTable ∧
    (keysUpTo 13).map (bucket_index intHash bucketTestTable)
      = (keysUpTo 13).map (fun i => .ok i.toNat) ∧
    bucket_index intHash bucketTestTable 33 = .ok 1 ∧
    bucket_index intHash bucketTestTable (-1) = .error .KeyNotFound :=
  ⟨by decide!, by decide!, by decide!,
    ((bucket_index_contract intHash bucketTestTable 33 (by decide!)).2.1 (by decide!)).1.trans
      (by decide!),
    (bucket_index_contract intHash bucketTestTable (-1) (by decide!)).1.mpr (by decide!)⟩

/-- Claim C23. On a well-formed table `bucket_size(k)` fails with `KeyNotFound`
iff `k` itself is absent, whatever the bucket it selects holds; for a present
`k` it returns the number of stored pairs whose bucket index is that of `k`,
which is at least 1. -/
theorem bucket_size_contract (hash : K → Nat) (m : HashMap K V) (k : K)
    (hwf : WellFormed hash m) :
    (bucket_size hash m k = .error .KeyNotFound ↔ contains_key hash m k = false) ∧
    (contains_key hash m k = true →
      bucket_size hash m k = .ok
        ((entries m).filter (fun p => decide (_hash hash m p.1 = _hash hash m k))).length ∧
      1 ≤ ((entries m).filter (fun p => decide (_hash hash m p.1 = _hash hash m k))).length) := by
  have hfil : (entries m).filter (fun p => decide (_hash hash m p.1 = _hash hash m k))
      = m._hashTable.getD (_hash hash m k) [] := hwf.filter_entries hash (_hash hash m k)
  refine ⟨?_, ?_⟩
  · cases hc : contains_key hash m k <;> simp [bucket_size, hc]
  · intro hc
    obtain ⟨v, hv⟩ := (contains_key_iff hash hwf k).mp hc
    rw [hfil]
    refine ⟨by simp [bucket_size, hc], ?_⟩
    exact List.length_pos_of_mem ((hwf.mem_bucket_iff hash (k, v)).mpr hv)

/-- Witness of C23: in the table of capacity 32 with the keys `1..13` and 33,
`bucket_size(1) = 2` and `bucket_size(i) = 1` for `i` in `2..13`; in the table
without key 33, `bucket_size(33)` fails although bucket 1 holds key 1. -/
theorem bucket_size_contract_witness :
    WellFormed intHash bucketTestTable ∧
    bucket_size intHash bucketTestTable 1 = .ok 2 ∧
    ((keysUpTo 13).drop 1).map (bucket_size intHash bucketTestTable)
      = ((keysUpTo 13).drop 1).map (fun _ => .ok 1) ∧
    eraseTestTable._hashTable.getD (_hash intHash eraseTestTable 33) [] = [(1, 13)] ∧
    bucket_size intHash eraseTestTable 33 = .error .KeyNotFound :=
  ⟨by decide!,
    ((bucket_size_contract intHash bucketTestTable 1 (by decide!)).2 (by decide!)).1.trans
      (by decide!),
    by decide!, by decide!,
    (bucket_size_contract intHash eraseTestTable 33 (by decide!)).1.mpr (by decide!)⟩

/-- Claim C24. Traversal of a well-formed table with `N` entries: the loop from
`begin()` that dereferences and increments while the iterator differs from
`end()` completes after exactly `N` dereferences, the pairs dereferenced are the
concatenation of bucket 0, bucket 1, ..., each in its list order, so each stored
pair occurs once, and the iterator after the `N`-th increment equals `end()`. -/
theorem traversal_visits_all (hash : K → Nat) (m : HashMap K V) (hwf : WellFormed hash m) :
    ∃ visited it, traverse m = some (visited, it) ∧
      visited = m._hashTable.flatten ∧
      visited.length = size m ∧
      visited.Nodup ∧
      (∀ p, p ∈ visited ↔ ∃ i, i < capacity m ∧ p ∈ m._hashTable.getD i []) ∧
      iterEq it (iterEnd m) = true ∧
      (∀ k, k < size m →
        ∃ itk, iterAfter m k = some itk ∧ iterEq itk (iterEnd m) = false) ∧
      (∃ itN, iterAfter m (size m) = some itN ∧ iterEq itN (iterEnd m) = true) := by
  obtain ⟨it, htrav, heq, -⟩ := traverse_spec hash m hwf
  have hsz : (entries m).length = m._size := hwf.2.2.2.2.symm
  refine ⟨entries m, it, htrav, rfl, hsz, List.Nodup.of_map _ hwf.2.2.2.1, ?_, heq, ?_, ?_⟩
  · intro p
    rw [entries, mem_flatten_iff_getD, hwf.2.1]
    rfl
  · intro k hk
    obtain ⟨itk, hk1, -, -, hcnt⟩ := iterAfter_spec m hwf.1 hwf.2.1 k
      (by rw [hsz]; exact Nat.le_of_lt hk)
    refine ⟨itk, hk1, ?_⟩
    simp only [iterEq, iterEnd, hcnt, beq_eq_false_iff_ne, ne_eq]
    exact Nat.ne_of_lt hk
  · obtain ⟨itN, hN, -, -, hcnt⟩ := iterAfter_spec m hwf.1 hwf.2.1 (size m)
      (by rw [hsz]; exact Nat.le_refl _)
    exact ⟨itN, hN, by simp only [iterEq, iterEnd, hcnt, beq_self_eq_true]⟩

/-- Witness of C24: the traversal of the table with the keys `1..13` and 33
visits 14 pairs, bucket 1 first with key 1 before key 33. -/
theorem traversal_visits_all_witness :
    WellFormed intHash bucketTestTable ∧
    (traverse bucketTestTable).map (fun r => r.1.map Prod.fst)
      = some [1, 33, 2, 3, 4, 5, 6, 7, 8, 9, 10, 11, 12, 13] ∧
    ∃ visited it, traverse bucketTestTable = some (visited, it) ∧
      visited = bucketTestTable._hashTable.flatten ∧
      visited.length = size bucketTestTable ∧
      iterEq it (iterEnd bucketTestTable) = true :=
  ⟨by decide!, by decide!,
    (traversal_visits_all intHash bucketTestTable (by decide!)).imp
      (fun _ h => h.imp (fun _ h1 => ⟨h1.1, h1.2.1, h1.2.2.1, h1.2.2.2.2.2.1⟩))⟩

end ContractTraversal

/-! ## The contract: order, rehash, invariants, iterator safety -/

section ContractInvariants

variable {K V : Type} [DecidableEq K] [DecidableEq V]

/-- Counterexample to C25 as stated: on the default table `insert(9, 9)`,
`insert(1, 1)`, `insert(2, 2)`, `erase(2)` leave capacity 8 with the keys 9 and 1
in bucket 1.  Key 9 was inserted before key 1, and the traversal visits key 1
before key 9: the halving rehash regroups the old buckets 1 and 9 in bucket
order. -/
theorem iteration_order_counterexample :
    run intHash mkDefault orderTestOps = .ok orderTestTable ∧
    capacity orderTestTable = 8 ∧
    contains_key intHash orderTestTable 9 = true ∧
    contains_key intHash orderTestTable 1 = true ∧
    _hash intHash orderTestTable 9 = _hash intHash orderTestTable 1 ∧
    insertionOrder orderTestOps = [9, 1] ∧
    [(9 : Int), 1].Sublist (insertionOrder orderTestOps) ∧
    (traverse orderTestTable).map (fun r => r.1.map Prod.fst) = some [1, 9] ∧
    ¬ [(9 : Int), 1].Sublist [1, 9] :=
  ⟨by decide!, by decide!, by decide!, by decide!, by decide!, by decide, by decide,
    by decide!, by decide⟩

/-- Claim C25, amended.  Every sequence of `insert`, `erase`, `clear` and
`m[key] = val` on the default table, for a value type whose `operator==` holds of
every value and itself, completes with a table in which two keys stored in the
same bucket are visited in placement order: the duplicate-free list of the
stored keys in which an inserted key goes to the end, an erased key leaves, and
an `erase` that halves the capacity replaces the list by the traversal order of
the table before it, which is the order in which `_rehash` places the pairs anew.
An `erase` changes the relative placement of two other keys only if it halves
the capacity and the two keys lay in different buckets before it.  After the
last halving the placement order evolves as the insertion order does, so the
traversal visits `k1` before `k2` iff `k1` was most recently inserted before
`k2`, unless both keys have stayed stored since before that halving; and without
any halving the placement order is the insertion order. -/
theorem iteration_order_by_placement [Inhabited V] [ValueEq V] (hash : K → Nat)
    (hveq : ∀ v : V, ValueEq.veq v v = true) (ops : List (Op K V)) :
    ∃ m : HashMap K V, run hash mkDefault ops = .ok m ∧
      (placementOrder hash mkDefault [] ops).Nodup ∧
      (∀ k, k ∈ placementOrder hash mkDefault [] ops ↔ contains_key hash m k = true) ∧
      (∀ k1 k2, contains_key hash m k1 = true → contains_key hash m k2 = true →
        _hash hash m k1 = _hash hash m k2 →
        ∃ visited it, traverse m = some (visited, it) ∧
          ([k1, k2].Sublist (visited.map Prod.fst) ↔
            [k1, k2].Sublist (placementOrder hash mkDefault [] ops))) ∧
      (∀ pre post mid, ops = pre ++ post → run hash mkDefault pre = .ok mid →
        NoHalving hash mid post = true →
        placementOrder hash mkDefault [] ops =
            post.foldl orderStep (placementOrder hash mkDefault [] pre) ∧
        ∀ k1 k2, contains_key hash m k1 = true → contains_key hash m k2 = true →
          _hash hash m k1 = _hash hash m k2 →
          ¬ (k1 ∈ post.foldl keptStep (placementOrder hash mkDefault [] pre) ∧
             k2 ∈ post.foldl keptStep (placementOrder hash mkDefault [] pre)) →
          ∃ visited it, traverse m = some (visited, it) ∧
            ([k1, k2].Sublist (visited.map Prod.fst) ↔
              [k1, k2].Sublist (insertionOrder ops))) ∧
      (∀ pre key mid, run hash mkDefault pre = .ok mid →
        ∀ k1 k2, k1 ≠ key → k2 ≠ key →
          contains_key hash mid k1 = true → contains_key hash mid k2 = true →
          (capacity (erase hash mid key).1 < capacity mid →
            _hash hash mid k1 = _hash hash mid k2) →
          ([k1, k2].Sublist
              (placementOrder hash mkDefault [] (pre ++ [(Op.erase key : Op K V)])) ↔
            [k1, k2].Sublist (placementOrder hash mkDefault [] pre))) ∧
      (NoHalving hash mkDefault ops = true →
        placementOrder hash mkDefault [] ops = insertionOrder ops) := by
  have hperm0 : (entries (mkDefault : HashMap K V)).Perm ([] : RefMap K V) := by
    simp [entries, mkDefault, flatten_replicate_nil]
  obtain ⟨m, hrun, hwf, hperm⟩ := run_sim hash ops (Or.inl hveq) mkDefault []
    (wellFormed_default hash) hperm0
  obtain ⟨ho, hinv⟩ := run_placement hash ops (Or.inl hveq) mkDefault []
    (invariant_default hash) (orderInv_default hash) m hrun
  obtain ⟨it, htrav, -, -⟩ := traverse_spec hash m hinv.1
  have hvisit : ∀ k1 k2, contains_key hash m k1 = true → contains_key hash m k2 = true →
      _hash hash m k1 = _hash hash m k2 →
      ([k1, k2].Sublist ((entries m).map Prod.fst) ↔
        [k1, k2].Sublist (placementOrder hash mkDefault [] ops)) :=
    fun k1 k2 h1 h2 hb => visit_order_iff hash hinv.1 _ ho k1 k2 h1 h2 hb
  refine ⟨m, hrun, ho.1, ho.2.1, ?_, ?_, ?_, ?_⟩
  · intro k1 k2 h1 h2 hb
    exact ⟨entries m, it, htrav, hvisit k1 k2 h1 h2 hb⟩
  · intro pre post mid hops hpre hno
    subst hops
    have hpost : run hash mid post = .ok m := by
      rw [← run_append hash pre post mkDefault mid hpre]
      exact hrun
    have hpo : placementOrder hash mkDefault [] (pre ++ post) =
        post.foldl orderStep (placementOrder hash mkDefault [] pre) := by
      rw [placementOrder_append hash pre post mkDefault [] mid hpre,
        placementOrder_of_noHalving hash post mid _ m hpost hno]
    refine ⟨hpo, ?_⟩
    intro k1 k2 h1 h2 hb hnot
    refine ⟨entries m, it, htrav, ?_⟩
    have hk1 : k1 ∈ post.foldl orderStep (placementOrder hash mkDefault [] pre) := by
      rw [← hpo]
      exact (ho.2.1 k1).mpr h1
    have hk2 : k2 ∈ post.foldl orderStep (placementOrder hash mkDefault [] pre) := by
      rw [← hpo]
      exact (ho.2.1 k2).mpr h2
    rw [hvisit k1 k2 h1 h2 hb, hpo]
    obtain ⟨hop, -⟩ := run_placement hash pre (Or.inl hveq) mkDefault []
      (invariant_default hash) (orderInv_default hash) mid hpre
    obtain ⟨mid1, hrun1, hwf1, hperm1⟩ := run_sim hash pre (Or.inl hveq) mkDefault []
      (wellFormed_default hash) hperm0
    rw [hpre] at hrun1
    injection hrun1 with hrun1
    subst hrun1
    have hcont := (sim_observers hash hwf1 hperm1).2.1
    have hins : ∀ k, k ∈ insertionOrder pre ↔
        k ∈ RefMap.keys (RefMap.run ([] : RefMap K V) pre) :=
      mem_foldl_orderStep_iff pre [] [] (fun k => by simp [RefMap.keys])
    have hagree0 : AgreeOutside (placementOrder hash mkDefault [] pre)
        (placementOrder hash mkDefault [] pre) (insertionOrder pre) :=
      ⟨hop.1, nodup_foldl_orderStep pre [] List.nodup_nil,
        fun k => by rw [hop.2.1 k, hcont k, hins k], fun k hk => hk,
        fun a b ha hb hn => absurd ⟨ha, hb⟩ hn⟩
    have hagree := agreeOutside_foldl post _ _ _ hagree0
    have hio : insertionOrder (pre ++ post) = post.foldl orderStep (insertionOrder pre) := by
      simp only [insertionOrder, List.foldl_append]
    rw [hio]
    exact hagree.2.2.2.2 k1 k2 hk1 hk2 hnot
  · intro pre key mid hpre k1 k2 hk1 hk2 h1 h2 hb
    obtain ⟨hop, hinvp⟩ := run_placement hash pre (Or.inl hveq) mkDefault []
      (invariant_default hash) (orderInv_default hash) mid hpre
    have hstepo : placementOrder hash mkDefault [] (pre ++ [Op.erase key]) =
        placementStep hash mid (placementOrder hash mkDefault [] pre) (Op.erase key) := by
      rw [placementOrder_append hash pre [Op.erase key] mkDefault [] mid hpre]
      simp only [placementOrder, step]
    rw [hstepo]
    have hne1 : (!decide (k1 = key)) = true := by simpa using hk1
    have hne2 : (!decide (k2 = key)) = true := by simpa using hk2
    by_cases hcap : capacity (erase hash mid key).1 < capacity mid
    · simp only [placementStep, hcap, if_true]
      have he : ∀ k, contains_key hash mid k = true → k ∈ (entries mid).map Prod.fst := by
        intro k hk
        obtain ⟨v, hv⟩ := (contains_key_iff hash hinvp.1 k).mp hk
        exact List.mem_map.mpr ⟨(k, v), hv, rfl⟩
      rw [pair_sublist_iff_of_sublist (List.filter_sublist _) hinvp.1.2.2.2.1 k1 k2
        (List.mem_filter.mpr ⟨he k1 h1, hne1⟩) (List.mem_filter.mpr ⟨he k2 h2, hne2⟩)]
      exact visit_order_iff hash hinvp.1 _ hop k1 k2 h1 h2 (hb hcap)
    · simp only [placementStep, hcap, if_false, orderStep]
      exact pair_sublist_iff_of_sublist (List.filter_sublist _) hop.1 k1 k2
        (List.mem_filter.mpr ⟨(hop.2.1 k1).mpr h1, hne1⟩)
        (List.mem_filter.mpr ⟨(hop.2.1 k2).mpr h2, hne2⟩)
  · intro hno
    exact placementOrder_of_noHalving hash ops mkDefault [] m hrun hno

/-- Witness of C25, amended.  In `insert(1, 1)`, `erase(1)`, `insert(1, 1)`,
`insert(9, 9)` the `erase` halves the capacity to 8 on the table it empties; the
keys 1 and 9 then share bucket 1 and are visited in the order of their
insertion, which is the placement order.  In `insert(9, 9)`, `insert(1, 1)`,
`insert(2, 2)`, `erase(2)` the halving places key 1 before key 9.  In the
fourteen insertions followed by `erase(17)` nothing halves the capacity. -/
theorem iteration_order_by_placement_witness :
    (∀ v : Int, ValueEq.veq v v = true) ∧
    (run intHash mkDefault orderRegrownOps).map
      (fun m => (capacity m, m._hashTable.getD 1 [])) = .ok (8, [(1, 1), (9, 9)]) ∧
    placementOrder intHash (mkDefault : HashMap Int Int) [] orderRegrownOps = [1, 9] ∧
    insertionOrder orderRegrownOps = [1, 9] ∧
    placementOrder intHash (mkDefault : HashMap Int Int) [] orderTestOps = [1, 9] ∧
    insertionOrder orderTestOps = [9, 1] ∧
    run intHash mkDefault orderKeptOps = .ok orderKeptTable ∧
    NoHalving intHash (mkDefault : HashMap Int Int) orderKeptOps = true ∧
    placementOrder intHash (mkDefault : HashMap Int Int) [] orderKeptOps
      = insertionOrder orderKeptOps ∧
    ∃ m : HashMap Int Int, run intHash mkDefault orderRegrownOps = .ok m ∧
      ∀ k1 k2, contains_key intHash m k1 = true → contains_key intHash m k2 = true →
        _hash intHash m k1 = _hash intHash m k2 →
        ∃ visited it, traverse m = some (visited, it) ∧
          ([k1, k2].Sublist (visited.map Prod.fst) ↔
            [k1, k2].Sublist (placementOrder intHash mkDefault [] orderRegrownOps)) :=
  ⟨fun _ => decide_eq_true rfl, by decide!, by decide!, by decide, by decide!, by decide,
    by decide!, by decide!, by decide!,
    (iteration_order_by_placement intHash (fun _ => decide_eq_true rfl) orderRegrownOps).imp
      (fun _ h => ⟨h.1, h.2.2.2.1⟩)⟩

/-- Claim C26. `_rehash(newCapacity)` of a well-formed table, for every
`newCapacity ≥ 1` and so for every power of two: the capacity becomes
`newCapacity`, the size stays, every key keeps its presence and value, and
bucket `j` is the subsequence of the old bucket-ascending traversal of the pairs
with `hash(key) & (newCapacity - 1) = j`, in traversal order. -/
theorem rehash_preserves_contents (hash : K → Nat) (m : HashMap K V) (newCapacity : Nat)
    (hwf : WellFormed hash m) (hc : 1 ≤ newCapacity) :
    capacity (_rehash hash m newCapacity) = newCapacity ∧
    size (_rehash hash m newCapacity) = size m ∧
    (∀ k, contains_key hash (_rehash hash m newCapacity) k = contains_key hash m k ∧
      atKey hash (_rehash hash m newCapacity) k = atKey hash m k) ∧
    (_rehash hash m newCapacity)._hashTable.length = newCapacity ∧
    (∀ j, j < newCapacity →
      (_rehash hash m newCapacity)._hashTable.getD j [] =
        (entries m).filter (fun p => decide (hash p.1 &&& (newCapacity - 1) = j))) ∧
    WellFormed hash (_rehash hash m newCapacity) := by
  obtain ⟨hwf1, hperm⟩ := wellFormed_rehash hash hwf.2.1 hwf.2.2.2.1 hwf.2.2.2.2 newCapacity hc
  refine ⟨rfl, rfl, ?_, hwf1.2.1, ?_, hwf1⟩
  · intro k
    exact lookup_congr hash hwf1 hwf k (fun v => hperm.mem_iff)
  · intro j hj
    rw [rehash_table hash m newCapacity hwf.2.1,
      getD_rehashBucket hash _ _ _ j (by rw [List.length_replicate]; exact hj),
      getD_replicate_nil, List.nil_append]

/-- Witness of C26: rehashing the erase test's table of eight entries from
capacity 32 to capacity 16. -/
theorem rehash_preserves_contents_witness :
    WellFormed intHash eraseTestTable8 ∧
    capacity (_rehash intHash eraseTestTable8 16) = 16 ∧
    size (_rehash intHash eraseTestTable8 16) = 8 ∧
    (_rehash intHash eraseTestTable8 16)._hashTable.getD 6 [] = [(6, 8)] ∧
    atKey intHash (_rehash intHash eraseTestTable8 16) 13 = atKey intHash eraseTestTable8 13 :=
  ⟨by decide!,
    (rehash_preserves_contents intHash eraseTestTable8 16 (by decide!) (by decide)).1,
    (rehash_preserves_contents intHash eraseTestTable8 16 (by decide!) (by decide)).2.1.trans
      (by decide),
    by decide!,
    ((rehash_preserves_contents intHash eraseTestTable8 16 (by decide!) (by decide)).2.2.1
      13).2⟩

/-- Claim C27, failing input.  On a `HashMap<int, double>` the operations
`insert(1, NaN)`, `erase(1)`, `insert(1, 5.0)` build a reachable table that
stores the key 1 twice in bucket 1.  The `erase` returns `true` and lowers
`_size` to 0 without removing the pair, since `std::list::remove` compares
with `operator==`, which a NaN fails; then `contains_key(1)` answers `false` on
the table it takes for empty, and `insert` appends a second pair. -/
theorem key_stored_twice_after_nan :
    Reachable intHash nanReinsertTable ∧
    run intHash (mkDefault : HashMap Int DoubleVal) nanReinsertOps = .ok nanReinsertTable ∧
    erase intHash nanSingleTable 1 = (nanErasedTable, true) ∧
    contains_key intHash nanErasedTable 1 = false ∧
    insert intHash nanErasedTable 1 (.num 5) = (nanReinsertTable, true) ∧
    nanReinsertTable._hashTable.getD 1 [] = [(1, .nan), (1, .num 5)] ∧
    ¬ ((entries nanReinsertTable).map Prod.fst).Nodup ∧
    ¬ ((nanReinsertTable._hashTable.getD 1 []).map Prod.fst).Nodup := by
  have heq : (insert intHash (erase intHash (insert intHash
      (mkDefault : HashMap Int DoubleVal) 1 .nan).1 1).1 1 (.num 5)).1 = nanReinsertTable := by
    decide!
  refine ⟨?_, by decide!, by decide!, by decide!, by decide!, by decide!, by decide!,
    by decide!⟩
  rw [← heq]
  apply Reachable.insert
  apply Reachable.erase
  apply Reachable.insert
  exact Reachable.default

/-- Key uniqueness for a value type whose `operator==` holds of every value and
itself: in every reachable table no key occurs in two stored pairs, neither
twice in one bucket nor in two buckets. -/
theorem key_uniqueness [Inhabited V] [ValueEq V] (hash : K → Nat)
    (hveq : ∀ v : V, ValueEq.veq v v = true) (m : HashMap K V)
    (hr : Reachable hash m) :
    ((entries m).map Prod.fst).Nodup ∧
    (∀ i, ((m._hashTable.getD i []).map Prod.fst).Nodup) ∧
    (∀ i j p q, p ∈ m._hashTable.getD i [] → q ∈ m._hashTable.getD j [] → p.1 = q.1 →
      i = j ∧ p = q) := by
  have hwf := (Reachable.invariant hash hveq hr).1
  refine ⟨hwf.2.2.2.1, fun i => nodup_keys_bucket hash hwf i, ?_⟩
  intro i j p q hp hq hk
  have hi : i < m._hashTable.length := by
    by_contra hcon
    rw [List.getD_eq_default _ _ (Nat.le_of_not_lt hcon)] at hp
    exact absurd hp (List.not_mem_nil _)
  have hj : j < m._hashTable.length := by
    by_contra hcon
    rw [List.getD_eq_default _ _ (Nat.le_of_not_lt hcon)] at hq
    exact absurd hq (List.not_mem_nil _)
  have h1 := hwf.2.2.1 i hi p hp
  have h2 := hwf.2.2.1 j hj q hq
  refine ⟨by rw [← h1, ← h2, hk], ?_⟩
  exact List.inj_on_of_nodup_map hwf.2.2.2.1
    ((mem_flatten_iff_getD _ _).mpr ⟨i, hi, hp⟩) ((mem_flatten_iff_getD _ _).mpr ⟨j, hj, hq⟩) hk

/-- Claim C28. Bucket placement: in every reachable table each stored pair lies
in the bucket `hash(key) & (capacity - 1)` of the current capacity, also after a
`_rehash` of it to any capacity from 1 on; so the scan of that one bucket by
`at` finds a pair for every stored key, and so does the scan by `contains_key`
on a table that `empty()` does not take for empty.  For a value type whose
`operator==` holds of every value and itself, `contains_key` and `at` answer
exactly by the stored pairs. -/
theorem bucket_placement [Inhabited V] [ValueEq V] (hash : K → Nat) (m : HashMap K V)
    (hr : Reachable hash m) :
    (∀ i p, p ∈ m._hashTable.getD i [] → i = hash p.1 &&& (capacity m - 1)) ∧
    (∀ k v, (k, v) ∈ entries m → (k, v) ∈ m._hashTable.getD (hash k &&& (capacity m - 1)) []) ∧
    (∀ c, 1 ≤ c → ∀ i p, p ∈ (_rehash hash m c)._hashTable.getD i [] →
      i = hash p.1 &&& (capacity (_rehash hash m c) - 1)) ∧
    (∀ k v, (k, v) ∈ entries m →
      (∃ w, atKey hash m k = .ok w ∧ (k, w) ∈ entries m) ∧
      (empty m = false → contains_key hash m k = true)) ∧
    ((∀ v : V, ValueEq.veq v v = true) →
      (∀ k, contains_key hash m k = true ↔ ∃ v, (k, v) ∈ entries m) ∧
      (∀ k v, atKey hash m k = .ok v ↔ (k, v) ∈ entries m)) := by
  have hl := Reachable.layout hash hr
  have hplace : ∀ (t : HashMap K V),
      (∀ i < t._hashTable.length, ∀ p ∈ t._hashTable.getD i [],
        hash p.1 &&& (t._capacity - 1) = i) →
      ∀ i p, p ∈ t._hashTable.getD i [] → i = hash p.1 &&& (capacity t - 1) := by
    intro t ht i p hp
    have hi : i < t._hashTable.length := by
      by_contra hcon
      rw [List.getD_eq_default _ _ (Nat.le_of_not_lt hcon)] at hp
      exact absurd hp (List.not_mem_nil _)
    exact (ht i hi p hp).symm
  refine ⟨hplace m hl.2.2.1, ?_, ?_, fun k v hkv => layout_scan hash hl k v hkv, ?_⟩
  · intro k v hkv
    obtain ⟨i, hi, hpi⟩ := (mem_flatten_iff_getD _ _).mp hkv
    have := hl.2.2.1 i hi (k, v) hpi
    simp only [capacity]
    rw [this]
    exact hpi
  · intro c _
    exact hplace _ (placed_rehash hash m hl.2.1 c).2
  · intro hveq
    have hwf := (Reachable.invariant hash hveq hr).1
    exact ⟨contains_key_iff hash hwf, atKey_eq_ok_iff hash hwf⟩

/-- Witness of C28: the table of the erase test. -/
theorem bucket_placement_witness :
    Reachable intHash eraseTestTable ∧
    ∀ i p, p ∈ eraseTestTable._hashTable.getD i [] →
      i = intHash p.1 &&& (capacity eraseTestTable - 1) :=
  ⟨eraseTestTable_reachable, (bucket_placement intHash eraseTestTable eraseTestTable_reachable).1⟩

/-- Claim C29, failing input.  On a `HashMap<int, double>` the operations
`insert(1, NaN)`, `erase(1)` build a reachable table with `size()` 0 and one
stored pair: `erase` returns `true` and lowers the counter by one while
`std::list::remove`, which compares with `operator==`, removes no pair from the
bucket. -/
theorem size_counter_off_after_nan :
    Reachable intHash nanErasedTable ∧
    run intHash (mkDefault : HashMap Int DoubleVal) [Op.insert 1 .nan, Op.erase 1]
      = .ok nanErasedTable ∧
    size nanSingleTable = (entries nanSingleTable).length ∧
    erase intHash nanSingleTable 1 = (nanErasedTable, true) ∧
    removeFound 1 (nanSingleTable._hashTable.getD (_hash intHash nanSingleTable 1) [])
      = [(1, .nan)] ∧
    size nanErasedTable = 0 ∧
    (entries nanErasedTable).length = 1 ∧
    (nanErasedTable._hashTable.map List.length).sum = 1 ∧
    size nanErasedTable ≠ (entries nanErasedTable).length := by
  have heq : (erase intHash (insert intHash
      (mkDefault : HashMap Int DoubleVal) 1 .nan).1 1).1 = nanErasedTable := by
    decide!
  refine ⟨?_, by decide!, by decide!, by decide!, by decide!, by decide!, by decide!,
    by decide!, by decide!⟩
  rw [← heq]
  apply Reachable.erase
  apply Reachable.insert
  exact Reachable.default

/-- Size consistency for a value type whose `operator==` holds of every value
and itself: in every reachable table `size()` is the number of pairs in all
buckets, the sum of the bucket lengths; and `erase` of a present key removes
exactly one pair from the key's bucket and from the table while it lowers the
counter by one. -/
theorem size_consistency [Inhabited V] [ValueEq V] (hash : K → Nat)
    (hveq : ∀ v : V, ValueEq.veq v v = true) (m : HashMap K V)
    (hr : Reachable hash m) :
    size m = (entries m).length ∧
    size m = (m._hashTable.map List.length).sum ∧
    (∀ k, contains_key hash m k = true →
      (removeFound k (m._hashTable.getD (_hash hash m k) [])).length + 1
        = (m._hashTable.getD (_hash hash m k) []).length ∧
      size (erase hash m k).1 + 1 = size m ∧
      (entries (erase hash m k).1).length + 1 = (entries m).length ∧
      size (erase hash m k).1 = (entries (erase hash m k).1).length) := by
  have hwf := (Reachable.invariant hash hveq hr).1
  refine ⟨hwf.2.2.2.2, ?_, ?_⟩
  · simp only [size]
    rw [hwf.2.2.2.2, entries, List.length_flatten]
  · intro k hc
    obtain ⟨v, hv⟩ := (contains_key_iff hash hwf k).mp hc
    obtain ⟨-, hwf1, -, hsz, -⟩ := erase_present hash hveq hwf k hc
    refine ⟨?_, hsz, ?_, hwf1.2.2.2.2⟩
    · rw [removeFound_eq_filter hveq k _ (nodup_keys_bucket hash hwf _)]
      exact length_filter_ne_key k _ (nodup_keys_bucket hash hwf _)
        ⟨v, (hwf.mem_bucket_iff hash (k, v)).mpr hv⟩
    · rw [← hwf1.2.2.2.2, ← hwf.2.2.2.2]
      exact hsz

/-- Claim C30. Iterator safety on a well-formed table of size `N`: for `k < N`
the iterator after `k` increments of `begin()` exists, its bucket index is below
the capacity and its position denotes a pair of that bucket, the `k`-th pair of
the traversal, which is what dereferencing yields; after `N` increments the
bucket index is the capacity; and `begin() == end()` iff the table is empty. -/
theorem iterator_safety (hash : K → Nat) (m : HashMap K V) (hwf : WellFormed hash m) :
    (∀ k, k < size m →
      ∃ it p x, iterAfter m k = some it ∧ it._curIndex < capacity m ∧
        it._cur = some ⟨it._curIndex, p⟩ ∧
        p < (m._hashTable.getD it._curIndex []).length ∧
        (m._hashTable.getD it._curIndex [])[p]? = some x ∧
        deref m it = some x ∧ (entries m)[k]? = some x) ∧
    (∃ it, iterAfter m (size m) = some it ∧ it._curIndex = capacity m) ∧
    (∃ b, iterBegin m = some b ∧ (iterEq b (iterEnd m) = true ↔ empty m = true)) := by
  have hsz : (entries m).length = m._size := hwf.2.2.2.2.symm
  refine ⟨?_, ?_, ?_⟩
  · intro k hk
    have hk1 : k < (entries m).length := by rw [hsz]; exact hk
    obtain ⟨it, hit, hpos, hrest, -⟩ := iterAfter_spec m hwf.1 hwf.2.1 k (Nat.le_of_lt hk1)
    rw [List.drop_eq_getElem_cons hk1] at hrest
    obtain ⟨hidx, ⟨p, hcur, hp⟩, hderef, -⟩ := increment_spec m hwf.2.1 it hpos _ _ hrest
    refine ⟨it, p, (entries m)[k], hit, hidx, hcur, hp, ?_, hderef,
      List.getElem?_eq_getElem hk1⟩
    simpa only [deref, hcur] using hderef
  · obtain ⟨it, hit, hpos, hrest, -⟩ := iterAfter_spec m hwf.1 hwf.2.1 (size m)
      (by rw [hsz]; exact Nat.le_refl _)
    refine ⟨it, hit, ?_⟩
    rcases hpos with ⟨hidx, p, hcur, hp⟩ | hend
    · have hnil : (entries m).drop (size m) = [] := by
        rw [List.drop_eq_nil_iff]
        exact Nat.le_of_eq hsz
      rw [hnil] at hrest
      simp only [rest, hidx, if_true, hcur] at hrest
      rw [List.drop_eq_getElem_cons hp, List.cons_append] at hrest
      exact absurd hrest (List.cons_ne_nil _ _)
    · exact hend
  · obtain ⟨b, hb, -, -, hcnt⟩ := iterBegin_spec m hwf.1 hwf.2.1
    refine ⟨b, hb, ?_⟩
    simp only [iterEq, iterEnd, hcnt, empty, size, beq_iff_eq]
    exact eq_comm

/-- Witness of C30: in the table with the keys `1..13` and 33 the iterator after
one increment is at position 1 of bucket 1, the pair of key 33, and after 14
increments its bucket index is the capacity 32. -/
theorem iterator_safety_witness :
    WellFormed intHash bucketTestTable ∧
    iterAfter bucketTestTable 1 = some ⟨1, some ⟨1, 1⟩, 1⟩ ∧
    (iterAfter bucketTestTable 1).bind (deref bucketTestTable) = some (33, 19) ∧
    (iterAfter bucketTestTable 14).map (fun it => it._curIndex) = some 32 ∧
    ∃ it, iterAfter bucketTestTable (size bucketTestTable) = some it ∧
      it._curIndex = capacity bucketTestTable :=
  ⟨by decide!, by decide!, by decide!, by decide!,
    (iterator_safety intHash bucketTestTable (by decide!)).2.1⟩

end ContractInvariants

/-! ## Growth only: doubling keeps the order inside the buckets -/

section GrowOnlyLemmas

variable {K V : Type} [DecidableEq K] [DecidableEq V] (hash : K → Nat)

/-- After a rehash to the doubled power-of-two capacity, bucket `j` is a part of
the old bucket `j & (capacity - 1)`, in the old order. -/
theorem rehash_double_bucket {m : HashMap K V} (h : WellFormed hash m) (n : Nat)
    (hcap : m._capacity = 2 ^ n) (j : Nat) (hj : j < m._capacity * 2) :
    (_rehash hash m (m._capacity * 2))._hashTable.getD j [] =
      (m._hashTable.getD (j &&& (m._capacity - 1)) []).filter
        (fun p => decide (hash p.1 &&& (m._capacity * 2 - 1) = j)) := by
  rw [rehash_table hash m _ h.2.1,
    getD_rehashBucket hash _ _ _ j (by rw [List.length_replicate]; exact hj),
    getD_replicate_nil, List.nil_append,
    ← h.filter_entries hash (j &&& (m._capacity - 1)), List.filter_filter]
  apply List.filter_congr
  intro p _
  by_cases hp : hash p.1 &&& (m._capacity * 2 - 1) = j
  · have : hash p.1 &&& (m._capacity - 1) = j &&& (m._capacity - 1) := by
      rw [← hp, hcap, and_mask_double]
    simp [hp, this]
  · simp [hp]

/-- `insert` and `m[key] = val` complete, keep the invariant and do not lower
the capacity. -/
theorem step_adds_capacity [Inhabited V] [ValueEq V] {m : HashMap K V} (h : Invariant hash m)
    (op : Op K V) (hadds : Op.adds op = true) :
    ∃ m1 flag, step hash m op = .ok (m1, flag) ∧ Invariant hash m1 ∧
      capacity m ≤ capacity m1 := by
  have hins : ∀ (key : K) (val : V), capacity m ≤ capacity (insert hash m key val).1 := by
    intro key val
    by_cases hc : contains_key hash m key = true
    · rw [insert_present hash m key val hc]
    · have hcap := (insert_absent hash h.1 key val (by simpa using hc)).2.2.2.2
      simp only [capacity]
      rw [hcap]
      split <;> omega
  cases op with
  | insert key val =>
    exact ⟨_, _, rfl, invariant_insert hash h key val, hins key val⟩
  | subscriptAssign key val =>
    obtain ⟨r, hok, -⟩ := subscriptAssign_spec hash h.1 key val
    refine ⟨writeRef (subscript hash m key).1 r val, none, by simp only [step, hok],
      invariant_subscriptAssign hash h key val hok, ?_⟩
    have hsub := (subscript_spec hash h.1 key).1
    have hcapw : capacity (writeRef (subscript hash m key).1 r val)
        = capacity (subscript hash m key).1 := rfl
    rw [hcapw, hsub]
    split
    · exact Nat.le_refl _
    · exact hins key default
  | erase key => simp [Op.adds] at hadds
  | clear => simp [Op.adds] at hadds

/-- A run of `insert` and `m[key] = val` never halves the capacity. -/
theorem noHalving_of_adds [Inhabited V] [ValueEq V] (ops : List (Op K V)) :
    ∀ m : HashMap K V, Invariant hash m → (∀ op ∈ ops, Op.adds op = true) →
      NoHalving hash m ops = true := by
  induction ops with
  | nil => intro m _ _; rfl
  | cons op ops ih =>
    intro m h hadds
    obtain ⟨m1, flag, hstep, hinv1, hcap⟩ :=
      step_adds_capacity hash h op (hadds op (List.mem_cons_self _ _))
    simp only [NoHalving, hstep, Bool.and_eq_true, decide_eq_true_eq]
    exact ⟨hcap, ih m1 hinv1 (fun o ho => hadds o (List.mem_cons_of_mem _ ho))⟩

end GrowOnlyLemmas

/-! ## The contract: growth only -/

section ContractGrowOnly

variable {K V : Type} [DecidableEq K] [DecidableEq V]

/-- Claim C31. Grow-only order preservation.  Every sequence of `insert` and
`m[key] = val` operations on the default table completes with a table in which
the keys of each bucket appear in the order in which they were inserted: each
bucket's key list is a sublist of the duplicate-free list of the stored keys in
insertion order, so two keys of one bucket are in bucket order iff they are in
insertion order.  A further rehash to the doubled capacity makes every new
bucket a sublist of one old bucket and so reorders no two keys. -/
theorem grow_only_order [Inhabited V] [ValueEq V] (hash : K → Nat) (ops : List (Op K V))
    (hadds : ∀ op ∈ ops, Op.adds op = true) :
    ∃ m : HashMap K V, run hash mkDefault ops = .ok m ∧
      (insertionOrder ops).Nodup ∧
      (∀ k, k ∈ insertionOrder ops ↔ contains_key hash m k = true) ∧
      (∀ i, ((m._hashTable.getD i []).map Prod.fst).Sublist (insertionOrder ops)) ∧
      (∀ i k1 k2, k1 ∈ (m._hashTable.getD i []).map Prod.fst →
        k2 ∈ (m._hashTable.getD i []).map Prod.fst →
        ([k1, k2].Sublist ((m._hashTable.getD i []).map Prod.fst) ↔
          [k1, k2].Sublist (insertionOrder ops))) ∧
      (∀ j, ((_rehash hash m (capacity m * 2))._hashTable.getD j []).Sublist
        (m._hashTable.getD (j &&& (capacity m - 1)) [])) := by
  have hnoerase : ∀ key, Op.erase key ∉ ops := by
    intro key hmem
    have := hadds _ hmem
    simp [Op.adds] at this
  obtain ⟨m, hrun, -, -⟩ := run_sim hash ops (Or.inr hnoerase) (mkDefault : HashMap K V) []
    (wellFormed_default hash) (by simp [entries, mkDefault, flatten_replicate_nil])
  obtain ⟨ho, hinv⟩ := run_orderInv hash ops (Or.inr hnoerase) mkDefault []
    (invariant_default hash) (orderInv_default hash)
    (noHalving_of_adds hash ops mkDefault (invariant_default hash) hadds) m hrun
  obtain ⟨hwf, -, n, hn⟩ := hinv
  refine ⟨m, hrun, ho.1, ho.2.1, ho.2.2, ?_, ?_⟩
  · intro i k1 k2 h1 h2
    exact pair_sublist_iff_of_sublist (ho.2.2 i) ho.1 k1 k2 h1 h2
  · intro j
    by_cases hj : j < m._capacity * 2
    · simp only [capacity]
      rw [rehash_double_bucket hash hwf n hn j hj]
      exact List.filter_sublist _
    · have hlen : (_rehash hash m (capacity m * 2))._hashTable.length ≤ j := by
        rw [rehash_table hash m _ hwf.2.1, length_rehashBucket, List.length_replicate]
        exact Nat.le_of_not_lt hj
      rw [List.getD_eq_default _ _ hlen]
      exact List.nil_sublist _

/-- Witness of C31: thirteen insertions into the default table, with the keys 1,
17 and 33 first.  After twelve of them the three keys share bucket 1 at capacity
16; the thirteenth insertion doubles the capacity, after which bucket 1 holds
the keys 1 and 33 and bucket 17 the key 17, in the order of insertion. -/
theorem grow_only_order_witness :
    (∀ op ∈ insertOps [1, 17, 33, 2, 3, 4, 5, 6, 7, 8, 9, 10, 11], Op.adds op = true) ∧
    (run intHash mkDefault (insertOps [1, 17, 33, 2, 3, 4, 5, 6, 7, 8, 9, 10])).map
      (fun m => (capacity m, m._hashTable.getD 1 []))
        = .ok (16, [(1, 1), (17, 17), (33, 33)]) ∧
    (run intHash mkDefault (insertOps [1, 17, 33, 2, 3, 4, 5, 6, 7, 8, 9, 10, 11])).map
      (fun m => (capacity m, m._hashTable.getD 1 [], m._hashTable.getD 17 []))
        = .ok (32, [(1, 1), (33, 33)], [(17, 17)]) ∧
    insertionOrder (insertOps [1, 17, 33, 2, 3, 4, 5, 6, 7, 8, 9, 10, 11])
      = [1, 17, 33, 2, 3, 4, 5, 6, 7, 8, 9, 10, 11] ∧
    ∃ m : HashMap Int Int,
      run intHash mkDefault (insertOps [1, 17, 33, 2, 3, 4, 5, 6, 7, 8, 9, 10, 11]) = .ok m ∧
      ∀ i, ((m._hashTable.getD i []).map Prod.fst).Sublist
        (insertionOrder (insertOps [1, 17, 33, 2, 3, 4, 5, 6, 7, 8, 9, 10, 11])) :=
  ⟨by decide, by decide!, by decide!, by decide,
    (grow_only_order intHash (insertOps [1, 17, 33, 2, 3, 4, 5, 6, 7, 8, 9, 10, 11])
      (by decide)).imp (fun _ h => ⟨h.1, h.2.2.2.1⟩)⟩

end ContractGrowOnly

end HashMapLib
